import Mathlib

/-!
# Decrypt9 — decryption and key-derivation engine

A shallow embedding of `source/decryptor/decryptor.c`.

* Bytes are natural numbers below 256; byte arrays and memory regions are lists of bytes.
* `u32` arithmetic is arithmetic on `Nat` with an explicit `% 2 ^ 32` where the C code can wrap.
* The hardware AES engine, the hash functions and the file layer are collaborators whose code
  is not part of `decryptor.c`; they enter as explicit parameters or as small state machines
  written down from the design document, and are marked as such.
* A C loop whose termination depends on its data is a function with a fuel argument that returns
  `none` when the fuel runs out; each entry point supplies fuel that is sufficient whenever the
  loop terminates at all.
-/

namespace Decrypt9

/-! ## Bytes and big-endian integers -/

/-- Value of a byte string read as a big-endian integer (first byte most significant). -/
def beVal (l : List Nat) : Nat :=
  l.foldl (fun acc b => acc * 256 + b) 0

/-- The big-endian encoding of `n` on `len` bytes (the low-order `len` bytes of `n`). -/
def beBytes : Nat → Nat → List Nat
  | 0, _ => []
  | len + 1, n => beBytes len (n / 256) ++ [n % 256]

/-- C `memcpy(dst, src, n)` on byte arrays: the first `n` bytes of `dst` are replaced by the
first `n` bytes of `src`. -/
def memcpy (dst src : List Nat) (n : Nat) : List Nat :=
  src.take n ++ dst.drop n

/-- C `memcmp(a, b, n) == 0` on two `n`-byte spans already cut out of memory. -/
def memcmp_eq (a b : List Nat) : Bool :=
  decide (a = b)

/-- The `n` bytes of a byte-addressed memory or device `buffer` starting at offset `p`. -/
def readBytes (buffer : Nat → Nat) (p n : Nat) : List Nat :=
  (List.range n).map (fun k => buffer (p + k))

/-- A well-formed counter: 16 bytes. -/
def WfCtr (c : List Nat) : Prop := c.length = 16 ∧ ∀ b ∈ c, b < 256

instance WfCtr.decide (c : List Nat) : Decidable (WfCtr c) := by unfold WfCtr; infer_instance

/-! ## Collaborators: counter arithmetic, hashes, the AES engine -/

/-- Modelled from the spec: `add_ctr` (crypto.c, not in this file). The design document fixes it
as "a 128-bit big-endian integer addition, mod 2^128" on the 16-byte counter. -/
def add_ctr (ctr : List Nat) (carry : Nat) : List Nat :=
  beBytes 16 ((beVal ctr + carry) % 2 ^ 128)

/-- Modelled from the spec: the hash capabilities (sha1.c / sha256.c, consumed, not reimplemented)
and the 16-byte console identity found at `NAND_CID`. `sha1` yields a 20-byte digest and `sha256`
a 32-byte digest of the byte span it is given. -/
structure Console where
  sha1 : List Nat → List Nat
  sha256 : List Nat → List Nat
  nand_cid : List Nat

/-- Modelled from the spec: cipher-mode tags (`AES_CNT_*_MODE` of crypto.h). -/
inductive AesMode where
  | AES_CNT_CTRNAND_MODE
  | AES_CNT_TWLNAND_MODE
  | AES_CNT_TITLEKEY_MODE
  deriving DecidableEq, Repr

open AesMode

/-- Modelled from the spec: the single-block cipher transform of the hardware engine. It
"operates on exactly one block under a given key slot and counter register value": the output
block is a function of the selected slot, the key-Y resident in that slot, the mode tag, the
counter register and the input block, and is one block (16 bytes) long. -/
structure AesEngine where
  block : Nat → List Nat → AesMode → List Nat → List Nat → List Nat
  block_length : ∀ slot keyY mode ctr inp, (block slot keyY mode ctr inp).length = 16

/-- Modelled from the spec: the registers of the AES engine that `decryptor.c` drives: the key-Y
resident in each key slot, the slot selected by `use_aeskey`, the counter register. -/
structure AesHw where
  keyY : Nat → List Nat
  keyslot : Nat
  ctr : List Nat

/-- Modelled from the spec: `setup_aeskey(keyslot, AES_BIG_INPUT | AES_NORMAL_INPUT, keyY)`
"installs a 16-byte key-Y into a numbered slot", overwriting what the slot held. -/
def setup_aeskey (hw : AesHw) (keyslot : Nat) (keyY : List Nat) : AesHw :=
  { hw with keyY := fun s => if s = keyslot then keyY else hw.keyY s }

/-- Modelled from the spec: `use_aeskey(keyslot)` selects the slot used by later transforms. -/
def use_aeskey (hw : AesHw) (keyslot : Nat) : AesHw :=
  { hw with keyslot := keyslot }

/-- Modelled from the spec: `set_ctr(ctr)` loads the counter register. -/
def set_ctr (hw : AesHw) (ctr : List Nat) : AesHw :=
  { hw with ctr := ctr }

/-- Modelled from the spec: `aes_decrypt(in, out, ctr, 1, mode)`, one block through the engine
in its current state; the result is what is stored at `out`. -/
def aes_decrypt (E : AesEngine) (hw : AesHw) (inp : List Nat) (mode : AesMode) : List Nat :=
  E.block hw.keyslot (hw.keyY hw.keyslot) mode hw.ctr inp

/-! ## `GetNandCtr` -/

/-- The loop `for (i = 0; i < 16; i++) ctr[i] = sha1sum[15-i];` of `GetNandCtr`. -/
def GetNandCtr.reverseLoop (sha1sum : List Nat) : Nat → Nat → List Nat → List Nat
  | 0, _, ctr => ctr
  | n + 1, i, ctr => GetNandCtr.reverseLoop sha1sum n (i + 1) (ctr.set i (sha1sum.getD (15 - i) 0))

/-- The 16 bytes that `GetNandCtr` leaves in `ctr` for the device byte offset `offset`. -/
def GetNandCtr (C : Console) (ctr : List Nat) (offset : Nat) : List Nat :=
  let ctr1 :=
    if offset ≥ 0x0B100000 then
      let sha256sum := C.sha256 (C.nand_cid.take 16)
      memcpy ctr sha256sum 0x10
    else
      let sha1sum := C.sha1 (C.nand_cid.take 16)
      GetNandCtr.reverseLoop sha1sum 16 0 ctr
  add_ctr ctr1 (offset / 0x10)

/-! ## `DecryptBuffer` -/

/-- The `DecryptBufferInfo` job. `buffer` is the memory the job's pointer refers to, from the
pointer onwards. -/
structure DecryptBufferInfo where
  keyslot : Nat
  setKeyY : Nat
  CTR : List Nat
  keyY : List Nat
  size : Nat
  buffer : List Nat
  mode : AesMode

/-- The block loop of `DecryptBuffer`: `for (i = 0; i < size; i += 0x10, buffer += 0x10)`.
`buf` is the memory from the moving pointer `buffer` onwards; the result is that memory after
the remaining iterations, with the engine state and the counter. `i` is a `u32`. -/
def DecryptBuffer.loop (E : AesEngine) (mode : AesMode) (size : Nat) :
    Nat → Nat → AesHw → List Nat → List Nat → Option (AesHw × List Nat × List Nat)
  | 0, _, _, _, _ => none
  | fuel + 1, i, hw, ctr, buf =>
    if i < size then
      let hw1 := set_ctr hw ctr
      let out := aes_decrypt E hw1 (buf.take 0x10) mode
      let ctr1 := add_ctr ctr 0x1
      match DecryptBuffer.loop E mode size fuel ((i + 0x10) % 2 ^ 32) hw1 ctr1 (buf.drop 0x10) with
      | none => none
      | some (hw2, ctr2, rest) => some (hw2, ctr2, out ++ rest)
    else
      some (hw, ctr, buf)

/-- Fuel for the block loop: a `u32` size admits at most `2 ^ 28` iterations before `i` wraps. -/
def DecryptBuffer.fuel : Nat := 2 ^ 28 + 1

/-- The function `DecryptBuffer`: engine state and job after the call; `none` when the block loop
never terminates. -/
def DecryptBuffer (E : AesEngine) (hw : AesHw) (info : DecryptBufferInfo) :
    Option (AesHw × DecryptBufferInfo) :=
  let hw1 := if info.setKeyY ≠ 0 then setup_aeskey hw info.keyslot info.keyY else hw
  let info1 := if info.setKeyY ≠ 0 then { info with setKeyY := 0 } else info
  let hw2 := use_aeskey hw1 info.keyslot
  match DecryptBuffer.loop E info.mode info.size DecryptBuffer.fuel 0 hw2 info.CTR info.buffer with
  | none => none
  | some (hw3, ctr, buf) => some (hw3, { info1 with CTR := ctr, buffer := buf })

/-! ### Counter-mode runs, used to state what the block loops compute -/

/-- The counter after `n` single increments by `add_ctr`. -/
def ctrAfter : Nat → List Nat → List Nat
  | 0, c => c
  | n + 1, c => ctrAfter n (add_ctr c 0x1)

/-- Counter-mode run over the first `n` blocks of `buf` under a fixed slot, key-Y and mode: block
`k` goes through the single-block transform with the counter incremented `k` times; what follows
the `n` blocks is left as it is. -/
def ctrRun (E : AesEngine) (slot : Nat) (keyY : List Nat) (mode : AesMode) :
    Nat → List Nat → List Nat → List Nat
  | 0, _, buf => buf
  | n + 1, ctr, buf =>
    E.block slot keyY mode ctr (buf.take 16) ++ ctrRun E slot keyY mode n (add_ctr ctr 1) (buf.drop 16)

/-! ## Constants -/

/-- The constant `BUFFER_MAX_SIZE`. -/
def BUFFER_MAX_SIZE : Nat := 1 * 1024 * 1024

/-- The constant `NAND_SECTOR_SIZE`. -/
def NAND_SECTOR_SIZE : Nat := 0x200

/-- The constant `SECTORS_PER_READ`. -/
def SECTORS_PER_READ : Nat := BUFFER_MAX_SIZE / NAND_SECTOR_SIZE

/-! ## The partition table and `DecryptNandToMem` -/

/-- The `PartitionInfo` descriptor. -/
structure PartitionInfo where
  name : String
  offset : Nat
  size : Nat
  keyslot : Nat
  mode : AesMode
  deriving DecidableEq, Repr

/-- The table `partitions[]`. -/
def partitions : List PartitionInfo :=
  [ { name := "TWLN", offset := 0x00012E00, size := 0x08FB5200, keyslot := 0x3,
      mode := AES_CNT_TWLNAND_MODE },
    { name := "TWLP", offset := 0x09011A00, size := 0x020B6600, keyslot := 0x3,
      mode := AES_CNT_TWLNAND_MODE },
    { name := "AGBSAVE", offset := 0x0B100000, size := 0x00030000, keyslot := 0x7,
      mode := AES_CNT_CTRNAND_MODE },
    { name := "FIRM0", offset := 0x0B130000, size := 0x00400000, keyslot := 0x6,
      mode := AES_CNT_CTRNAND_MODE },
    { name := "FIRM1", offset := 0x0B530000, size := 0x00400000, keyslot := 0x6,
      mode := AES_CNT_CTRNAND_MODE },
    { name := "CTRNAND", offset := 0x0B95CA00, size := 0x2F3E3600, keyslot := 0x4,
      mode := AES_CNT_CTRNAND_MODE },
    { name := "CTRNAND", offset := 0x0B95AE00, size := 0x41D2D200, keyslot := 0x5,
      mode := AES_CNT_CTRNAND_MODE } ]

/-- Modelled from the spec: `sdmmc_nand_readsectors(start_sector, n_sectors, buffer)`, the block
device's `read_sectors(start, count, buffer)` with its fixed sector size: the sectors' bytes
replace the start of `buffer`. `nand` is the device, byte by byte. -/
def sdmmc_nand_readsectors (nand : Nat → Nat) (start_sector n_sectors : Nat)
    (buffer : List Nat) : List Nat :=
  memcpy buffer (readBytes nand (start_sector * NAND_SECTOR_SIZE) (n_sectors * NAND_SECTOR_SIZE))
    (n_sectors * NAND_SECTOR_SIZE)

/-- The function `DecryptNandToMem`: return code, engine state and the memory at `buffer` after
the call. -/
def DecryptNandToMem (E : AesEngine) (C : Console) (nand : Nat → Nat) (hw : AesHw)
    (buffer : List Nat) (offset size : Nat) (partition : PartitionInfo) :
    Option (Nat × AesHw × List Nat) :=
  let info : DecryptBufferInfo :=
    { keyslot := partition.keyslot, setKeyY := 0, CTR := List.replicate 16 0,
      keyY := List.replicate 16 0, size := size, buffer := buffer, mode := partition.mode }
  let info1 := { info with CTR := GetNandCtr C info.CTR offset }
  let n_sectors := size / NAND_SECTOR_SIZE
  let start_sector := offset / NAND_SECTOR_SIZE
  let buffer1 := sdmmc_nand_readsectors nand start_sector n_sectors buffer
  match DecryptBuffer E hw { info1 with buffer := buffer1 } with
  | none => none
  | some (hw1, info2) => some (0, hw1, info2.buffer)

/-- Device used in the worked examples: byte `a` holds `a % 251`. -/
def demoNand : Nat → Nat := fun a => a % 251

/-! ## The file layer and `CreatePad` -/

/-- Modelled from the spec: the file layer (fs.c / debugfs.c). Only the outcome of each call is
visible to `decryptor.c`: whether creating or opening the named file succeeds and whether the
positioned write or read of `size` bytes at file position `offset` succeeds. -/
structure FileLayer where
  createOk : String → Bool
  writeOk : Nat → Nat → Bool
  openOk : String → Bool
  readOk : Nat → Nat → Bool

/-- The positioned writes a function has issued on its output file, in order: file position and
the bytes written there. -/
abbrev Writes := List (Nat × List Nat)

/-- Modelled from the spec: one positioned write on a file's contents; a gap between the end of
the file and the position is zero-filled. -/
def pwrite (file : List Nat) (pos : Nat) (data : List Nat) : List Nat :=
  file.take pos ++ List.replicate (pos - file.length) 0 ++ data ++ file.drop (pos + data.length)

/-- Contents of a freshly created file after the given positioned writes. -/
def fileOf (ws : Writes) : List Nat :=
  ws.foldl (fun f w => pwrite f w.1 w.2) []

/-- The `PadInfo` job. -/
structure PadInfo where
  keyslot : Nat
  setKeyY : Nat
  CTR : List Nat
  keyY : List Nat
  size_mb : Nat
  filename : String

/-- The constant `zero_buf` of `CreatePad`. -/
def zero_buf : List Nat := List.replicate 16 0

/-- The inner loop of `CreatePad`: `for (j = 0; j < curr_block_size; j += 16)`. `buf` is the
scratch memory from `buffer + j` onwards. -/
def CreatePad.inner (E : AesEngine) (curr_block_size : Nat) :
    Nat → Nat → AesHw → List Nat → List Nat → Option (AesHw × List Nat × List Nat)
  | 0, _, _, _, _ => none
  | fuel + 1, j, hw, ctr, buf =>
    if j < curr_block_size then
      let hw1 := set_ctr hw ctr
      let out := aes_decrypt E hw1 zero_buf AES_CNT_CTRNAND_MODE
      let ctr1 := add_ctr ctr 1
      match CreatePad.inner E curr_block_size fuel ((j + 16) % 2 ^ 32) hw1 ctr1 (buf.drop 16) with
      | none => none
      | some (hw2, ctr2, rest) => some (hw2, ctr2, out ++ rest)
    else
      some (hw, ctr, buf)

/-- Fuel for the inner loop: a chunk holds at most `BUFFER_MAX_SIZE / 16` blocks. -/
def CreatePad.innerFuel : Nat := BUFFER_MAX_SIZE / 16 + 1

/-- The outer loop of `CreatePad`: `for (i = 0; i < size_bytes; i += BUFFER_MAX_SIZE)`. The
result is the return code, the engine state and the writes issued. -/
def CreatePad.outer (E : AesEngine) (fl : FileLayer) (size_bytes : Nat) :
    Nat → Nat → AesHw → List Nat → List Nat → Writes → Option (Nat × AesHw × Writes)
  | 0, _, _, _, _, _ => none
  | fuel + 1, i, hw, ctr, buffer, ws =>
    if i < size_bytes then
      let curr_block_size := min BUFFER_MAX_SIZE (size_bytes - i)
      match CreatePad.inner E curr_block_size CreatePad.innerFuel 0 hw ctr buffer with
      | none => none
      | some (hw1, ctr1, buffer1) =>
        if !fl.writeOk curr_block_size i then
          some (1, hw1, ws)
        else
          CreatePad.outer E fl size_bytes fuel ((i + BUFFER_MAX_SIZE) % 2 ^ 32) hw1 ctr1 buffer1
            (ws ++ [(i, buffer1.take curr_block_size)])
    else
      some (0, hw, ws)

/-- Fuel for the outer loop: a `u32` byte count holds fewer than `2 ^ 12` chunks. -/
def CreatePad.outerFuel : Nat := 2 ^ 32 / BUFFER_MAX_SIZE + 1

/-- The function `CreatePad`: return code, engine state and the writes issued on the pad file.
`buffer` is the content of the scratch memory at `BUFFER_ADDRESS` on entry. -/
def CreatePad (E : AesEngine) (fl : FileLayer) (hw : AesHw) (buffer : List Nat) (info : PadInfo) :
    Option (Nat × AesHw × Writes) :=
  if !fl.createOk info.filename then
    some (1, hw, [])
  else
    let hw1 := if info.setKeyY ≠ 0 then setup_aeskey hw info.keyslot info.keyY else hw
    let hw2 := use_aeskey hw1 info.keyslot
    let ctr := memcpy (List.replicate 16 0) info.CTR 16
    let size_bytes := (info.size_mb * 1024 * 1024) % 2 ^ 32
    CreatePad.outer E fl size_bytes CreatePad.outerFuel 0 hw2 ctr buffer []

/-- Keystream of `n` blocks: the transforms of the all-zero block under the counter and its
successors, concatenated. -/
def padRun (E : AesEngine) (slot : Nat) (keyY : List Nat) : Nat → List Nat → List Nat
  | 0, _ => []
  | n + 1, ctr =>
    E.block slot keyY AES_CNT_CTRNAND_MODE ctr zero_buf ++ padRun E slot keyY n (add_ctr ctr 1)

/-- Number of cipher blocks in one full chunk of the scratch buffer. -/
def blocksPerChunk : Nat := BUFFER_MAX_SIZE / 16

/-- The writes of `n` full chunks of keystream starting at chunk index `c`: chunk `c + t` is
placed at file position `(c + t) * BUFFER_MAX_SIZE` and holds the keystream under the counter
advanced by `t` chunks of blocks. -/
def padChunks (E : AesEngine) (slot : Nat) (keyY : List Nat) (c n : Nat) (ctr : List Nat) :
    Writes :=
  (List.range n).map (fun t =>
    ((c + t) * BUFFER_MAX_SIZE, padRun E slot keyY blocksPerChunk (ctrAfter (t * blocksPerChunk) ctr)))

/-- Pad job used in the worked examples. -/
def demoPad (size_mb : Nat) : PadInfo where
  keyslot := 0x2C
  setKeyY := 1
  CTR := List.replicate 16 0xFF
  keyY := List.replicate 16 1
  size_mb := size_mb
  filename := "/demo.xorpad"

/-- File layer on which every call succeeds. -/
def okFiles : FileLayer where
  createOk := fun _ => true
  writeOk := fun _ _ => true
  openOk := fun _ => true
  readOk := fun _ _ => true

/-- Byte-wise XOR of two byte strings. -/
def xorBytes (a b : List Nat) : List Nat :=
  List.zipWith (fun x y => x ^^^ y) a b

/-- The single-block transform modelled as input XOR keystream: the keystream block is a function
of slot, resident key-Y, mode and counter. -/
def xorEngine (keystream : Nat → List Nat → AesMode → List Nat → List Nat) : AesEngine where
  block := fun slot keyY mode ctr inp =>
    (List.range 16).map (fun i => inp.getD i 0 ^^^ (keystream slot keyY mode ctr).getD i 0)
  block_length := by intros; simp

/-! ## Title keys: `DecryptTitlekey`, `DecryptTitlekeysFile`, the scan of `DecryptTitlekeysNand` -/

/-- The constant `TICKET_SIZE`. -/
def TICKET_SIZE : Nat := 0xD0000

/-- The table `common_keyy[6][16]`. -/
def common_keyy : List (List Nat) :=
  [ [0xD0, 0x7B, 0x33, 0x7F, 0x9C, 0xA4, 0x38, 0x59, 0x32, 0xA2, 0xE2, 0x57, 0x23, 0x23, 0x2E, 0xB9],
    [0x0C, 0x76, 0x72, 0x30, 0xF0, 0x99, 0x8F, 0x1C, 0x46, 0x82, 0x82, 0x02, 0xFA, 0xAC, 0xBE, 0x4C],
    [0xC4, 0x75, 0xCB, 0x3A, 0xB8, 0xC7, 0x88, 0xBB, 0x57, 0x5E, 0x12, 0xA1, 0x09, 0x07, 0xB8, 0xA4],
    [0xE4, 0x86, 0xEE, 0xE3, 0xD0, 0xC0, 0x9C, 0x90, 0x2F, 0x66, 0x86, 0xD4, 0xC0, 0x6F, 0x64, 0x9F],
    [0xED, 0x31, 0xBA, 0x9C, 0x04, 0xB0, 0x67, 0x50, 0x6C, 0x44, 0x97, 0xA3, 0x5B, 0x78, 0x04, 0xFC],
    [0x5E, 0x66, 0x99, 0x8A, 0xB4, 0xE8, 0x93, 0x16, 0x06, 0x85, 0x0F, 0xD7, 0xA1, 0x6D, 0xD7, 0x55] ]

/-- The `TitleKeyEntry` record as `decryptor.c` uses it: the fields `commonKeyIndex`, `titleId`
(8 bytes) and `encryptedTitleKey` (16 bytes). -/
structure TitleKeyEntry where
  commonKeyIndex : Nat
  titleId : List Nat
  encryptedTitleKey : List Nat
  deriving DecidableEq, Repr

/-- The `EncKeysInfo` bundle: the count header and the entries array. -/
structure EncKeysInfo where
  n_entries : Nat
  entries : List TitleKeyEntry
  deriving DecidableEq, Repr

/-- The function `DecryptTitlekey`: engine state and entry after the call. The read
`common_keyy[entry->commonKeyIndex]` has no defined result outside the six rows of the table;
the model returns `none` there. -/
def DecryptTitlekey (E : AesEngine) (hw : AesHw) (entry : TitleKeyEntry) :
    Option (AesHw × TitleKeyEntry) :=
  let ctr0 := List.replicate 16 0
  let ctr := memcpy ctr0 entry.titleId 8
  match common_keyy[entry.commonKeyIndex]? with
  | none => none
  | some row =>
    let keyY := memcpy (List.replicate 16 0) row 16
    let hw1 := set_ctr hw ctr
    let hw2 := setup_aeskey hw1 0x3D keyY
    let hw3 := use_aeskey hw2 0x3D
    let out := aes_decrypt E hw3 entry.encryptedTitleKey AES_CNT_TITLEKEY_MODE
    some (hw3, { entry with encryptedTitleKey := out })

/-- The loop `for (i = 0; i < info->n_entries; i++) DecryptTitlekey(&(info->entries[i]));` of
`DecryptTitlekeysFile`, over the entries it visits. -/
def DecryptTitlekeysFile.loop (E : AesEngine) :
    List TitleKeyEntry → AesHw → Option (AesHw × List TitleKeyEntry)
  | [], hw => some (hw, [])
  | e :: rest, hw =>
    match DecryptTitlekey E hw e with
    | none => none
    | some (hw1, e1) =>
      match DecryptTitlekeysFile.loop E rest hw1 with
      | none => none
      | some (hw2, rest1) => some (hw2, e1 :: rest1)

/-- What a run of `DecryptTitlekeysFile` leaves: the return code, the engine state, the entries
returned by the calls of `DecryptTitlekey` made, in order, whether `/decTitleKeys.bin` has been
created, and the bundle written to it if any: the count of the header and the records that the
`n_entries * sizeof(TitleKeyEntry) + 16` bytes written hold. -/
structure TitlekeysFileResult where
  code : Nat
  hw : AesHw
  decrypted : List TitleKeyEntry
  created : Bool
  written : Option EncKeysInfo

/-- The function `DecryptTitlekeysFile`. `file` is what `/encTitleKeys.bin` holds: the count in
its header and its entries array; `MAX_ENTRIES` is the constant of decryptor.h. -/
def DecryptTitlekeysFile (E : AesEngine) (MAX_ENTRIES : Nat) (fl : FileLayer) (hw : AesHw)
    (file : EncKeysInfo) : Option TitlekeysFileResult :=
  let fail : Option TitlekeysFileResult :=
    some { code := 1, hw := hw, decrypted := [], created := false, written := none }
  if !fl.openOk "/encTitleKeys.bin" then fail
  else if !fl.readOk 16 0 then fail
  else if file.n_entries = 0 ∨ file.n_entries > MAX_ENTRIES then fail
  else if !fl.readOk (file.n_entries * 0x20) 16 then fail
  else
    match DecryptTitlekeysFile.loop E (file.entries.take file.n_entries) hw with
    | none => none
    | some (hw1, es) =>
      if !fl.createOk "/decTitleKeys.bin" then
        some { code := 1, hw := hw1, decrypted := es, created := false, written := none }
      else if !fl.writeOk (file.n_entries * 0x20 + 16) 0 then
        some { code := 1, hw := hw1, decrypted := es, created := true, written := none }
      else
        some { code := 0, hw := hw1, decrypted := es, created := true,
               written := some { n_entries := file.n_entries, entries := es } }

/-- The 26 bytes of the string `"Root-CA00000003-XS0000000c"`. -/
def issuer : List Nat :=
  [0x52, 0x6F, 0x6F, 0x74, 0x2D, 0x43, 0x41, 0x30, 0x30, 0x30, 0x30, 0x30, 0x30, 0x30, 0x33, 0x2D,
   0x58, 0x53, 0x30, 0x30, 0x30, 0x30, 0x30, 0x30, 0x30, 0x63]

/-- The loop `for (exid = 0; exid < nKeys; exid++) if (memcmp(titleId, entries[exid].titleId, 8)
== 0) break;`: the value of `exid` after it, started at `exid` on the entries from there on. -/
def DecryptTitlekeysNand.findExid (titleId : List Nat) : List TitleKeyEntry → Nat → Nat
  | [], exid => exid
  | e :: rest, exid =>
    if memcmp_eq (titleId.take 8) (e.titleId.take 8) then exid
    else DecryptTitlekeysNand.findExid titleId rest (exid + 1)

/-- The body of the scan loop of `DecryptTitlekeysNand` at stride `i`: engine state and the
entries `info->entries[0 .. nKeys)` after it. `buffer` is the ticket memory at `BUFFER_ADDRESS`,
indexed by offset. -/
def DecryptTitlekeysNand.body (E : AesEngine) (buffer : Nat → Nat) (i : Nat) (hw : AesHw)
    (entries : List TitleKeyEntry) : Option (AesHw × List TitleKeyEntry) :=
  if memcmp_eq (readBytes buffer i 26) issuer then
    let titleId := readBytes buffer (i + 0x9C) 8
    let commonKeyIndex := buffer (i + 0xB1)
    let titlekey := readBytes buffer (i + 0x7F) 16
    let nKeys := entries.length
    let exid := DecryptTitlekeysNand.findExid titleId entries 0
    if exid < nKeys then
      some (hw, entries)
    else
      let e0 : TitleKeyEntry :=
        { commonKeyIndex := 0, titleId := List.replicate 8 0,
          encryptedTitleKey := List.replicate 16 0 }
      let e1 := { e0 with titleId := memcpy e0.titleId titleId 8 }
      let e2 := { e1 with encryptedTitleKey := memcpy e1.encryptedTitleKey titlekey 16 }
      let e3 := { e2 with commonKeyIndex := commonKeyIndex }
      match DecryptTitlekey E hw e3 with
      | none => none
      | some (hw1, e4) => some (hw1, entries ++ [e4])
  else
    some (hw, entries)

/-- The scan loop of `DecryptTitlekeysNand`:
`for (i = 0x158; i < (2 * TICKET_SIZE) - 0x200; i += 0x200)`. -/
def DecryptTitlekeysNand.loop (E : AesEngine) (buffer : Nat → Nat) :
    Nat → Nat → AesHw → List TitleKeyEntry → Option (AesHw × List TitleKeyEntry)
  | 0, _, _, _ => none
  | fuel + 1, i, hw, entries =>
    if i < 2 * TICKET_SIZE - 0x200 then
      match DecryptTitlekeysNand.body E buffer i hw entries with
      | none => none
      | some (hw1, entries1) =>
        DecryptTitlekeysNand.loop E buffer fuel ((i + 0x200) % 2 ^ 32) hw1 entries1
    else
      some (hw, entries)

/-- Fuel for the scan loop: the ticket buffer holds fewer than `2 * TICKET_SIZE / 0x200`
strides. -/
def DecryptTitlekeysNand.fuel : Nat := 2 * TICKET_SIZE / 0x200 + 1

/-- The signature scan of `DecryptTitlekeysNand` (from `memset(info, 0, 0x10)` to
`info->n_entries = nKeys`): engine state and the bundle built. -/
def DecryptTitlekeysNand.scan (E : AesEngine) (hw : AesHw) (buffer : Nat → Nat) :
    Option (AesHw × EncKeysInfo) :=
  match DecryptTitlekeysNand.loop E buffer DecryptTitlekeysNand.fuel 0x158 hw [] with
  | none => none
  | some (hw1, entries) => some (hw1, { n_entries := entries.length, entries := entries })

/-- The stride offsets the scan visits, in order. -/
def strides : List Nat :=
  (List.range 3327).map (fun k => 0x158 + 0x200 * k)

/-- The scan loop body run over a list of stride offsets. -/
def scanStrides (E : AesEngine) (buffer : Nat → Nat) :
    List Nat → AesHw → List TitleKeyEntry → Option (AesHw × List TitleKeyEntry)
  | [], hw, entries => some (hw, entries)
  | i :: rest, hw, entries =>
    match DecryptTitlekeysNand.body E buffer i hw entries with
    | none => none
    | some (hw1, entries1) => scanStrides E buffer rest hw1 entries1

/-- Whether the stride at offset `i` carries the issuer string. -/
def isTicket (buffer : Nat → Nat) (i : Nat) : Bool :=
  memcmp_eq (readBytes buffer i 26) issuer

/-- The title identifier field of the stride at offset `i`. -/
def titleIdAt (buffer : Nat → Nat) (i : Nat) : List Nat :=
  readBytes buffer (i + 0x9C) 8

/-- Entries as the scan keeps them: 8-byte title identifiers, no identifier twice. -/
def GoodEntries (entries : List TitleKeyEntry) : Prop :=
  (entries.map (fun e => e.titleId)).Nodup ∧ ∀ e ∈ entries, e.titleId.length = 8

/-- A ticket memory with `n` ticket records in its first `n` strides: stride `k` carries the
issuer string, the title identifier `title k`, the common-key index `idx k` and a key of sixteen
bytes 0x11; every other byte is zero. -/
def ticketBuf (n : Nat) (title : Nat → List Nat) (idx : Nat → Nat) : Nat → Nat := fun a =>
  if a < 0x158 then 0
  else if n ≤ (a - 0x158) / 0x200 then 0
  else if (a - 0x158) % 0x200 < 26 then issuer.getD ((a - 0x158) % 0x200) 0
  else if 0x7F ≤ (a - 0x158) % 0x200 ∧ (a - 0x158) % 0x200 < 0x8F then 0x11
  else if 0x9C ≤ (a - 0x158) % 0x200 ∧ (a - 0x158) % 0x200 < 0xA4 then
    (title ((a - 0x158) / 0x200)).getD ((a - 0x158) % 0x200 - 0x9C) 0
  else if (a - 0x158) % 0x200 = 0xB1 then idx ((a - 0x158) / 0x200)
  else 0

/-- Ticket memory holding the same system-title record twice, in strides 0 and 1. -/
def dupBuf : Nat → Nat :=
  ticketBuf 2 (fun _ => [0x00, 0x04, 0x00, 0x10, 0x00, 0x02, 0x10, 0x00]) (fun _ => 1)

/-- Ticket memory holding a record in every one of the 3327 strides, stride `k` for the title
identifier whose last two bytes spell `k`. -/
def fullBuf : Nat → Nat :=
  ticketBuf 3327 (fun k => [0, 0, 0, 0, 0, 0, k / 256, k % 256]) (fun _ => 0)

/-- Ticket memory holding one record, whose common-key index byte is 6. -/
def badIndexBuf : Nat → Nat :=
  ticketBuf 1 (fun _ => [0x00, 0x04, 0x00, 0x10, 0x00, 0x02, 0x10, 0x00]) (fun _ => 6)

/-! ## Collaborator instances for the worked examples -/

/-- Console used in the worked examples: the identity is sixteen zero bytes and the two hash
capabilities return the SHA-1 and SHA-256 digests of sixteen zero bytes. -/
def zeroConsole : Console where
  sha1 := fun _ =>
    [0xe1, 0x29, 0xf2, 0x7c, 0x51, 0x03, 0xbc, 0x5c, 0xc4, 0x4b, 0xcd, 0xf0, 0xa1, 0x5e, 0x16, 0x0d,
     0x44, 0x50, 0x66, 0xff]
  sha256 := fun _ =>
    [0x37, 0x47, 0x08, 0xff, 0xf7, 0x71, 0x9d, 0xd5, 0x97, 0x9e, 0xc8, 0x75, 0xd5, 0x6c, 0xd2, 0x28,
     0x6f, 0x6d, 0x3c, 0xf7, 0xec, 0x31, 0x7a, 0x3b, 0x25, 0x63, 0x2a, 0xab, 0x28, 0xec, 0x37, 0xbb]
  nand_cid := List.replicate 16 0

/-- Engine used in the worked examples: the block is XOR-ed with the counter register. -/
def xorCtrEngine : AesEngine where
  block := fun _ _ _ ctr inp => (List.range 16).map (fun i => inp.getD i 0 ^^^ ctr.getD i 0)
  block_length := by intros; simp

/-- Engine state used in the worked examples: every slot holds sixteen zero bytes. -/
def zeroHw : AesHw where
  keyY := fun _ => List.replicate 16 0
  keyslot := 0
  ctr := List.replicate 16 0

/-! ## `NcchPadgen` -/

/-- The declarations of decryptor.h that `decryptor.c` uses and does not define: the cap
`MAX_ENTRIES` and the sizes of the packed job and seed records. They are parameters of the
functions that use them. -/
structure DecryptorH where
  MAX_ENTRIES : Nat
  sizeofSeedInfoEntry : Nat
  sizeofNcchInfoEntry : Nat

/-- The `NcchInfoEntry` job record as `decryptor.c` uses it. -/
structure NcchInfoEntry where
  CTR : List Nat
  keyY : List Nat
  size_mb : Nat
  usesSeedCrypto : Nat
  uses7xCrypto : Nat
  titleId : Nat
  filename : String
  deriving DecidableEq, Repr

/-- The `NcchInfo` job list: version and count of the header, and the entries array. -/
structure NcchInfo where
  ncch_info_version : Nat
  n_entries : Nat
  entries : List NcchInfoEntry
  deriving DecidableEq, Repr

/-- The `SeedInfoEntry` record as `decryptor.c` uses it. -/
structure SeedInfoEntry where
  titleId : Nat
  external_seed : List Nat
  deriving DecidableEq, Repr

/-- The `SeedInfo` table: the count of the header and the entries array. -/
structure SeedInfo where
  n_entries : Nat
  entries : List SeedInfoEntry
  deriving DecidableEq, Repr

/-- The seed search of `NcchPadgen`,
`for (j = 0; j < seedinfo->n_entries; j++) if (entries[j].titleId == titleId) { ... break; }`,
over the seed records it visits: `found_seed` and `keydata` after it. -/
def NcchPadgen.findSeed (titleId : Nat) (keydata : List Nat) :
    List SeedInfoEntry → Nat × List Nat
  | [] => (0, keydata)
  | s :: rest =>
    if s.titleId = titleId then
      (1, keydata.take 16 ++ memcpy (keydata.drop 16) s.external_seed 16)
    else
      NcchPadgen.findSeed titleId keydata rest

/-- The body of the job loop of `NcchPadgen` up to the call of `CreatePad`: the `PadInfo` handed
to `CreatePad` for the job entry, or `none` where the body executes `return 0` because no seed
was found. -/
def NcchPadgen.padInfo (C : Console) (seedinfo : SeedInfo) (entry : NcchInfoEntry) :
    Option PadInfo :=
  let pad0 : PadInfo :=
    { keyslot := 0, setKeyY := 1, CTR := List.replicate 16 0, keyY := List.replicate 16 0,
      size_mb := entry.size_mb, filename := "" }
  let pad1 := { pad0 with CTR := memcpy pad0.CTR entry.CTR 16 }
  let pad2 := { pad1 with filename := entry.filename }
  let keyslot :=
    if entry.uses7xCrypto = 0xA then 0x18
    else if entry.uses7xCrypto ≠ 0 then 0x25
    else 0x2C
  if entry.uses7xCrypto ≠ 0 ∧ entry.usesSeedCrypto ≠ 0 then
    let keydata := memcpy (List.replicate 32 0) entry.keyY 16
    let found := NcchPadgen.findSeed entry.titleId keydata
      (seedinfo.entries.take seedinfo.n_entries)
    if found.1 = 0 then
      none
    else
      let sha256sum := C.sha256 (found.2.take 32)
      some { pad2 with keyY := memcpy pad2.keyY sha256sum 16, keyslot := keyslot }
  else
    some { pad2 with keyY := memcpy pad2.keyY entry.keyY 16, keyslot := keyslot }

/-- A call of `CreatePad` made by a pad generator: the job handed over, the return code and the
writes issued on the pad file. -/
structure PadCall where
  pad : PadInfo
  code : Nat
  writes : Writes

/-- The job loop of `NcchPadgen`, `for (i = 0; i < info->n_entries; i++)`, over the job entries
it visits: return code, engine state and the calls of `CreatePad` made. The scratch memory
`buffer` is handed to every call as it was on entry: `CreatePad` overwrites what it uses of it. -/
def NcchPadgen.loop (E : AesEngine) (C : Console) (fl : FileLayer) (buffer : List Nat)
    (seedinfo : SeedInfo) :
    List NcchInfoEntry → AesHw → List PadCall → Option (Nat × AesHw × List PadCall)
  | [], hw, calls => some (0, hw, calls)
  | entry :: rest, hw, calls =>
    match NcchPadgen.padInfo C seedinfo entry with
    | none => some (0, hw, calls)
    | some padInfo =>
      match CreatePad E fl hw buffer padInfo with
      | none => none
      | some (result, hw1, ws) =>
        if result = 0 then
          NcchPadgen.loop E C fl buffer seedinfo rest hw1
            (calls ++ [{ pad := padInfo, code := result, writes := ws }])
        else
          some (1, hw1, calls ++ [{ pad := padInfo, code := result, writes := ws }])

/-- What a run of `NcchPadgen` leaves: the return code, the engine state, the key-X installed in
slot 0x25 by `setup_aeskeyX` if any, and the calls of `CreatePad` made. -/
structure NcchPadgenResult where
  code : Nat
  hw : AesHw
  keyX25 : Option (List Nat)
  calls : List PadCall

/-- The function `NcchPadgen`. `slot0x25KeyX`, `seeddb` and `ncchinfo` are what the files
`/slot0x25KeyX.bin`, `/seeddb.bin` and `/ncchinfo.bin` hold; `seedMem` is what the memory of the
seed table holds on entry, used when `/seeddb.bin` does not open. -/
def NcchPadgen (E : AesEngine) (C : Console) (H : DecryptorH) (fl : FileLayer) (hw : AesHw)
    (buffer : List Nat) (slot0x25KeyX : List Nat) (seeddb seedMem : SeedInfo)
    (ncchinfo : NcchInfo) : Option NcchPadgenResult :=
  let fail (keyX : Option (List Nat)) : Option NcchPadgenResult :=
    some { code := 1, hw := hw, keyX25 := keyX, calls := [] }
  let openKeyX := fl.openOk "/slot0x25KeyX.bin"
  if openKeyX && !fl.readOk 16 0 then fail none
  else
    let keyX : Option (List Nat) := if openKeyX then some (slot0x25KeyX.take 16) else none
    let openSeed := fl.openOk "/seeddb.bin"
    if openSeed && !fl.readOk 16 0 then fail keyX
    else if openSeed ∧ (seeddb.n_entries = 0 ∨ seeddb.n_entries > H.MAX_ENTRIES) then fail keyX
    else if openSeed && !fl.readOk (seeddb.n_entries * H.sizeofSeedInfoEntry) 16 then fail keyX
    else
      let seedinfo := if openSeed then seeddb else seedMem
      if !fl.openOk "/ncchinfo.bin" then fail keyX
      else if !fl.readOk 16 0 then fail keyX
      else if ncchinfo.n_entries = 0 ∨ ncchinfo.n_entries > H.MAX_ENTRIES then fail keyX
      else if ncchinfo.ncch_info_version ≠ 0xF0000004 then fail keyX
      else if !fl.readOk (ncchinfo.n_entries * H.sizeofNcchInfoEntry) 16 then fail keyX
      else
        match NcchPadgen.loop E C fl buffer seedinfo
            (ncchinfo.entries.take ncchinfo.n_entries) hw [] with
        | none => none
        | some (code, hw1, calls) =>
          some { code := code, hw := hw1, keyX25 := keyX, calls := calls }

/-- The key slot `NcchPadgen` chooses from the crypto-generation flag `uses7xCrypto`. -/
def ncchKeyslot (uses7xCrypto : Nat) : Nat :=
  if uses7xCrypto = 0xA then 0x18 else if uses7xCrypto ≠ 0 then 0x25 else 0x2C

/-- The declarations of decryptor.h used in the worked examples. -/
def demoH : DecryptorH where
  MAX_ENTRIES := 1024
  sizeofSeedInfoEntry := 32
  sizeofNcchInfoEntry := 168

/-- Console used in the seed-crypto examples: identity sixteen zero bytes; `sha256` returns the
SHA-256 digest of thirty-two zero bytes on that input and nothing elsewhere. -/
def seedConsole : Console where
  sha1 := fun _ => []
  sha256 := fun m =>
    if m = List.replicate 32 0 then
      [0x66, 0x68, 0x7a, 0xad, 0xf8, 0x62, 0xbd, 0x77, 0x6c, 0x8f, 0xc1, 0x8b, 0x8e, 0x9f, 0x8e,
       0x20, 0x08, 0x97, 0x14, 0x85, 0x6e, 0xe2, 0x33, 0xb3, 0x90, 0x2a, 0x59, 0x1d, 0x0d, 0x5f,
       0x29, 0x25]
    else []
  nand_cid := List.replicate 16 0

/-- Job entry used in the worked examples: an empty pad for the title `titleId` with all-zero
counter and key-Y and the given flags. -/
def demoEntry (usesSeedCrypto uses7xCrypto titleId : Nat) : NcchInfoEntry where
  CTR := List.replicate 16 0
  keyY := List.replicate 16 0
  size_mb := 0
  usesSeedCrypto := usesSeedCrypto
  uses7xCrypto := uses7xCrypto
  titleId := titleId
  filename := "/demo.xorpad"

/-- Seed table used in the worked examples: one record, for title 7, with an all-zero seed. -/
def demoSeeds : SeedInfo where
  n_entries := 1
  entries := [{ titleId := 7, external_seed := List.replicate 16 0 }]

/-- Job list used in the worked examples, in the version `NcchPadgen` accepts. -/
def demoJobs (entries : List NcchInfoEntry) : NcchInfo where
  ncch_info_version := 0xF0000004
  n_entries := entries.length
  entries := entries

/-- Bundle used in the worked examples: two records, common-key indices 0 and 1. -/
def demoBundle : EncKeysInfo where
  n_entries := 2
  entries :=
    [{ commonKeyIndex := 0, titleId := [0x00, 0x04, 0x00, 0x10, 0x00, 0x02, 0x10, 0x00],
       encryptedTitleKey := List.replicate 16 0x11 },
     { commonKeyIndex := 1, titleId := [0x00, 0x04, 0x00, 0x00, 0x00, 0x03, 0x00, 0x00],
       encryptedTitleKey := List.replicate 16 0x22 }]

/-! ## The bundle `DecryptTitlekeysNand` writes -/

/-- What a run of `DecryptTitlekeysNand` leaves: the return code, the engine state, whether
`/decTitleKeys.bin` has been created, and the bundle written to it if any: the count of the
header and the records that the `0x10 + nKeys * 0x20` bytes written hold. -/
structure TitlekeysNandResult where
  code : Nat
  hw : AesHw
  created : Bool
  written : Option EncKeysInfo

/-- The function `DecryptTitlekeysNand` from `Debug("Decrypting Title Keys...")` on, that is,
once `GetTicketData` has returned 0 and left the ticket memory `buffer`: the scan and the output
of the bundle. -/
def DecryptTitlekeysNand.fromTickets (E : AesEngine) (fl : FileLayer) (hw : AesHw)
    (buffer : Nat → Nat) : Option TitlekeysNandResult :=
  match DecryptTitlekeysNand.scan E hw buffer with
  | none => none
  | some (hw1, info) =>
    let nKeys := info.n_entries
    if nKeys > 0 then
      if !fl.createOk "/decTitleKeys.bin" then
        some { code := 1, hw := hw1, created := false, written := none }
      else if !fl.writeOk (0x10 + nKeys * 0x20) 0 then
        some { code := 1, hw := hw1, created := true, written := none }
      else
        some { code := 0, hw := hw1, created := true, written := some info }
    else
      some { code := 1, hw := hw1, created := false, written := none }

/-- The record the scan fills in at the stride at offset `i` before it calls `DecryptTitlekey`:
the title identifier from `i + 0x9C` (8 bytes), the common-key index from `i + 0xB1` (1 byte) and
the key from `i + 0x7F` (16 bytes). -/
def rawEntryAt (buffer : Nat → Nat) (i : Nat) : TitleKeyEntry where
  commonKeyIndex := buffer (i + 0xB1)
  titleId := readBytes buffer (i + 0x9C) 8
  encryptedTitleKey := readBytes buffer (i + 0x7F) 16

/-- The record of the stride at offset `i` with its key through the title-key transform: slot
0x3D, the key-Y row of the record's index, the counter made of the title identifier and eight
zero bytes. -/
def entryAt (E : AesEngine) (buffer : Nat → Nat) (i : Nat) : TitleKeyEntry where
  commonKeyIndex := buffer (i + 0xB1)
  titleId := readBytes buffer (i + 0x9C) 8
  encryptedTitleKey :=
    E.block 0x3D (common_keyy.getD (buffer (i + 0xB1)) []) AES_CNT_TITLEKEY_MODE
      (readBytes buffer (i + 0x9C) 8 ++ List.replicate 8 0) (readBytes buffer (i + 0x7F) 16)

/-- The strides of first occurrence, as the claim words them: the strides that carry the issuer
string and whose title identifier is carried by no such stride before them, in stride order. -/
def firstStrides (buffer : Nat → Nat) : List Nat :=
  strides.filter (fun i => isTicket buffer i
    && !(strides.any (fun j => decide (j < i) && isTicket buffer j
          && decide (titleIdAt buffer j = titleIdAt buffer i))))

/-- The strides among `l` at which the scan appends an entry when the title identifiers `seen`
are already in the bundle. -/
def firstNew (buffer : Nat → Nat) : List Nat → List (List Nat) → List Nat
  | [], _ => []
  | i :: rest, seen =>
    if isTicket buffer i && !(decide (titleIdAt buffer i ∈ seen)) then
      i :: firstNew buffer rest (seen ++ [titleIdAt buffer i])
    else
      firstNew buffer rest seen

/-! ## `DecryptNandToFile` -/

/-- The chunk loop of `DecryptNandToFile`,
`for (u32 i = 0; i < size; i += NAND_SECTOR_SIZE * SECTORS_PER_READ)`: return code, engine state,
scratch memory and the writes issued. `i` is a `u32`. -/
def DecryptNandToFile.loop (E : AesEngine) (C : Console) (nand : Nat → Nat) (fl : FileLayer)
    (offset size : Nat) (partition : PartitionInfo) :
    Nat → Nat → AesHw → List Nat → Writes → Option (Nat × AesHw × List Nat × Writes)
  | 0, _, _, _, _ => none
  | fuel + 1, i, hw, buffer, ws =>
    if i < size then
      let read_bytes := min (NAND_SECTOR_SIZE * SECTORS_PER_READ) (size - i)
      match DecryptNandToMem E C nand hw buffer ((offset + i) % 2 ^ 32) read_bytes partition with
      | none => none
      | some (_, hw1, buffer1) =>
        if !fl.writeOk read_bytes i then
          some (1, hw1, buffer1, ws)
        else
          DecryptNandToFile.loop E C nand fl offset size partition fuel
            ((i + NAND_SECTOR_SIZE * SECTORS_PER_READ) % 2 ^ 32) hw1 buffer1
            (ws ++ [(i, buffer1.take read_bytes)])
    else
      some (0, hw, buffer, ws)

/-- Fuel for the chunk loop: a `u32` size holds at most `2 ^ 12` chunks before `i` wraps. -/
def DecryptNandToFile.fuel : Nat := 2 ^ 32 / (NAND_SECTOR_SIZE * SECTORS_PER_READ) + 1

/-- The function `DecryptNandToFile`: return code, engine state, the scratch memory at
`BUFFER_ADDRESS` and the writes issued on the file `filename`; `none` when the chunk loop never
terminates. -/
def DecryptNandToFile (E : AesEngine) (C : Console) (nand : Nat → Nat) (fl : FileLayer)
    (hw : AesHw) (buffer : List Nat) (filename : String) (offset size : Nat)
    (partition : PartitionInfo) : Option (Nat × AesHw × List Nat × Writes) :=
  if !fl.createOk filename then some (1, hw, buffer, [])
  else
    DecryptNandToFile.loop E C nand fl offset size partition DecryptNandToFile.fuel 0 hw buffer []

/-- The plaintext of the device bytes `[offset, offset + size)`, `size` a multiple of 16, as one
decrypt of the whole range in the partition's window gives it: the counter-mode run that starts
at the counter of `offset`, under the partition's slot and mode and the key-Y `keyY` resident in
that slot. -/
def nandPlain (E : AesEngine) (C : Console) (nand : Nat → Nat) (keyY : List Nat)
    (partition : PartitionInfo) (offset size : Nat) : List Nat :=
  ctrRun E partition.keyslot keyY partition.mode (size / 16)
    (GetNandCtr C (List.replicate 16 0) offset) (readBytes nand offset size)

/-- The writes of the chunks `c, c + 1, .., c + n - 1` of the byte string `P`: chunk `t` is
placed at file position `t * 1048576` and holds the at most 1048576 bytes of `P` from there. -/
def fileChunks (P : List Nat) (c n : Nat) : Writes :=
  (List.range' c n).map (fun t => (t * 1048576, (P.drop (t * 1048576)).take 1048576))

/-- The CTRNAND descriptor of the legacy platform, row 5 of `partitions`, for the worked
examples. -/
def ctrnandO3DS : PartitionInfo where
  name := "CTRNAND"
  offset := 0x0B95CA00
  size := 0x2F3E3600
  keyslot := 0x4
  mode := AES_CNT_CTRNAND_MODE

/-! ## `GetTicketData` -/

/-- The four bytes of the string `"TICK"`. -/
def TICK : List Nat := [0x54, 0x49, 0x43, 0x4B]

/-- What a search loop of `GetTicketData` leaves: the loop variable `p`, the entry `offset[i]`,
the engine state, the memory at `buffer` and the device offsets probed so far. -/
structure TicketSearch where
  p : Nat
  offset : Nat
  hw : AesHw
  buffer : List Nat
  probes : List Nat

/-- The search loop of `GetTicketData`, `for (p = 0; p < size; p += NAND_SECTOR_SIZE)`, for the
window that starts at the device offset `offset`. `p` is a `u32`. -/
def GetTicketData.search (E : AesEngine) (C : Console) (nand : Nat → Nat)
    (ctrnand_info : PartitionInfo) (size offset : Nat) :
    Nat → Nat → AesHw → List Nat → List Nat → Option TicketSearch
  | 0, _, _, _, _ => none
  | fuel + 1, p, hw, buffer, probes =>
    if p < size then
      match DecryptNandToMem E C nand hw buffer ((offset + p) % 2 ^ 32) NAND_SECTOR_SIZE
          ctrnand_info with
      | none => none
      | some (_, hw1, buffer1) =>
        if memcmp_eq (buffer1.take 4) TICK then
          some { p := p, offset := (offset + p) % 2 ^ 32, hw := hw1, buffer := buffer1,
                 probes := probes ++ [(offset + p) % 2 ^ 32] }
        else
          GetTicketData.search E C nand ctrnand_info size offset fuel
            ((p + NAND_SECTOR_SIZE) % 2 ^ 32) hw1 buffer1 (probes ++ [(offset + p) % 2 ^ 32])
    else
      some { p := p, offset := offset, hw := hw, buffer := buffer, probes := probes }

/-- What a run of `GetTicketData` leaves: the return code, the engine state, the memory at
`buffer`, the entries of `offset[]` assigned, and the device offsets probed for `"TICK"`, in
order. -/
structure TicketData where
  code : Nat
  hw : AesHw
  buffer : List Nat
  offset : List Nat
  probes : List Nat

/-- The two copies that end `GetTicketData`:
`DecryptNandToMem(buffer, offset[0], TICKET_SIZE, ctrnand_info)` and
`DecryptNandToMem(buffer + TICKET_SIZE, offset[1], TICKET_SIZE, ctrnand_info)`. -/
def GetTicketData.copy (E : AesEngine) (C : Console) (nand : Nat → Nat)
    (ctrnand_info : PartitionInfo) (hw : AesHw) (buffer : List Nat) (offset0 offset1 : Nat) :
    Option (AesHw × List Nat) :=
  (DecryptNandToMem E C nand hw buffer offset0 TICKET_SIZE ctrnand_info).bind fun r0 =>
    (DecryptNandToMem E C nand r0.2.1 (r0.2.2.drop TICKET_SIZE) offset1 TICKET_SIZE
      ctrnand_info).bind fun r1 =>
      some (r1.2.1, r0.2.2.take TICKET_SIZE ++ r1.2.2)

/-- The function `GetTicketData`. `platform3DS` is `GetUnitPlatform() == PLATFORM_3DS`. -/
def GetTicketData (E : AesEngine) (C : Console) (nand : Nat → Nat) (platform3DS : Bool)
    (hw : AesHw) (buffer : List Nat) : Option TicketData :=
  match partitions[if platform3DS then 5 else 6]? with
  | none => none
  | some ctrnand_info =>
    let size := ctrnand_info.size
    let fuel := size / NAND_SECTOR_SIZE + 1
    match GetTicketData.search E C nand ctrnand_info size ctrnand_info.offset fuel 0 hw buffer
        [] with
    | none => none
    | some s0 =>
      if s0.p ≥ ctrnand_info.size then
        some { code := 1, hw := s0.hw, buffer := s0.buffer, offset := [s0.offset],
               probes := s0.probes }
      else
        match GetTicketData.search E C nand ctrnand_info size
            ((s0.offset + 0x11BE200) % 2 ^ 32) fuel 0 s0.hw s0.buffer s0.probes with
        | none => none
        | some s1 =>
          if s1.p ≥ ctrnand_info.size then
            some { code := 1, hw := s1.hw, buffer := s1.buffer,
                   offset := [s0.offset, s1.offset], probes := s1.probes }
          else
            match GetTicketData.copy E C nand ctrnand_info s1.hw s1.buffer s0.offset
                s1.offset with
            | none => none
            | some (hw3, buffer3) =>
              some { code := 0, hw := hw3, buffer := buffer3,
                     offset := [s0.offset, s1.offset], probes := s1.probes }

/-- The function `DecryptTitlekeysNand`. -/
def DecryptTitlekeysNand (E : AesEngine) (C : Console) (nand : Nat → Nat) (platform3DS : Bool)
    (fl : FileLayer) (hw : AesHw) (buffer : List Nat) : Option TitlekeysNandResult :=
  match GetTicketData E C nand platform3DS hw buffer with
  | none => none
  | some g =>
    if g.code ≠ 0 then
      some { code := 1, hw := g.hw, created := false, written := none }
    else
      DecryptTitlekeysNand.fromTickets E fl g.hw (fun a => g.buffer.getD a 0)

/-- The test a search loop of `GetTicketData` makes at the device offset `o`: whether the sector
there, decrypted by `DecryptNandToMem`, begins with `"TICK"`. -/
def GetTicketData.isTick (E : AesEngine) (C : Console) (nand : Nat → Nat) (hw : AesHw)
    (ctrnand_info : PartitionInfo) (o : Nat) : Bool :=
  match DecryptNandToMem E C nand hw [] o NAND_SECTOR_SIZE ctrnand_info with
  | none => false
  | some (_, _, buffer1) => memcmp_eq (buffer1.take 4) TICK

/-- The CTRNAND descriptor of the new platform, row 6 of `partitions`. -/
def ctrnandN3DS : PartitionInfo where
  name := "CTRNAND"
  offset := 0x0B95AE00
  size := 0x41D2D200
  keyslot := 0x5
  mode := AES_CNT_CTRNAND_MODE

/-- Engine used in the probe examples: the block transform returns its 16 input bytes, so that
what a device holds is its own plaintext. -/
def idEngine : AesEngine where
  block := fun _ _ _ _ inp => (List.range 16).map (fun i => inp.getD i 0)
  block_length := by intros; simp

/-- Device used in the probe examples: the four bytes `"TICK"` at the start of the legacy CTRNAND
partition, zero bytes everywhere else. -/
def tickNand : Nat → Nat := fun a =>
  if a = 0x0B95CA00 then 0x54
  else if a = 0x0B95CA01 then 0x49
  else if a = 0x0B95CA02 then 0x43
  else if a = 0x0B95CA03 then 0x4B
  else 0

/-! ## `DecryptNandSystemTitles` -/

/-- The four bytes of the string `"NCCH"`. -/
def NCCH : List Nat := [0x4E, 0x43, 0x43, 0x48]

/-- The load `*((unsigned int*)(buffer + p))` of the little-endian ARM9. -/
def le32 (buffer : List Nat) (p : Nat) : Nat :=
  buffer.getD p 0 ||| (buffer.getD (p + 1) 0 <<< 8) ||| (buffer.getD (p + 2) 0 <<< 16)
    ||| (buffer.getD (p + 3) 0 <<< 24)

/-- One upper-case hexadecimal digit. -/
def hexDigit (d : Nat) : Char :=
  if d < 10 then Char.ofNat (48 + d) else Char.ofNat (55 + d)

/-- The conversion `%08X` of a 32-bit value. -/
def hex8 (n : Nat) : String :=
  String.mk ((List.range 8).map (fun k => hexDigit (n / 16 ^ (7 - k) % 16)))

/-- What the scan of `DecryptNandSystemTitles` does with the sector it tests: no magic; magic
with a size it rejects; magic, valid size and a file of that name already present; magic, valid
size and a call of `DecryptNandToFile` with the return code `code`. -/
inductive TitleOutcome where
  | noMagic
  | invalidSize (size : Nat)
  | duplicate (size : Nat) (filename : String)
  | extracted (size : Nat) (filename : String) (code : Nat)
  deriving DecidableEq, Repr

/-- One iteration of the scan: the partition offset `i` of the sector tested for the magic and
what was done with it. -/
structure TitleProbe where
  i : Nat
  outcome : TitleOutcome
  deriving DecidableEq, Repr

/-- The size of the content region accepted at a probe, if one was: the sector was extracted, or
skipped as an already extracted duplicate. -/
def TitleProbe.accepted (p : TitleProbe) : Option Nat :=
  match p.outcome with
  | TitleOutcome.duplicate size _ => some size
  | TitleOutcome.extracted size _ _ => some size
  | _ => none

/-- The state of the scan of `DecryptNandSystemTitles`: engine, scratch memory at
`BUFFER_ADDRESS`, the names of the files present on the card, `nTitles`, and the iterations made
so far. -/
structure SystemTitlesState where
  hw : AesHw
  buffer : List Nat
  files : List String
  nTitles : Nat
  trace : List TitleProbe

/-- The body of the scan loop of `DecryptNandSystemTitles` at the partition offset `i`: the
value of `i` the loop increment then applies to, or `none` where the body executes `return 1`,
and the state. `FileOpen(filename)` is modelled from the spec: it succeeds when a file of that
name is present. -/
def DecryptNandSystemTitles.body (E : AesEngine) (C : Console) (nand : Nat → Nat)
    (fl : FileLayer) (ctrnand_info : PartitionInfo) (i : Nat) (st : SystemTitlesState) :
    Option (Option Nat × SystemTitlesState) :=
  let ctrnand_offset := ctrnand_info.offset
  let ctrnand_size := ctrnand_info.size
  match DecryptNandToMem E C nand st.hw st.buffer ((ctrnand_offset + i) % 2 ^ 32)
      NAND_SECTOR_SIZE ctrnand_info with
  | none => none
  | some (rc, hw1, buffer) =>
    if rc ≠ 0 then
      some (none, { st with hw := hw1, buffer := buffer })
    else if memcmp_eq ((buffer.drop 0x100).take 4) NCCH then
      let size := (NAND_SECTOR_SIZE * (buffer.getD 0x104 0 ||| (buffer.getD 0x105 0 <<< 8)
        ||| (buffer.getD 0x106 0 <<< 16) ||| (buffer.getD 0x107 0 <<< 24))) % 2 ^ 32
      if size = 0 ∨ size > ctrnand_size - i then
        some (some i, { st with hw := hw1, buffer := buffer,
                                trace := st.trace ++ [⟨i, TitleOutcome.invalidSize size⟩] })
      else
        let filename := "/" ++ hex8 (le32 buffer 0x10C) ++ hex8 (le32 buffer 0x108) ++ ".app"
        if st.files.contains filename then
          some (some ((i + (size + 2 ^ 32 - NAND_SECTOR_SIZE) % 2 ^ 32) % 2 ^ 32),
            { st with hw := hw1, buffer := buffer,
                      trace := st.trace ++ [⟨i, TitleOutcome.duplicate size filename⟩] })
        else
          match DecryptNandToFile E C nand fl hw1 buffer filename
              ((ctrnand_offset + i) % 2 ^ 32) size ctrnand_info with
          | none => none
          | some (rc2, hw2, buffer2, _) =>
            if rc2 ≠ 0 then
              some (none,
                { hw := hw2, buffer := buffer2,
                  files := if fl.createOk filename then filename :: st.files else st.files,
                  nTitles := st.nTitles,
                  trace := st.trace ++ [⟨i, TitleOutcome.extracted size filename rc2⟩] })
            else
              some (some ((i + (size + 2 ^ 32 - NAND_SECTOR_SIZE) % 2 ^ 32) % 2 ^ 32),
                { hw := hw2, buffer := buffer2, files := filename :: st.files,
                  nTitles := (st.nTitles + 1) % 2 ^ 32,
                  trace := st.trace ++ [⟨i, TitleOutcome.extracted size filename rc2⟩] })
    else
      some (some i, { st with hw := hw1, buffer := buffer,
                              trace := st.trace ++ [⟨i, TitleOutcome.noMagic⟩] })

/-- The scan loop of `DecryptNandSystemTitles`,
`for (u32 i = 0; i < ctrnand_size; i += NAND_SECTOR_SIZE)`: return code and state. -/
def DecryptNandSystemTitles.loop (E : AesEngine) (C : Console) (nand : Nat → Nat)
    (fl : FileLayer) (ctrnand_info : PartitionInfo) :
    Nat → Nat → SystemTitlesState → Option (Nat × SystemTitlesState)
  | 0, _, _ => none
  | fuel + 1, i, st =>
    if i < ctrnand_info.size then
      match DecryptNandSystemTitles.body E C nand fl ctrnand_info i st with
      | none => none
      | some (none, st1) => some (1, st1)
      | some (some i1, st1) =>
        DecryptNandSystemTitles.loop E C nand fl ctrnand_info fuel
          ((i1 + NAND_SECTOR_SIZE) % 2 ^ 32) st1
    else
      some (0, st)

/-- The function `DecryptNandSystemTitles`. `platform3DS` is
`GetUnitPlatform() == PLATFORM_3DS`; `files` are the names of the files present on the card. -/
def DecryptNandSystemTitles (E : AesEngine) (C : Console) (nand : Nat → Nat) (fl : FileLayer)
    (platform3DS : Bool) (hw : AesHw) (buffer : List Nat) (files : List String) :
    Option (Nat × SystemTitlesState) :=
  match partitions[if platform3DS then 5 else 6]? with
  | none => none
  | some ctrnand_info =>
    DecryptNandSystemTitles.loop E C nand fl ctrnand_info
      (ctrnand_info.size / NAND_SECTOR_SIZE + 1) 0
      { hw := hw, buffer := buffer, files := files, nTitles := 0, trace := [] }

/-- Where the scan stands after a probe: past the accepted content region, or past the one
sector tested when no region was accepted. -/
def TitleProbe.next (p : TitleProbe) : Nat :=
  match p.accepted with
  | some size => p.i + size
  | none => p.i + NAND_SECTOR_SIZE

/-- Device used in the size example: at the start of the legacy CTRNAND partition a sector whose
bytes 0x100..0x103 are `"NCCH"` and whose media-unit count at 0x104 is 0x00800001 (bytes
01 00 80 00); zero bytes everywhere else. -/
def ncchNand : Nat → Nat := fun a =>
  if a = 0x0B95CB00 then 0x4E
  else if a = 0x0B95CB01 then 0x43
  else if a = 0x0B95CB02 then 0x43
  else if a = 0x0B95CB03 then 0x48
  else if a = 0x0B95CB04 then 0x01
  else if a = 0x0B95CB06 then 0x80
  else 0

/-- The state in which `DecryptNandSystemTitles` enters its scan in the worked examples: no
file on the card. -/
def titlesStart : SystemTitlesState where
  hw := zeroHw
  buffer := []
  files := []
  nTitles := 0
  trace := []

/-! ## The partition table per platform: `DumpNand`, `DecryptNandPartitions` -/

/-- The size `nand_size` that `DumpNand` takes for the platform:
`(GetUnitPlatform() == PLATFORM_3DS) ? 0x3AF00000 : 0x4D800000`. -/
def DumpNand.nand_size (platform3DS : Bool) : Nat :=
  if platform3DS then 0x3AF00000 else 0x4D800000

/-- The condition under which `DecryptNandPartitions` dumps row `p` of `partitions`:
`!(o3ds && (p == 6)) && !(!o3ds && (p == 5))`. -/
def DecryptNandPartitions.available (o3ds : Bool) (p : Nat) : Bool :=
  !(o3ds && p == 6) && !(!o3ds && p == 5)

/-- The loop `for (u32 p = 0; p < 7; p++)` of `DecryptNandPartitions`, over the rows it still
has to visit: `result`, engine state, scratch memory, and the calls of `DecryptNandToFile` made,
each with the row handed over and the code returned. -/
def DecryptNandPartitions.loop (E : AesEngine) (C : Console) (nand : Nat → Nat)
    (fl : FileLayer) (o3ds : Bool) :
    List Nat → AesHw → List Nat → Nat → List (PartitionInfo × Nat) →
      Option (Nat × AesHw × List Nat × List (PartitionInfo × Nat))
  | [], hw, buffer, result, calls => some (result, hw, buffer, calls)
  | p :: rest, hw, buffer, result, calls =>
    if DecryptNandPartitions.available o3ds p then
      match partitions[p]? with
      | none => none
      | some partition =>
        let filename := "/" ++ partition.name ++ ".bin"
        match DecryptNandToFile E C nand fl hw buffer filename partition.offset partition.size
            partition with
        | none => none
        | some (rc, hw1, buffer1, _) =>
          DecryptNandPartitions.loop E C nand fl o3ds rest hw1 buffer1 ((result + rc) % 2 ^ 32)
            (calls ++ [(partition, rc)])
    else
      DecryptNandPartitions.loop E C nand fl o3ds rest hw buffer result calls

/-- The function `DecryptNandPartitions`. `platform3DS` is
`GetUnitPlatform() == PLATFORM_3DS`. -/
def DecryptNandPartitions (E : AesEngine) (C : Console) (nand : Nat → Nat) (fl : FileLayer)
    (platform3DS : Bool) (hw : AesHw) (buffer : List Nat) :
    Option (Nat × AesHw × List Nat × List (PartitionInfo × Nat)) :=
  DecryptNandPartitions.loop E C nand fl platform3DS (List.range 7) hw buffer 0 []

/-- The partitions of a platform: the rows of `partitions` that `DecryptNandPartitions` dumps on
it, in table order. -/
def platformPartitions (platform3DS : Bool) : List PartitionInfo :=
  ((List.range 7).filter (DecryptNandPartitions.available platform3DS)).filterMap
    (fun p => partitions[p]?)

/-! # Theorems -/

set_option maxRecDepth 100000

/-! ## Big-endian encoding -/

theorem beVal_append (l m : List Nat) :
    beVal (l ++ m) = m.foldl (fun acc b => acc * 256 + b) (beVal l) := by
  simp [beVal, List.foldl_append]

theorem beVal_snoc (l : List Nat) (b : Nat) : beVal (l ++ [b]) = beVal l * 256 + b := by
  simp [beVal_append]

theorem beBytes_length (len n : Nat) : (beBytes len n).length = len := by
  induction len generalizing n with
  | zero => simp [beBytes]
  | succ k ih => simp [beBytes, ih]

theorem beBytes_lt (len n : Nat) : ∀ b ∈ beBytes len n, b < 256 := by
  induction len generalizing n with
  | zero => simp [beBytes]
  | succ k ih =>
    intro b hb
    simp only [beBytes, List.mem_append, List.mem_singleton] at hb
    rcases hb with hb | hb
    · exact ih _ b hb
    · subst hb; exact Nat.mod_lt _ (by norm_num)

theorem beVal_beBytes (len n : Nat) : beVal (beBytes len n) = n % 256 ^ len := by
  induction len generalizing n with
  | zero => simp [beBytes, beVal, Nat.mod_one]
  | succ k ih =>
    rw [beBytes, beVal_snoc, ih, pow_succ', Nat.mod_mul]
    ring

theorem beVal_lt (l : List Nat) (h : ∀ b ∈ l, b < 256) : beVal l < 256 ^ l.length := by
  induction l using List.reverseRecOn with
  | nil => simp [beVal]
  | append_singleton l b ih =>
    have hb : b < 256 := h b (by simp)
    have hl : beVal l < 256 ^ l.length := ih (fun x hx => h x (by simp [hx]))
    rw [beVal_snoc, List.length_append, List.length_singleton, pow_succ]
    nlinarith

theorem beBytes_beVal (l : List Nat) (h : ∀ b ∈ l, b < 256) : beBytes l.length (beVal l) = l := by
  induction l using List.reverseRecOn with
  | nil => simp [beBytes]
  | append_singleton l b ih =>
    have hb : b < 256 := h b (by simp)
    have hl := ih (fun x hx => h x (by simp [hx]))
    rw [List.length_append, List.length_singleton, beBytes, beVal_snoc]
    have h1 : (beVal l * 256 + b) / 256 = beVal l := by omega
    have h2 : (beVal l * 256 + b) % 256 = b := by omega
    rw [h1, h2, hl]

theorem add_ctr_wf (c : List Nat) (n : Nat) : WfCtr (add_ctr c n) :=
  ⟨beBytes_length _ _, beBytes_lt _ _⟩

theorem beVal_add_ctr (c : List Nat) (n : Nat) :
    beVal (add_ctr c n) = (beVal c + n) % 2 ^ 128 := by
  unfold add_ctr
  rw [beVal_beBytes]
  norm_num

theorem add_ctr_add_ctr (c : List Nat) (a b : Nat) :
    add_ctr (add_ctr c a) b = add_ctr c (a + b) := by
  have h := beVal_add_ctr c a
  unfold add_ctr at h ⊢
  rw [h, Nat.mod_add_mod, Nat.add_assoc]

theorem add_ctr_zero (c : List Nat) (h : WfCtr c) : add_ctr c 0 = c := by
  obtain ⟨hl, hb⟩ := h
  have hlt := beVal_lt c hb
  rw [hl] at hlt
  unfold add_ctr
  rw [Nat.add_zero, Nat.mod_eq_of_lt (by norm_num at hlt ⊢; exact hlt)]
  have := beBytes_beVal c hb
  rw [hl] at this
  exact this

/-! ## `GetNandCtr` -/

theorem GetNandCtr.reverseLoop_eq (sha1sum ctr : List Nat) (h : ctr.length = 16) :
    GetNandCtr.reverseLoop sha1sum 16 0 ctr
      = (List.range 16).map (fun i => sha1sum.getD (15 - i) 0) := by
  rcases ctr with _ | ⟨a0, _ | ⟨a1, _ | ⟨a2, _ | ⟨a3, _ | ⟨a4, _ | ⟨a5,
    _ | ⟨a6, _ | ⟨a7, _ | ⟨a8, _ | ⟨a9, _ | ⟨a10, _ | ⟨a11,
    _ | ⟨a12, _ | ⟨a13, _ | ⟨a14, _ | ⟨a15, _ | ⟨a16, t⟩⟩⟩⟩⟩⟩⟩⟩⟩⟩⟩⟩⟩⟩⟩⟩⟩ <;> simp at h
  simp [GetNandCtr.reverseLoop, List.range, List.range.loop]

theorem memcpy_full (dst src : List Nat) (n : Nat) (hd : dst.length = n) :
    memcpy dst src n = src.take n := by
  simp [memcpy, ← hd]

/-- The counter base of the legacy (TWL) region as the design document words it: byte `i` of the
base is byte `15 - i` of the SHA-1 digest. -/
theorem legacyBase_eq_reverse (d : List Nat) (hd : 16 ≤ d.length) :
    (List.range 16).map (fun i => d.getD (15 - i) 0) = (d.take 16).reverse := by
  apply List.ext_getElem?
  intro n
  by_cases hn : n < 16
  · rw [List.getElem?_map, List.getElem?_range hn, List.getElem?_reverse (by simp; omega)]
    simp only [Option.map_some', List.length_take, List.getD_eq_getElem?_getD]
    have h1 : min 16 d.length = 16 := by omega
    rw [h1, List.getElem?_take_of_lt (by omega)]
    have h2 : 15 - n < d.length := by omega
    rw [List.getElem?_eq_getElem h2]
    have h3 : 16 - 1 - n = 15 - n := by omega
    simp [h3]
  · have h1 : ((List.range 16).map (fun i => d.getD (15 - i) 0)).length ≤ n := by simp; omega
    have h2 : ((d.take 16).reverse).length ≤ n := by simp; omega
    rw [List.getElem?_eq_none h1, List.getElem?_eq_none h2]

/-! ## `DecryptBuffer` -/

theorem ctrAfter_succ (n : Nat) (c : List Nat) : ctrAfter (n + 1) c = add_ctr c (n + 1) := by
  induction n generalizing c with
  | zero => simp [ctrAfter]
  | succ k ih =>
    rw [ctrAfter, ih, add_ctr_add_ctr]
    congr 1
    omega

theorem ctrAfter_eq (n : Nat) (c : List Nat) (h : WfCtr c) : ctrAfter n c = add_ctr c n := by
  cases n with
  | zero => simp [ctrAfter, add_ctr_zero c h]
  | succ k => exact ctrAfter_succ k c

theorem ctrAfter_add (a b : Nat) (c : List Nat) : ctrAfter (a + b) c = ctrAfter b (ctrAfter a c) := by
  induction a generalizing c with
  | zero => simp [ctrAfter]
  | succ k ih =>
    have h : k + 1 + b = (k + b) + 1 := by omega
    rw [h, ctrAfter, ctrAfter, ih]

theorem ctrRun_length (E : AesEngine) (slot : Nat) (keyY : List Nat) (mode : AesMode)
    (n : Nat) (ctr buf : List Nat) (h : 16 * n ≤ buf.length) :
    (ctrRun E slot keyY mode n ctr buf).length = buf.length := by
  induction n generalizing ctr buf with
  | zero => simp [ctrRun]
  | succ k ih =>
    rw [ctrRun, List.length_append, E.block_length, ih _ _ (by simp; omega)]
    simp
    omega

theorem ctrRun_drop (E : AesEngine) (slot : Nat) (keyY : List Nat) (mode : AesMode)
    (a b : Nat) (ctr buf : List Nat) :
    (ctrRun E slot keyY mode (a + b) ctr buf).drop (16 * a)
      = ctrRun E slot keyY mode b (ctrAfter a ctr) (buf.drop (16 * a)) := by
  induction a generalizing ctr buf with
  | zero => simp [ctrAfter]
  | succ k ih =>
    have h : k + 1 + b = (k + b) + 1 := by omega
    have h16 : 16 * (k + 1) = (E.block slot keyY mode ctr (buf.take 16)).length + 16 * k := by
      rw [E.block_length]; omega
    rw [h, ctrRun, h16, List.drop_append, ih, ctrAfter, List.drop_drop, E.block_length]

theorem ctrRun_take (E : AesEngine) (slot : Nat) (keyY : List Nat) (mode : AesMode)
    (a b : Nat) (ctr buf : List Nat) :
    (ctrRun E slot keyY mode (a + b) ctr buf).take (16 * a)
      = (ctrRun E slot keyY mode a ctr buf).take (16 * a) := by
  induction a generalizing ctr buf with
  | zero => simp
  | succ k ih =>
    have h : k + 1 + b = (k + b) + 1 := by omega
    have h16 : 16 * (k + 1) = (E.block slot keyY mode ctr (buf.take 16)).length + 16 * k := by
      rw [E.block_length]; omega
    rw [h, ctrRun, ctrRun, h16, List.take_append, List.take_append, ih]

/-- Block `k` of a counter-mode run is the transform of block `k` of the input under the counter
incremented `k` times. -/
theorem ctrRun_block (E : AesEngine) (slot : Nat) (keyY : List Nat) (mode : AesMode)
    (n : Nat) (ctr buf : List Nat) (k : Nat) (hk : k < n) :
    ((ctrRun E slot keyY mode n ctr buf).drop (16 * k)).take 16
      = E.block slot keyY mode (ctrAfter k ctr) ((buf.drop (16 * k)).take 16) := by
  obtain ⟨m, rfl⟩ : ∃ m, n = k + (m + 1) := ⟨n - k - 1, by omega⟩
  rw [ctrRun_drop, ctrRun]
  have h := E.block_length slot keyY mode (ctrAfter k ctr) ((buf.drop (16 * k)).take 16)
  rw [List.take_append_of_le_length (by omega), List.take_of_length_le (by omega)]

theorem ctrRun_rest (E : AesEngine) (slot : Nat) (keyY : List Nat) (mode : AesMode)
    (n : Nat) (ctr buf : List Nat) :
    (ctrRun E slot keyY mode n ctr buf).drop (16 * n) = buf.drop (16 * n) := by
  have h := ctrRun_drop E slot keyY mode n 0 ctr buf
  simpa [ctrRun] using h

/-- The block loop of `DecryptBuffer` terminates when `size` is reached in whole blocks and
performs a counter-mode run over the remaining blocks. -/
theorem DecryptBuffer.loop_run (E : AesEngine) (mode : AesMode) (size : Nat) (hsize : size < 2 ^ 32)
    (n : Nat) : ∀ (fuel i : Nat) (hw : AesHw) (ctr buf : List Nat),
      n < fuel → i + 16 * n = size →
      ∃ hw2, DecryptBuffer.loop E mode size fuel i hw ctr buf
          = some (hw2, ctrAfter n ctr, ctrRun E hw.keyslot (hw.keyY hw.keyslot) mode n ctr buf)
        ∧ hw2.keyY = hw.keyY ∧ hw2.keyslot = hw.keyslot := by
  induction n with
  | zero =>
    intro fuel i hw ctr buf hf hi
    obtain ⟨f, rfl⟩ : ∃ f, fuel = f + 1 := ⟨fuel - 1, by omega⟩
    refine ⟨hw, ?_, rfl, rfl⟩
    have : ¬ i < size := by omega
    simp [DecryptBuffer.loop, this, ctrAfter, ctrRun]
  | succ k ih =>
    intro fuel i hw ctr buf hf hi
    obtain ⟨f, rfl⟩ : ∃ f, fuel = f + 1 := ⟨fuel - 1, by omega⟩
    have hlt : i < size := by omega
    have hwrap : (i + 0x10) % 2 ^ 32 = i + 16 := Nat.mod_eq_of_lt (by omega)
    obtain ⟨hw2, h2, hk, hs⟩ := ih f (i + 16) (set_ctr hw ctr) (add_ctr ctr 1) (buf.drop 16)
      (by omega) (by omega)
    refine ⟨hw2, ?_, hk, hs⟩
    simp only [DecryptBuffer.loop, hlt, if_true, hwrap]
    rw [h2]
    simp [ctrAfter, ctrRun, aes_decrypt, set_ctr]

/-- The result of `DecryptBuffer` on a job of whole blocks: it returns, the buffer has gone
through a counter-mode run of `size / 16` blocks under the job's slot and the key-Y that slot
holds after the optional install, and the counter has been incremented once per block. -/
theorem DecryptBuffer_eq (E : AesEngine) (hw : AesHw) (info : DecryptBufferInfo)
    (hdiv : 16 ∣ info.size) (h32 : info.size < 2 ^ 32) :
    ∃ hw2, DecryptBuffer E hw info = some (hw2,
        { keyslot := info.keyslot, setKeyY := 0, keyY := info.keyY, size := info.size,
          mode := info.mode,
          CTR := ctrAfter (info.size / 16) info.CTR,
          buffer := ctrRun E info.keyslot
            (if info.setKeyY ≠ 0 then info.keyY else hw.keyY info.keyslot) info.mode
            (info.size / 16) info.CTR info.buffer })
      ∧ hw2.keyslot = info.keyslot
      ∧ hw2.keyY = (if info.setKeyY ≠ 0 then setup_aeskey hw info.keyslot info.keyY else hw).keyY := by
  obtain ⟨m, hm⟩ := hdiv
  have hq : info.size / 16 = m := by omega
  have hfuel : m < DecryptBuffer.fuel := by unfold DecryptBuffer.fuel; omega
  obtain ⟨hw2, h2, hk, hs⟩ := DecryptBuffer.loop_run E info.mode info.size h32 m DecryptBuffer.fuel 0
    (use_aeskey (if info.setKeyY ≠ 0 then setup_aeskey hw info.keyslot info.keyY else hw)
      info.keyslot) info.CTR info.buffer hfuel (by omega)
  refine ⟨hw2, ?_, by simpa [use_aeskey] using hs, by simpa [use_aeskey] using hk⟩
  unfold DecryptBuffer
  simp only [h2, hq]
  by_cases hY : info.setKeyY = 0
  · simp [hY, use_aeskey]
  · simp [hY, use_aeskey, setup_aeskey]

/-- C3: for a job whose size is a multiple of 16, `DecryptBuffer` returns; block `k` of the
buffer is the single-block transform of block `k` of the input under counter `c0 + k`
(mod 2^128) in the job's slot and mode; the bytes from `size` on are untouched and the counter
ends at `c0 + size/16` (mod 2^128), so exactly `size/16` blocks are processed; a requested
key-Y is resident in the job's slot for every block, the first included, and the request flag is
zero afterwards. -/
theorem DecryptBuffer_blocks (E : AesEngine) (hw : AesHw) (info : DecryptBufferInfo)
    (hdiv : 16 ∣ info.size) (h32 : info.size < 2 ^ 32) (hctr : WfCtr info.CTR) :
    ∃ hw2 info2, DecryptBuffer E hw info = some (hw2, info2)
      ∧ (∀ k, k < info.size / 16 →
          (info2.buffer.drop (16 * k)).take 16
            = E.block info.keyslot
                (if info.setKeyY ≠ 0 then info.keyY else hw.keyY info.keyslot) info.mode
                (beBytes 16 ((beVal info.CTR + k) % 2 ^ 128))
                ((info.buffer.drop (16 * k)).take 16))
      ∧ info2.buffer.drop info.size = info.buffer.drop info.size
      ∧ info2.CTR = beBytes 16 ((beVal info.CTR + info.size / 16) % 2 ^ 128)
      ∧ beVal info2.CTR = (beVal info.CTR + info.size / 16) % 2 ^ 128
      ∧ (info.setKeyY ≠ 0 → hw2.keyY info.keyslot = info.keyY)
      ∧ (info.setKeyY = 0 → hw2.keyY = hw.keyY)
      ∧ hw2.keyslot = info.keyslot
      ∧ info2.setKeyY = 0 := by
  obtain ⟨hw2, h, hs, hk⟩ := DecryptBuffer_eq E hw info hdiv h32
  refine ⟨hw2, _, h, ?_, ?_, ?_, ?_, ?_, ?_, hs, rfl⟩
  · intro k hk
    simp only
    rw [ctrRun_block E _ _ _ _ _ _ k hk, ctrAfter_eq k _ hctr]
    rfl
  · obtain ⟨m, hm⟩ := hdiv
    have hq : info.size / 16 = m := by omega
    simp only [hq]
    rw [hm]
    exact ctrRun_rest E _ _ _ _ _ _
  · simp only
    rw [ctrAfter_eq _ _ hctr]
    rfl
  · simp only
    rw [ctrAfter_eq _ _ hctr, beVal_add_ctr]
  · intro hY
    rw [hk]
    simp [hY, setup_aeskey]
  · intro hY
    rw [hk]
    simp [hY]

/-- C3 at a concrete job: two blocks, counter starting at all-ones, key-Y install requested. The
counter wraps to zero after the first block and ends at one. -/
theorem DecryptBuffer_blocks_witness :
    (16 ∣ 32) ∧ (32 < 2 ^ 32) ∧ WfCtr (List.replicate 16 0xFF)
    ∧ ∃ hw2 info2, DecryptBuffer xorCtrEngine zeroHw
        { keyslot := 4, setKeyY := 1, CTR := List.replicate 16 0xFF, keyY := List.replicate 16 1,
          size := 32, buffer := List.replicate 32 0, mode := AES_CNT_CTRNAND_MODE }
        = some (hw2, info2)
      ∧ info2.CTR = beBytes 16 ((beVal (List.replicate 16 0xFF) + 32 / 16) % 2 ^ 128)
      ∧ hw2.keyslot = 4 ∧ info2.setKeyY = 0 := by
  refine ⟨by decide, by decide, by decide, ?_⟩
  obtain ⟨hw2, info2, h, _, _, hc, _, _, _, hs, hf⟩ := DecryptBuffer_blocks xorCtrEngine zeroHw
    { keyslot := 4, setKeyY := 1, CTR := List.replicate 16 0xFF, keyY := List.replicate 16 1,
      size := 32, buffer := List.replicate 32 0, mode := AES_CNT_CTRNAND_MODE }
    (by decide) (by decide) (by decide)
  exact ⟨hw2, info2, h, hc, hs, hf⟩

/-! ## Counter derivation and random access -/

/-- C2: `GetNandCtr` returns `base + offset / 16` as a 128-bit big-endian sum. At or above
0x0B100000 the base is the first 16 bytes of the SHA-256 digest of the 16-byte console identity;
below it byte `i` of the base is byte `15 - i` of the SHA-1 digest of the same identity, that is
the first 16 digest bytes back to front, bytes 16..19 not entering. -/
theorem GetNandCtr_eq (C : Console) (ctr : List Nat) (offset : Nat) (hctr : ctr.length = 16) :
    GetNandCtr C ctr offset
        = beBytes 16 ((beVal (if 0x0B100000 ≤ offset
              then (C.sha256 (C.nand_cid.take 16)).take 16
              else (List.range 16).map (fun i => (C.sha1 (C.nand_cid.take 16)).getD (15 - i) 0))
            + offset / 16) % 2 ^ 128)
    ∧ beVal (GetNandCtr C ctr offset)
        = (beVal (if 0x0B100000 ≤ offset
              then (C.sha256 (C.nand_cid.take 16)).take 16
              else (List.range 16).map (fun i => (C.sha1 (C.nand_cid.take 16)).getD (15 - i) 0))
            + offset / 16) % 2 ^ 128
    ∧ (16 ≤ (C.sha1 (C.nand_cid.take 16)).length →
        (List.range 16).map (fun i => (C.sha1 (C.nand_cid.take 16)).getD (15 - i) 0)
          = ((C.sha1 (C.nand_cid.take 16)).take 16).reverse) := by
  have h : GetNandCtr C ctr offset
      = add_ctr (if 0x0B100000 ≤ offset
              then (C.sha256 (C.nand_cid.take 16)).take 16
              else (List.range 16).map (fun i => (C.sha1 (C.nand_cid.take 16)).getD (15 - i) 0))
          (offset / 16) := by
    unfold GetNandCtr
    by_cases hr : 0x0B100000 ≤ offset
    · simp only [ge_iff_le, hr, if_true]
      rw [memcpy_full _ _ _ hctr]
    · simp only [ge_iff_le, hr, if_false]
      rw [GetNandCtr.reverseLoop_eq _ _ hctr]
  refine ⟨?_, ?_, legacyBase_eq_reverse _⟩
  · rw [h]; rfl
  · rw [h, beVal_add_ctr]

/-- C2 at the offset `NandPadgen` uses, on the all-zero console identity. -/
theorem GetNandCtr_eq_witness :
    (List.replicate 16 0).length = 16
    ∧ GetNandCtr zeroConsole (List.replicate 16 0) 0xB930000
        = beBytes 16 ((beVal (if 0x0B100000 ≤ 0xB930000
              then (zeroConsole.sha256 (zeroConsole.nand_cid.take 16)).take 16
              else (List.range 16).map
                (fun i => (zeroConsole.sha1 (zeroConsole.nand_cid.take 16)).getD (15 - i) 0))
            + 0xB930000 / 16) % 2 ^ 128) :=
  ⟨by decide, (GetNandCtr_eq zeroConsole (List.replicate 16 0) 0xB930000 (by decide)).1⟩

/-- Within one counter regime the freshly derived counter of a later offset is the counter of
the earlier offset advanced by the number of blocks in between. -/
theorem GetNandCtr_advance (C : Console) (ctr : List Nat) (o1 o2 : Nat)
    (h12 : o1 < o2) (hdiv : 16 ∣ o2 - o1) (hreg : 0x0B100000 ≤ o1 ∨ o2 < 0x0B100000) :
    ctrAfter ((o2 - o1) / 16) (GetNandCtr C ctr o1) = GetNandCtr C ctr o2 := by
  obtain ⟨m, hm⟩ := hdiv
  have hq : (o2 - o1) / 16 = m := by omega
  obtain ⟨j, rfl⟩ : ∃ j, m = j + 1 := ⟨m - 1, by omega⟩
  have ho : o2 / 16 = o1 / 16 + (j + 1) := by omega
  have hbase : (0x0B100000 ≤ o1) = (0x0B100000 ≤ o2) := by
    apply propext
    constructor <;> intro h <;> omega
  rw [hq, ctrAfter_succ]
  unfold GetNandCtr
  simp only [ge_iff_le, hbase]
  rw [add_ctr_add_ctr, ho]

/-! ## `DecryptNandToMem` -/

theorem readBytes_length (buffer : Nat → Nat) (p n : Nat) : (readBytes buffer p n).length = n := by
  simp [readBytes]

theorem readBytes_drop (f : Nat → Nat) (p a b : Nat) :
    (readBytes f p (a + b)).drop a = readBytes f (p + a) b := by
  apply List.ext_getElem?
  intro i
  unfold readBytes
  rw [List.getElem?_drop, List.getElem?_map, List.getElem?_map]
  by_cases hi : i < b
  · rw [List.getElem?_range (by omega), List.getElem?_range hi]
    simp [Nat.add_assoc]
  · rw [List.getElem?_eq_none (by simp; omega), List.getElem?_eq_none (by simp; omega)]
    rfl

/-- A counter-mode run over whole blocks does not depend on, and does not touch, what follows
them. -/
theorem ctrRun_append (E : AesEngine) (slot : Nat) (keyY : List Nat) (mode : AesMode) (n : Nat)
    (ctr x y : List Nat) (hx : x.length = 16 * n) :
    ctrRun E slot keyY mode n ctr (x ++ y) = ctrRun E slot keyY mode n ctr x ++ y := by
  induction n generalizing ctr x with
  | zero =>
    have : x = [] := List.length_eq_zero.mp (by omega)
    subst this
    simp [ctrRun]
  | succ k ih =>
    have h1 : (x ++ y).take 16 = x.take 16 := List.take_append_of_le_length (by omega)
    have h2 : (x ++ y).drop 16 = x.drop 16 ++ y := List.drop_append_of_le_length (by omega)
    rw [ctrRun, ctrRun, h1, h2, ih _ _ (by simp; omega), List.append_assoc]

/-- The result of `DecryptNandToMem` on a window of whole sectors at a sector boundary: it
returns 0, and the first `size` bytes of the buffer are the counter-mode run, under the
partition's slot and mode and the counter derived for `offset`, over the device bytes
`[offset, offset + size)`. -/
theorem DecryptNandToMem_eq (E : AesEngine) (C : Console) (nand : Nat → Nat) (hw : AesHw)
    (buffer : List Nat) (offset size : Nat) (partition : PartitionInfo)
    (ho : 0x200 ∣ offset) (hs : 0x200 ∣ size) (h32 : size < 2 ^ 32) :
    ∃ hw1, DecryptNandToMem E C nand hw buffer offset size partition
        = some (0, hw1,
            ctrRun E partition.keyslot (hw.keyY partition.keyslot) partition.mode (size / 16)
              (GetNandCtr C (List.replicate 16 0) offset) (readBytes nand offset size)
            ++ buffer.drop size) := by
  obtain ⟨a, ha⟩ := ho
  obtain ⟨b, hb⟩ := hs
  have hbuf : sdmmc_nand_readsectors nand (offset / NAND_SECTOR_SIZE) (size / NAND_SECTOR_SIZE)
      buffer = readBytes nand offset size ++ buffer.drop size := by
    have h1 : offset / 0x200 * 0x200 = offset := by omega
    have h2 : size / 0x200 * 0x200 = size := by omega
    unfold sdmmc_nand_readsectors memcpy NAND_SECTOR_SIZE
    rw [h1, h2, List.take_of_length_le (by rw [readBytes_length])]
  obtain ⟨hw1, h1, _, _⟩ := DecryptBuffer_eq E hw
    { keyslot := partition.keyslot, setKeyY := 0,
      CTR := GetNandCtr C (List.replicate 16 0) offset,
      keyY := List.replicate 16 0, size := size,
      buffer := readBytes nand offset size ++ buffer.drop size, mode := partition.mode }
    ⟨32 * b, by simp only; omega⟩ h32
  refine ⟨hw1, ?_⟩
  unfold DecryptNandToMem
  simp only [hbuf, h1]
  have hlen : (readBytes nand offset size).length = 16 * (size / 16) := by
    rw [readBytes_length]; omega
  simp [ctrRun_append E _ _ _ _ _ _ _ hlen]

/-- Random access through `DecryptNandToMem`: for sector-aligned offsets `o1 < o2` in the same
counter regime, the window of `n` bytes decrypted at `o2` is the part from `o2 - o1` on of the
window of `o2 - o1 + n` bytes decrypted at `o1`. -/
theorem DecryptNandToMem_random_access (E : AesEngine) (C : Console) (nand : Nat → Nat)
    (hw : AesHw) (buf1 buf2 : List Nat) (o1 o2 n : Nat) (partition : PartitionInfo)
    (h12 : o1 < o2) (ha1 : 0x200 ∣ o1) (ha2 : 0x200 ∣ o2) (hn : 0x200 ∣ n)
    (hreg : 0x0B100000 ≤ o1 ∨ o2 < 0x0B100000) (h32 : o2 - o1 + n < 2 ^ 32) :
    ∃ hw1 b1 hw2 b2,
      DecryptNandToMem E C nand hw buf1 o1 (o2 - o1 + n) partition = some (0, hw1, b1)
      ∧ DecryptNandToMem E C nand hw buf2 o2 n partition = some (0, hw2, b2)
      ∧ b2.take n = (b1.drop (o2 - o1)).take n := by
  have hd : 0x200 ∣ o2 - o1 := Nat.dvd_sub' ha2 ha1
  obtain ⟨hw1, h1⟩ := DecryptNandToMem_eq E C nand hw buf1 o1 (o2 - o1 + n) partition ha1
    (Nat.dvd_add hd hn) h32
  obtain ⟨hw2, h2⟩ := DecryptNandToMem_eq E C nand hw buf2 o2 n partition ha2 hn (by omega)
  refine ⟨hw1, _, hw2, _, h1, h2, ?_⟩
  obtain ⟨a, ha⟩ := hd
  obtain ⟨b, hb⟩ := hn
  have hq : (o2 - o1 + n) / 16 = 32 * a + 32 * b := by omega
  have hqb : n / 16 = 32 * b := by omega
  have h16 : o2 - o1 = 16 * (32 * a) := by omega
  have hadv := GetNandCtr_advance C (List.replicate 16 0) o1 o2 h12 ⟨32 * a, h16⟩ hreg
  have hqa : (o2 - o1) / 16 = 32 * a := by omega
  rw [hqa] at hadv
  have hl2 : (ctrRun E partition.keyslot (hw.keyY partition.keyslot) partition.mode (n / 16)
      (GetNandCtr C (List.replicate 16 0) o2) (readBytes nand o2 n)).length = n := by
    rw [ctrRun_length _ _ _ _ _ _ _ (by rw [readBytes_length]; omega), readBytes_length]
  have hl1 : (ctrRun E partition.keyslot (hw.keyY partition.keyslot) partition.mode
      ((o2 - o1 + n) / 16) (GetNandCtr C (List.replicate 16 0) o1)
      (readBytes nand o1 (o2 - o1 + n))).length = o2 - o1 + n := by
    rw [ctrRun_length _ _ _ _ _ _ _ (by rw [readBytes_length]; omega), readBytes_length]
  rw [List.take_append_of_le_length (by omega), List.take_of_length_le (by omega),
    List.drop_append_of_le_length (by omega),
    List.take_append_of_le_length (by rw [List.length_drop, hl1]; omega)]
  have ho2 : o1 + (o2 - o1) = o2 := by omega
  rw [hq, hqb]
  conv_rhs => rw [h16, ctrRun_drop, hadv, ← h16, readBytes_drop, ho2]
  rw [List.take_of_length_le]
  rw [ctrRun_length _ _ _ _ _ _ _ (by rw [readBytes_length]; omega), readBytes_length]

/-- C1 (amended): for byte offsets `o1 < o2` in the same counter regime (both at or above
0x0B100000, or both below it) with `o2 - o1` a multiple of 16, the counter that `DecryptBuffer`
reaches after the `(o2 - o1) / 16` blocks from `GetNandCtr(o1)` is the counter `GetNandCtr`
derives for `o2`; and decrypting the bytes at `o2` with the fresh counter gives the same bytes as
decrypting the contiguous run from `o1` and dropping the first `o2 - o1` bytes. Through
`DecryptNandToMem`, which reads whole 0x200-byte sectors, the same holds when `o1`, `o2` and the
window size are multiples of 0x200. -/
theorem GetNandCtr_random_access (E : AesEngine) (hw : AesHw) (C : Console)
    (keyslot setKeyY : Nat) (keyY : List Nat) (mode : AesMode)
    (ctr run : List Nat) (o1 o2 n : Nat)
    (h12 : o1 < o2) (hdiv : 16 ∣ o2 - o1)
    (hreg : 0x0B100000 ≤ o1 ∨ o2 < 0x0B100000)
    (hn : 16 ∣ n) (h32 : o2 - o1 + n < 2 ^ 32) :
    (∃ hwd jd hw1 j1 hw2 j2,
      DecryptBuffer E hw
          { keyslot := keyslot, setKeyY := setKeyY, keyY := keyY, mode := mode,
            CTR := GetNandCtr C ctr o1, size := o2 - o1, buffer := run } = some (hwd, jd)
      ∧ jd.CTR = GetNandCtr C ctr o2
      ∧ DecryptBuffer E hw
          { keyslot := keyslot, setKeyY := setKeyY, keyY := keyY, mode := mode,
            CTR := GetNandCtr C ctr o1, size := o2 - o1 + n, buffer := run } = some (hw1, j1)
      ∧ DecryptBuffer E hw
          { keyslot := keyslot, setKeyY := setKeyY, keyY := keyY, mode := mode,
            CTR := GetNandCtr C ctr o2, size := n, buffer := run.drop (o2 - o1) }
          = some (hw2, j2)
      ∧ j2.buffer = j1.buffer.drop (o2 - o1))
    ∧ (0x200 ∣ o1 → 0x200 ∣ o2 → 0x200 ∣ n →
        ∀ (nand : Nat → Nat) (partition : PartitionInfo) (buf1 buf2 : List Nat),
        ∃ hw1 b1 hw2 b2,
          DecryptNandToMem E C nand hw buf1 o1 (o2 - o1 + n) partition = some (0, hw1, b1)
          ∧ DecryptNandToMem E C nand hw buf2 o2 n partition = some (0, hw2, b2)
          ∧ b2.take n = (b1.drop (o2 - o1)).take n) := by
  constructor
  · obtain ⟨hwd, hd, _, _⟩ := DecryptBuffer_eq E hw
      { keyslot := keyslot, setKeyY := setKeyY, keyY := keyY, mode := mode,
        CTR := GetNandCtr C ctr o1, size := o2 - o1, buffer := run } hdiv (by simp only; omega)
    obtain ⟨hw1, h1, _, _⟩ := DecryptBuffer_eq E hw
      { keyslot := keyslot, setKeyY := setKeyY, keyY := keyY, mode := mode,
        CTR := GetNandCtr C ctr o1, size := o2 - o1 + n, buffer := run }
      (Nat.dvd_add hdiv hn) h32
    obtain ⟨hw2, h2, _, _⟩ := DecryptBuffer_eq E hw
      { keyslot := keyslot, setKeyY := setKeyY, keyY := keyY, mode := mode,
        CTR := GetNandCtr C ctr o2, size := n, buffer := run.drop (o2 - o1) } hn
      (by simp only; omega)
    refine ⟨hwd, _, hw1, _, hw2, _, hd, ?_, h1, h2, ?_⟩
    · exact GetNandCtr_advance C ctr o1 o2 h12 hdiv hreg
    · obtain ⟨a, ha⟩ := hdiv
      obtain ⟨b, hb⟩ := hn
      have hq : (o2 - o1 + n) / 16 = a + b := by omega
      have hqa : (o2 - o1) / 16 = a := by omega
      have hqb : n / 16 = b := by omega
      have hadv := GetNandCtr_advance C ctr o1 o2 h12 ⟨a, ha⟩ hreg
      simp only [hq, hqb]
      rw [ha, ctrRun_drop, ← hadv, hqa]
  · intro ha1 ha2 han nand partition buf1 buf2
    exact DecryptNandToMem_random_access E C nand hw buf1 buf2 o1 o2 n partition h12 ha1 ha2 han
      hreg h32

/-- C1 (amended) at two sector-aligned offsets inside the CTRNAND region of the all-zero console
identity. -/
theorem GetNandCtr_random_access_witness :
    0x0B95CA00 < 0x0B95CC00
    ∧ (16 ∣ 0x0B95CC00 - 0x0B95CA00) ∧ (0x0B100000 ≤ 0x0B95CA00 ∨ 0x0B95CC00 < 0x0B100000)
    ∧ (16 ∣ 0x200) ∧ (0x0B95CC00 - 0x0B95CA00 + 0x200 < 2 ^ 32)
    ∧ (∃ hwd jd, DecryptBuffer xorCtrEngine zeroHw
          { keyslot := 4, setKeyY := 0, keyY := [], mode := AES_CNT_CTRNAND_MODE,
            CTR := GetNandCtr zeroConsole (List.replicate 16 0) 0x0B95CA00,
            size := 0x0B95CC00 - 0x0B95CA00, buffer := List.replicate 1024 7 } = some (hwd, jd)
        ∧ jd.CTR = GetNandCtr zeroConsole (List.replicate 16 0) 0x0B95CC00)
    ∧ (∃ hw1 b1 hw2 b2,
          DecryptNandToMem xorCtrEngine zeroConsole demoNand zeroHw (List.replicate 1024 0)
            0x0B95CA00 (0x0B95CC00 - 0x0B95CA00 + 0x200)
            { name := "CTRNAND", offset := 0x0B95CA00, size := 0x2F3E3600, keyslot := 0x4,
              mode := AES_CNT_CTRNAND_MODE } = some (0, hw1, b1)
          ∧ DecryptNandToMem xorCtrEngine zeroConsole demoNand zeroHw (List.replicate 1024 0)
              0x0B95CC00 0x200
              { name := "CTRNAND", offset := 0x0B95CA00, size := 0x2F3E3600, keyslot := 0x4,
                mode := AES_CNT_CTRNAND_MODE } = some (0, hw2, b2)
          ∧ b2.take 0x200 = (b1.drop (0x0B95CC00 - 0x0B95CA00)).take 0x200) := by
  have h := GetNandCtr_random_access xorCtrEngine zeroHw zeroConsole 4 0 []
    AES_CNT_CTRNAND_MODE (List.replicate 16 0) (List.replicate 1024 7) 0x0B95CA00 0x0B95CC00
    0x200 (by decide) (by decide) (by decide) (by decide) (by decide)
  obtain ⟨⟨hwd, jd, _, _, _, _, hd, hc, _⟩, h2⟩ := h
  exact ⟨by decide, by decide, by decide, by decide, by decide, ⟨hwd, jd, hd, hc⟩,
    h2 (by decide) (by decide) (by decide) demoNand _ _ _⟩

/-- C1 as stated fails in two ways. Across the regime threshold, with `o1 = 0x0B0FFFF0` and
`o2 = 0x0B100000` (sixteen bytes apart) on the all-zero console identity, the counter
`DecryptBuffer` reaches after one block from `GetNandCtr(o1)` is not `GetNandCtr(o2)`, and the
block decrypted at `o2` with the fresh counter differs from the second block of the run
decrypted from `o1`. Inside one regime, with `o1 = 0x0B100000` and `o2 = 0x0B100010`,
`DecryptNandToMem` at `o2` reads the sector that starts at `o1` and its result differs from the
window decrypted at `o1` with the first sixteen bytes dropped. -/
theorem GetNandCtr_random_access_counterexample :
    0x0B0FFFF0 < 0x0B100000 ∧ (16 ∣ 0x0B100000 - 0x0B0FFFF0)
    ∧ (DecryptBuffer xorCtrEngine zeroHw
        { keyslot := 4, setKeyY := 0, keyY := [], mode := AES_CNT_CTRNAND_MODE,
          CTR := GetNandCtr zeroConsole (List.replicate 16 0) 0x0B0FFFF0,
          size := 0x0B100000 - 0x0B0FFFF0, buffer := List.replicate 32 0 }).map (fun r => r.2.CTR)
      ≠ some (GetNandCtr zeroConsole (List.replicate 16 0) 0x0B100000)
    ∧ (DecryptBuffer xorCtrEngine zeroHw
        { keyslot := 4, setKeyY := 0, keyY := [], mode := AES_CNT_CTRNAND_MODE,
          CTR := GetNandCtr zeroConsole (List.replicate 16 0) 0x0B100000,
          size := 16, buffer := (List.replicate 32 0).drop (0x0B100000 - 0x0B0FFFF0) }).map
          (fun r => r.2.buffer)
      ≠ (DecryptBuffer xorCtrEngine zeroHw
        { keyslot := 4, setKeyY := 0, keyY := [], mode := AES_CNT_CTRNAND_MODE,
          CTR := GetNandCtr zeroConsole (List.replicate 16 0) 0x0B0FFFF0,
          size := 0x0B100000 - 0x0B0FFFF0 + 16, buffer := List.replicate 32 0 }).map
          (fun r => r.2.buffer.drop (0x0B100000 - 0x0B0FFFF0))
    ∧ 0x0B100000 < 0x0B100010 ∧ (16 ∣ 0x0B100010 - 0x0B100000)
    ∧ (DecryptNandToMem xorCtrEngine zeroConsole demoNand zeroHw (List.replicate 1024 0)
          0x0B100010 0x200
          { name := "AGBSAVE", offset := 0x0B100000, size := 0x00030000, keyslot := 0x7,
            mode := AES_CNT_CTRNAND_MODE }).map (fun r => r.2.2.take 0x200)
      ≠ (DecryptNandToMem xorCtrEngine zeroConsole demoNand zeroHw (List.replicate 1024 0)
          0x0B100000 (0x0B100010 - 0x0B100000 + 0x200)
          { name := "AGBSAVE", offset := 0x0B100000, size := 0x00030000, keyslot := 0x7,
            mode := AES_CNT_CTRNAND_MODE }).map
          (fun r => (r.2.2.drop (0x0B100010 - 0x0B100000)).take 0x200) := by
  refine ⟨by decide, by decide, by decide, by decide, by decide, by decide, ?_⟩
  decide

/-! ## `CreatePad` -/

theorem padRun_length (E : AesEngine) (slot : Nat) (keyY : List Nat) (n : Nat) (ctr : List Nat) :
    (padRun E slot keyY n ctr).length = 16 * n := by
  induction n generalizing ctr with
  | zero => simp [padRun]
  | succ k ih =>
    rw [padRun, List.length_append, E.block_length, ih]
    omega

theorem padRun_add (E : AesEngine) (slot : Nat) (keyY : List Nat) (a b : Nat) (ctr : List Nat) :
    padRun E slot keyY (a + b) ctr
      = padRun E slot keyY a ctr ++ padRun E slot keyY b (ctrAfter a ctr) := by
  induction a generalizing ctr with
  | zero => simp [padRun, ctrAfter]
  | succ k ih =>
    have h : k + 1 + b = (k + b) + 1 := by omega
    rw [h, padRun, padRun, ih, ctrAfter, List.append_assoc]

/-- Block `k` of a keystream is the transform of the all-zero block under the counter
incremented `k` times. -/
theorem padRun_block (E : AesEngine) (slot : Nat) (keyY : List Nat) (n : Nat) (ctr : List Nat)
    (k : Nat) (hk : k < n) :
    ((padRun E slot keyY n ctr).drop (16 * k)).take 16
      = E.block slot keyY AES_CNT_CTRNAND_MODE (ctrAfter k ctr) zero_buf := by
  obtain ⟨m, rfl⟩ : ∃ m, n = k + (m + 1) := ⟨n - k - 1, by omega⟩
  rw [padRun_add, List.drop_append_of_le_length (by rw [padRun_length]),
    List.drop_of_length_le (by rw [padRun_length]), List.nil_append, padRun]
  have h := E.block_length slot keyY AES_CNT_CTRNAND_MODE (ctrAfter k ctr) zero_buf
  rw [List.take_append_of_le_length (by omega), List.take_of_length_le (by omega)]

/-- The inner loop of `CreatePad` terminates and leaves `n` blocks of keystream at the start of
the scratch memory. -/
theorem CreatePad.inner_eq (E : AesEngine) (curr : Nat) (hcurr : curr < 2 ^ 32) (n : Nat) :
    ∀ (fuel j : Nat) (hw : AesHw) (ctr buf : List Nat),
      n < fuel → j + 16 * n = curr →
      ∃ hw2, CreatePad.inner E curr fuel j hw ctr buf
          = some (hw2, ctrAfter n ctr,
              padRun E hw.keyslot (hw.keyY hw.keyslot) n ctr ++ buf.drop (16 * n))
        ∧ hw2.keyY = hw.keyY ∧ hw2.keyslot = hw.keyslot := by
  induction n with
  | zero =>
    intro fuel j hw ctr buf hf hj
    obtain ⟨f, rfl⟩ : ∃ f, fuel = f + 1 := ⟨fuel - 1, by omega⟩
    refine ⟨hw, ?_, rfl, rfl⟩
    have : ¬ j < curr := by omega
    simp [CreatePad.inner, this, ctrAfter, padRun]
  | succ k ih =>
    intro fuel j hw ctr buf hf hj
    obtain ⟨f, rfl⟩ : ∃ f, fuel = f + 1 := ⟨fuel - 1, by omega⟩
    have hlt : j < curr := by omega
    have hwrap : (j + 16) % 2 ^ 32 = j + 16 := Nat.mod_eq_of_lt (by omega)
    obtain ⟨hw2, h2, hk, hs⟩ := ih f (j + 16) (set_ctr hw ctr) (add_ctr ctr 1) (buf.drop 16)
      (by omega) (by omega)
    refine ⟨hw2, ?_, hk, hs⟩
    simp only [CreatePad.inner, hlt, if_true, hwrap]
    rw [h2]
    have hd : 16 * (k + 1) = 16 + 16 * k := by omega
    simp [ctrAfter, padRun, aes_decrypt, set_ctr, hd, List.drop_drop]

theorem blocksPerChunk_eq : blocksPerChunk = 65536 := by
  norm_num [blocksPerChunk, BUFFER_MAX_SIZE]

theorem BUFFER_MAX_SIZE_eq : BUFFER_MAX_SIZE = 1048576 := by
  norm_num [BUFFER_MAX_SIZE]

theorem padChunks_succ (E : AesEngine) (slot : Nat) (keyY : List Nat) (c n : Nat)
    (ctr : List Nat) :
    padChunks E slot keyY c (n + 1) ctr
      = (c * BUFFER_MAX_SIZE, padRun E slot keyY blocksPerChunk ctr)
        :: padChunks E slot keyY (c + 1) n (ctrAfter blocksPerChunk ctr) := by
  unfold padChunks
  rw [List.range_succ_eq_map, List.map_cons, List.map_map]
  have h0 : ctrAfter (0 * blocksPerChunk) ctr = ctr := by
    rw [Nat.zero_mul, ctrAfter]
  have ht : ∀ t, ((fun t => ((c + t) * BUFFER_MAX_SIZE,
        padRun E slot keyY blocksPerChunk (ctrAfter (t * blocksPerChunk) ctr))) ∘ Nat.succ) t
      = ((c + 1 + t) * BUFFER_MAX_SIZE, padRun E slot keyY blocksPerChunk
          (ctrAfter (t * blocksPerChunk) (ctrAfter blocksPerChunk ctr))) := by
    intro t
    have h1 : c + (t + 1) = c + 1 + t := by omega
    have h2 : (t + 1) * blocksPerChunk = blocksPerChunk + t * blocksPerChunk := by ring
    simp only [Function.comp, Nat.succ_eq_add_one, h1, h2, ctrAfter_add]
  rw [h0, Nat.add_zero, funext ht]

/-- The outer loop of `CreatePad`, started at a chunk boundary with `r` whole chunks to go,
returns; it has appended the writes of the first `j` of these chunks, where `j = r` and the
return code is 0 when every write succeeds, and the return code is 1 otherwise. -/
theorem CreatePad.outer_eq (E : AesEngine) (fl : FileLayer) (size_bytes : Nat)
    (hsize : size_bytes < 2 ^ 32) (r : Nat) :
    ∀ (fuel c : Nat) (hw : AesHw) (ctr buffer : List Nat) (ws : Writes),
      r < fuel → (c + r) * 1048576 = size_bytes →
      ∃ rc hw2 j, CreatePad.outer E fl size_bytes fuel (c * 1048576) hw ctr buffer ws
          = some (rc, hw2, ws ++ padChunks E hw.keyslot (hw.keyY hw.keyslot) c j ctr)
        ∧ j ≤ r ∧ (rc = 0 ∧ j = r ∨ rc = 1 ∧ j < r)
        ∧ ((∀ sz off, fl.writeOk sz off = true) → rc = 0)
        ∧ hw2.keyY = hw.keyY ∧ hw2.keyslot = hw.keyslot := by
  induction r with
  | zero =>
    intro fuel c hw ctr buffer ws hf hc
    obtain ⟨f, rfl⟩ : ∃ f, fuel = f + 1 := ⟨fuel - 1, by omega⟩
    refine ⟨0, hw, 0, ?_, le_refl _, Or.inl ⟨rfl, rfl⟩, fun _ => rfl, rfl, rfl⟩
    have : ¬ c * 1048576 < size_bytes := by omega
    simp [CreatePad.outer, this, padChunks]
  | succ k ih =>
    intro fuel c hw ctr buffer ws hf hc
    obtain ⟨f, rfl⟩ : ∃ f, fuel = f + 1 := ⟨fuel - 1, by omega⟩
    have hlt : c * 1048576 < size_bytes := by omega
    have hmin : min BUFFER_MAX_SIZE (size_bytes - c * 1048576) = 1048576 := by
      rw [BUFFER_MAX_SIZE_eq]; omega
    have hwrap : (c * 1048576 + BUFFER_MAX_SIZE) % 2 ^ 32 = (c + 1) * 1048576 := by
      rw [BUFFER_MAX_SIZE_eq, Nat.mod_eq_of_lt (by omega)]; ring
    obtain ⟨hw1, h1, hk1, hs1⟩ := CreatePad.inner_eq E 1048576 (by norm_num) blocksPerChunk
      CreatePad.innerFuel 0 hw ctr buffer
      (by norm_num [blocksPerChunk, CreatePad.innerFuel, BUFFER_MAX_SIZE])
      (by norm_num [blocksPerChunk, BUFFER_MAX_SIZE])
    have htake : (padRun E hw.keyslot (hw.keyY hw.keyslot) blocksPerChunk ctr
          ++ buffer.drop (16 * blocksPerChunk)).take 1048576
        = padRun E hw.keyslot (hw.keyY hw.keyslot) blocksPerChunk ctr := by
      rw [List.take_append_of_le_length (by rw [padRun_length, blocksPerChunk_eq]),
        List.take_of_length_le (by rw [padRun_length, blocksPerChunk_eq])]
    simp only [CreatePad.outer, hlt, if_true, hmin, h1, hwrap, htake]
    by_cases hw_ok : fl.writeOk 1048576 (c * 1048576) = true
    · obtain ⟨rc, hw2, j, h2, hj, hrc, hall, hk2, hs2⟩ := ih f (c + 1) hw1
        (ctrAfter blocksPerChunk ctr) (padRun E hw.keyslot (hw.keyY hw.keyslot) blocksPerChunk ctr
          ++ buffer.drop (16 * blocksPerChunk))
        (ws ++ [(c * 1048576, padRun E hw.keyslot (hw.keyY hw.keyslot) blocksPerChunk ctr)])
        (by omega) (by omega)
      refine ⟨rc, hw2, j + 1, ?_, by omega, ?_, hall, by rw [hk2, hk1], by rw [hs2, hs1]⟩
      · simp only [hw_ok, Bool.not_true, Bool.false_eq_true, if_false]
        rw [h2, padChunks_succ, hs1, hk1, BUFFER_MAX_SIZE_eq]
        simp
      · rcases hrc with ⟨h0, hj0⟩ | ⟨h1, hj1⟩
        · exact Or.inl ⟨h0, by omega⟩
        · exact Or.inr ⟨h1, by omega⟩
    · refine ⟨1, hw1, 0, ?_, by omega, Or.inr ⟨rfl, by omega⟩, ?_, hk1, hs1⟩
      · simp [hw_ok, padChunks]
      · intro hall
        exact absurd (hall _ _) hw_ok

theorem padChunks_snoc (E : AesEngine) (slot : Nat) (keyY : List Nat) (c n : Nat)
    (ctr : List Nat) :
    padChunks E slot keyY c (n + 1) ctr
      = padChunks E slot keyY c n ctr
        ++ [((c + n) * BUFFER_MAX_SIZE,
              padRun E slot keyY blocksPerChunk (ctrAfter (n * blocksPerChunk) ctr))] := by
  unfold padChunks
  rw [List.range_succ, List.map_append, List.map_singleton]

theorem padChunks_length (E : AesEngine) (slot : Nat) (keyY : List Nat) (c n : Nat)
    (ctr : List Nat) : (padChunks E slot keyY c n ctr).length = n := by
  simp [padChunks]

theorem pwrite_at_end (file data : List Nat) : pwrite file file.length data = file ++ data := by
  simp [pwrite]

/-- The file made of the first `j` chunk writes is the keystream of `j * blocksPerChunk`
blocks. -/
theorem fileOf_padChunks (E : AesEngine) (slot : Nat) (keyY : List Nat) (j : Nat)
    (ctr : List Nat) :
    fileOf (padChunks E slot keyY 0 j ctr) = padRun E slot keyY (j * blocksPerChunk) ctr := by
  induction j with
  | zero => rw [Nat.zero_mul]; rfl
  | succ k ih =>
    have hlen : (0 + k) * BUFFER_MAX_SIZE
        = (padRun E slot keyY (k * blocksPerChunk) ctr).length := by
      rw [padRun_length, BUFFER_MAX_SIZE_eq, blocksPerChunk_eq]; omega
    have hk : (k + 1) * blocksPerChunk = k * blocksPerChunk + blocksPerChunk := by ring
    rw [padChunks_snoc]
    unfold fileOf at ih ⊢
    rw [List.foldl_append, ih, List.foldl_cons, List.foldl_nil]
    simp only
    rw [hlen, pwrite_at_end, hk, padRun_add]

theorem size_bytes_eq (size_mb : Nat) :
    (size_mb * 1024 * 1024) % 2 ^ 32 = (0 + size_mb % 4096) * 1048576 := by
  omega

/-- The result of `CreatePad`: it returns; the writes issued are the first `j` chunks of the
keystream under the job's slot, the key-Y that slot holds after the optional install, and the
job's counter; `j` is the number of chunks `size_mb % 4096` and the return code is 0 when the
file is created and every write succeeds. -/
theorem CreatePad_eq (E : AesEngine) (fl : FileLayer) (hw : AesHw) (buffer : List Nat)
    (info : PadInfo) :
    ∃ rc hw2 j, CreatePad E fl hw buffer info
        = some (rc, hw2, padChunks E info.keyslot
            (if info.setKeyY ≠ 0 then info.keyY else hw.keyY info.keyslot) 0 j
            (memcpy (List.replicate 16 0) info.CTR 16))
      ∧ j ≤ info.size_mb % 4096
      ∧ (fl.createOk info.filename = true → (∀ sz off, fl.writeOk sz off = true) →
          rc = 0 ∧ j = info.size_mb % 4096) := by
  by_cases hc : fl.createOk info.filename = true
  · obtain ⟨rc, hw2, j, h, hj, hrc, hall, _, _⟩ := CreatePad.outer_eq E fl
      ((info.size_mb * 1024 * 1024) % 2 ^ 32) (Nat.mod_lt _ (by norm_num)) (info.size_mb % 4096)
      CreatePad.outerFuel 0
      (use_aeskey (if info.setKeyY ≠ 0 then setup_aeskey hw info.keyslot info.keyY else hw)
        info.keyslot) (memcpy (List.replicate 16 0) info.CTR 16) buffer []
      (by norm_num [CreatePad.outerFuel, BUFFER_MAX_SIZE]; omega) (size_bytes_eq _).symm
    refine ⟨rc, hw2, j, ?_, hj, ?_⟩
    · unfold CreatePad
      simp only [hc, Bool.not_true, Bool.false_eq_true, if_false]
      rw [Nat.zero_mul] at h
      rw [h]
      by_cases hY : info.setKeyY = 0
      · simp [hY, use_aeskey]
      · simp [hY, use_aeskey, setup_aeskey]
    · intro _ hwr
      have h0 := hall hwr
      rcases hrc with ⟨_, hj0⟩ | ⟨h1, _⟩
      · exact ⟨h0, hj0⟩
      · omega
  · refine ⟨1, hw, 0, ?_, Nat.zero_le _, fun h => absurd h hc⟩
    unfold CreatePad
    simp [hc, padChunks]

/-- C4 (amended): for a pad job with `size_mb < 4096`, when file creation and all writes
succeed, `CreatePad` returns 0 having written `size_mb` chunks of 1 MiB each, chunk `k` at file
position `k * 1,048,576`, and the output is exactly `size_mb * 1,048,576` bytes long. -/
theorem CreatePad_size (E : AesEngine) (fl : FileLayer) (hw : AesHw) (buffer : List Nat)
    (info : PadInfo) (hmb : info.size_mb < 4096)
    (hcreate : fl.createOk info.filename = true) (hwrite : ∀ sz off, fl.writeOk sz off = true) :
    ∃ hw2 ws, CreatePad E fl hw buffer info = some (0, hw2, ws)
      ∧ ws.map Prod.fst = (List.range info.size_mb).map (fun k => k * 1048576)
      ∧ (∀ w ∈ ws, w.2.length = 1048576 ∧ w.2.length ≤ BUFFER_MAX_SIZE)
      ∧ (fileOf ws).length = info.size_mb * 1048576 := by
  obtain ⟨rc, hw2, j, h, _, hok⟩ := CreatePad_eq E fl hw buffer info
  obtain ⟨hrc, hj⟩ := hok hcreate hwrite
  rw [Nat.mod_eq_of_lt hmb] at hj
  subst hrc hj
  refine ⟨hw2, _, h, ?_, ?_, ?_⟩
  · simp [padChunks, BUFFER_MAX_SIZE_eq, Function.comp_def]
  · intro w hw
    simp only [padChunks, List.mem_map, List.mem_range] at hw
    obtain ⟨t, _, rfl⟩ := hw
    simp only
    rw [padRun_length, blocksPerChunk_eq, BUFFER_MAX_SIZE_eq]
    omega
  · rw [fileOf_padChunks, padRun_length, blocksPerChunk_eq]
    omega

/-- C4 (amended) at a three-megabyte job on a file layer that never fails. -/
theorem CreatePad_size_witness :
    (demoPad 3).size_mb < 4096 ∧ okFiles.createOk (demoPad 3).filename = true
    ∧ (∀ sz off, okFiles.writeOk sz off = true)
    ∧ ∃ hw2 ws, CreatePad xorCtrEngine okFiles zeroHw [] (demoPad 3) = some (0, hw2, ws)
      ∧ ws.map Prod.fst = (List.range (demoPad 3).size_mb).map (fun k => k * 1048576)
      ∧ (∀ w ∈ ws, w.2.length = 1048576 ∧ w.2.length ≤ BUFFER_MAX_SIZE)
      ∧ (fileOf ws).length = (demoPad 3).size_mb * 1048576 :=
  ⟨by decide, rfl, fun _ _ => rfl,
    CreatePad_size xorCtrEngine okFiles zeroHw [] (demoPad 3) (by decide) rfl (fun _ _ => rfl)⟩

/-- C4 as stated fails at `size_mb = 4096`: the 32-bit byte count wraps to zero, `CreatePad`
returns 0 without issuing a write, and the output is empty instead of 4096 MiB long. -/
theorem CreatePad_size_counterexample :
    okFiles.createOk (demoPad 4096).filename = true ∧ (∀ sz off, okFiles.writeOk sz off = true)
    ∧ (CreatePad xorCtrEngine okFiles zeroHw [] (demoPad 4096)).map
        (fun r => (r.1, r.2.2, (fileOf r.2.2).length)) = some (0, [], 0)
    ∧ 0 ≠ (demoPad 4096).size_mb * 1048576 := by
  refine ⟨rfl, fun _ _ => rfl, by decide, by decide⟩

/-- C5: for every pad job, whatever the file layer does, `CreatePad` returns, and the 16-byte
block at file position `16 * k` of its output is the single-block transform of the all-zero block
under counter `CTR + k` (mod 2^128) in CTRNAND mode, for every `k` below the output length / 16.
The counter runs on across chunks: chunk `n` is written at position `n * 1,048,576` and its first
block is under `CTR + n * 65536`, the counter after the 65536 blocks of each earlier chunk. -/
theorem CreatePad_keystream (E : AesEngine) (fl : FileLayer) (hw : AesHw) (buffer : List Nat)
    (info : PadInfo) (hctr : WfCtr info.CTR) :
    ∃ rc hw2 ws, CreatePad E fl hw buffer info = some (rc, hw2, ws)
      ∧ (∀ k, k < (fileOf ws).length / 16 →
          ((fileOf ws).drop (16 * k)).take 16
            = E.block info.keyslot
                (if info.setKeyY ≠ 0 then info.keyY else hw.keyY info.keyslot)
                AES_CNT_CTRNAND_MODE (beBytes 16 ((beVal info.CTR + k) % 2 ^ 128)) zero_buf)
      ∧ (∀ n w, ws[n]? = some w →
          w.1 = n * 1048576
          ∧ w.2.take 16
            = E.block info.keyslot
                (if info.setKeyY ≠ 0 then info.keyY else hw.keyY info.keyslot)
                AES_CNT_CTRNAND_MODE (beBytes 16 ((beVal info.CTR + n * 65536) % 2 ^ 128))
                zero_buf) := by
  obtain ⟨rc, hw2, j, h, _, _⟩ := CreatePad_eq E fl hw buffer info
  have hc : memcpy (List.replicate 16 0) info.CTR 16 = info.CTR := by
    unfold memcpy
    rw [List.take_of_length_le (by rw [hctr.1])]
    simp
  rw [hc] at h
  refine ⟨rc, hw2, _, h, ?_, ?_⟩
  · intro k hk
    rw [fileOf_padChunks, padRun_length] at hk
    rw [fileOf_padChunks, padRun_block E _ _ _ _ k (by omega), ctrAfter_eq k _ hctr]
    rfl
  · intro n w hn
    simp only [padChunks, List.getElem?_map] at hn
    by_cases hlt : n < j
    · rw [List.getElem?_range hlt] at hn
      simp only [Option.map_some', Option.some.injEq] at hn
      subst hn
      refine ⟨by simp [BUFFER_MAX_SIZE_eq], ?_⟩
      have hb := padRun_block E info.keyslot
        (if info.setKeyY ≠ 0 then info.keyY else hw.keyY info.keyslot) blocksPerChunk
        (ctrAfter (n * blocksPerChunk) info.CTR) 0 (by rw [blocksPerChunk_eq]; norm_num)
      simp only [Nat.mul_zero, List.drop_zero, ctrAfter] at hb
      rw [hb, ctrAfter_eq _ _ hctr, blocksPerChunk_eq]
      unfold add_ctr
      rfl
    · rw [List.getElem?_eq_none (by simp; omega)] at hn
      simp at hn

/-- C5 at a pad job whose counter starts at all-ones. -/
theorem CreatePad_keystream_witness :
    WfCtr (demoPad 2).CTR
    ∧ ∃ rc hw2 ws, CreatePad xorCtrEngine okFiles zeroHw [] (demoPad 2) = some (rc, hw2, ws)
      ∧ (∀ k, k < (fileOf ws).length / 16 →
          ((fileOf ws).drop (16 * k)).take 16
            = xorCtrEngine.block (demoPad 2).keyslot
                (if (demoPad 2).setKeyY ≠ 0 then (demoPad 2).keyY
                  else zeroHw.keyY (demoPad 2).keyslot)
                AES_CNT_CTRNAND_MODE (beBytes 16 ((beVal (demoPad 2).CTR + k) % 2 ^ 128))
                zero_buf) := by
  refine ⟨by decide, ?_⟩
  obtain ⟨rc, hw2, ws, h, hk, _⟩ :=
    CreatePad_keystream xorCtrEngine okFiles zeroHw [] (demoPad 2) (by decide)
  exact ⟨rc, hw2, ws, h, hk⟩

theorem xorEngine_block_zero (ks : Nat → List Nat → AesMode → List Nat → List Nat)
    (slot : Nat) (keyY : List Nat) (mode : AesMode) (ctr inp : List Nat) (h : inp.length = 16) :
    xorBytes inp ((xorEngine ks).block slot keyY mode ctr zero_buf)
      = (xorEngine ks).block slot keyY mode ctr inp := by
  rcases inp with _ | ⟨a0, _ | ⟨a1, _ | ⟨a2, _ | ⟨a3, _ | ⟨a4, _ | ⟨a5,
    _ | ⟨a6, _ | ⟨a7, _ | ⟨a8, _ | ⟨a9, _ | ⟨a10, _ | ⟨a11,
    _ | ⟨a12, _ | ⟨a13, _ | ⟨a14, _ | ⟨a15, _ | ⟨a16, t⟩⟩⟩⟩⟩⟩⟩⟩⟩⟩⟩⟩⟩⟩⟩⟩⟩ <;> simp at h
  simp [xorBytes, xorEngine, zero_buf, List.range, List.range.loop]

/-- Under the XOR-with-keystream engine a counter-mode run over a buffer of whole blocks is the
buffer XOR-ed with the keystream of the same counter. -/
theorem ctrRun_eq_xor_padRun (ks : Nat → List Nat → AesMode → List Nat → List Nat)
    (slot : Nat) (keyY : List Nat) (n : Nat) (ctr buf : List Nat) (h : buf.length = 16 * n) :
    ctrRun (xorEngine ks) slot keyY AES_CNT_CTRNAND_MODE n ctr buf
      = xorBytes buf (padRun (xorEngine ks) slot keyY n ctr) := by
  induction n generalizing ctr buf with
  | zero =>
    have : buf = [] := List.length_eq_zero.mp (by omega)
    subst this
    simp [ctrRun, padRun, xorBytes]
  | succ k ih =>
    have h1 : (buf.take 16).length = 16 := by simp; omega
    have h2 : (buf.drop 16).length = 16 * k := by simp; omega
    rw [ctrRun, padRun, ih _ _ h2, ← xorEngine_block_zero ks _ _ _ _ _ h1]
    unfold xorBytes
    rw [← List.zipWith_append _ _ _ _ _ (by rw [h1, (xorEngine ks).block_length]),
      List.take_append_drop]

/-- C6: with the single-block transform modelled as input XOR keystream(slot, key-Y, mode,
counter), for the same key slot, key-Y and install request, initial counter, the CTRNAND cipher
mode that `CreatePad` generates pads for, and the same byte size, XOR-ing a buffer byte-wise with
the pad that `CreatePad` writes gives exactly the buffer `DecryptBuffer` produces in place. -/
theorem CreatePad_xor_eq_DecryptBuffer (ks : Nat → List Nat → AesMode → List Nat → List Nat)
    (fl : FileLayer) (hw : AesHw) (scratch : List Nat) (pad : PadInfo) (buf : List Nat)
    (hctr : pad.CTR.length = 16)
    (hlen : buf.length = (pad.size_mb * 1024 * 1024) % 2 ^ 32)
    (hcreate : fl.createOk pad.filename = true) (hwrite : ∀ sz off, fl.writeOk sz off = true) :
    ∃ hw1 ws hw2 job2,
      CreatePad (xorEngine ks) fl hw scratch pad = some (0, hw1, ws)
      ∧ DecryptBuffer (xorEngine ks) hw
          { keyslot := pad.keyslot, setKeyY := pad.setKeyY, CTR := pad.CTR, keyY := pad.keyY,
            size := (pad.size_mb * 1024 * 1024) % 2 ^ 32, buffer := buf,
            mode := AES_CNT_CTRNAND_MODE } = some (hw2, job2)
      ∧ xorBytes buf (fileOf ws) = job2.buffer := by
  obtain ⟨rc, hw1, j, h1, _, hok⟩ := CreatePad_eq (xorEngine ks) fl hw scratch pad
  obtain ⟨hrc, hj⟩ := hok hcreate hwrite
  subst hrc hj
  have hsz : (pad.size_mb * 1024 * 1024) % 2 ^ 32 = 16 * (pad.size_mb % 4096 * blocksPerChunk) := by
    rw [blocksPerChunk_eq]; omega
  obtain ⟨hw2, h2, _, _⟩ := DecryptBuffer_eq (xorEngine ks) hw
    { keyslot := pad.keyslot, setKeyY := pad.setKeyY, CTR := pad.CTR, keyY := pad.keyY,
      size := (pad.size_mb * 1024 * 1024) % 2 ^ 32, buffer := buf,
      mode := AES_CNT_CTRNAND_MODE }
    (by simp only; rw [hsz]; exact Nat.dvd_mul_right _ _) (Nat.mod_lt _ (by norm_num))
  have hc : memcpy (List.replicate 16 0) pad.CTR 16 = pad.CTR := by
    unfold memcpy
    rw [List.take_of_length_le (by rw [hctr])]
    simp
  rw [hc] at h1
  refine ⟨hw1, _, hw2, _, h1, h2, ?_⟩
  have hq : (pad.size_mb * 1024 * 1024) % 2 ^ 32 / 16 = pad.size_mb % 4096 * blocksPerChunk := by
    rw [hsz, Nat.mul_div_cancel_left _ (by norm_num)]
  simp only [hq]
  rw [fileOf_padChunks, ctrRun_eq_xor_padRun ks _ _ _ _ _ (by rw [hlen, hsz])]

/-- C6 at a two-megabyte job, the keystream block being the counter itself. -/
theorem CreatePad_xor_eq_DecryptBuffer_witness :
    (demoPad 2).CTR.length = 16
    ∧ (List.replicate 2097152 5).length = ((demoPad 2).size_mb * 1024 * 1024) % 2 ^ 32
    ∧ okFiles.createOk (demoPad 2).filename = true ∧ (∀ sz off, okFiles.writeOk sz off = true)
    ∧ ∃ hw1 ws hw2 job2,
      CreatePad (xorEngine (fun _ _ _ ctr => ctr)) okFiles zeroHw [] (demoPad 2) = some (0, hw1, ws)
      ∧ DecryptBuffer (xorEngine (fun _ _ _ ctr => ctr)) zeroHw
          { keyslot := (demoPad 2).keyslot, setKeyY := (demoPad 2).setKeyY,
            CTR := (demoPad 2).CTR, keyY := (demoPad 2).keyY,
            size := ((demoPad 2).size_mb * 1024 * 1024) % 2 ^ 32,
            buffer := List.replicate 2097152 5,
            mode := AES_CNT_CTRNAND_MODE } = some (hw2, job2)
      ∧ xorBytes (List.replicate 2097152 5) (fileOf ws) = job2.buffer :=
  ⟨by decide, by rw [List.length_replicate]; decide, rfl, fun _ _ => rfl,
    CreatePad_xor_eq_DecryptBuffer (fun _ _ _ ctr => ctr) okFiles zeroHw [] (demoPad 2)
      (List.replicate 2097152 5) (by decide) (by rw [List.length_replicate]; decide) rfl
      (fun _ _ => rfl)⟩

/-! ## Title keys -/

/-- The result of `DecryptTitlekey` when the common-key index is one of the six rows. -/
theorem DecryptTitlekey_some (E : AesEngine) (hw : AesHw) (entry : TitleKeyEntry) (row : List Nat)
    (hrow : common_keyy[entry.commonKeyIndex]? = some row) :
    DecryptTitlekey E hw entry
      = some (use_aeskey (setup_aeskey (set_ctr hw (memcpy (List.replicate 16 0) entry.titleId 8))
            0x3D (memcpy (List.replicate 16 0) row 16)) 0x3D,
          { commonKeyIndex := entry.commonKeyIndex
            titleId := entry.titleId
            encryptedTitleKey := E.block 0x3D (memcpy (List.replicate 16 0) row 16)
              AES_CNT_TITLEKEY_MODE (memcpy (List.replicate 16 0) entry.titleId 8)
              entry.encryptedTitleKey }) := by
  unfold DecryptTitlekey
  rw [hrow]
  simp [aes_decrypt, use_aeskey, setup_aeskey, set_ctr]

theorem DecryptTitlekey_none (E : AesEngine) (hw : AesHw) (entry : TitleKeyEntry)
    (h : 6 ≤ entry.commonKeyIndex) : DecryptTitlekey E hw entry = none := by
  unfold DecryptTitlekey
  have : common_keyy[entry.commonKeyIndex]? = none :=
    List.getElem?_eq_none (by simpa [common_keyy] using h)
  rw [this]

theorem common_keyy_row (idx : Nat) (h : idx < 6) :
    ∃ row, common_keyy[idx]? = some row ∧ row.length = 16 := by
  have h6 : ∀ i, i < 6 → ∃ row, common_keyy[i]? = some row ∧ row.length = 16 := by decide
  exact h6 idx h

/-- What a returning `DecryptTitlekey` has done: the index was one of the six rows, and only the
key field of the entry has changed. -/
theorem DecryptTitlekey_inv (E : AesEngine) (hw hw1 : AesHw) (e e1 : TitleKeyEntry)
    (h : DecryptTitlekey E hw e = some (hw1, e1)) :
    e.commonKeyIndex < 6 ∧ e1.titleId = e.titleId ∧ e1.commonKeyIndex = e.commonKeyIndex
      ∧ e1.encryptedTitleKey
          = E.block 0x3D (common_keyy.getD e.commonKeyIndex []) AES_CNT_TITLEKEY_MODE
              (memcpy (List.replicate 16 0) e.titleId 8) e.encryptedTitleKey := by
  by_cases hidx : e.commonKeyIndex < 6
  · obtain ⟨row, hrow, hlen⟩ := common_keyy_row _ hidx
    rw [DecryptTitlekey_some E hw e row hrow] at h
    simp only [Option.some.injEq, Prod.mk.injEq] at h
    obtain ⟨_, rfl⟩ := h
    have hm : memcpy (List.replicate 16 0) row 16 = row := by
      unfold memcpy
      rw [List.take_of_length_le (by omega)]
      simp
    have hg : common_keyy.getD e.commonKeyIndex [] = row := by
      rw [List.getD_eq_getElem?_getD, hrow]; rfl
    exact ⟨hidx, rfl, rfl, by simp only [hm, hg]⟩
  · rw [DecryptTitlekey_none E hw e (by omega)] at h
    exact absurd h (by simp)

/-- C9: for a title-key record (8-byte title identifier, common-key index 0..5),
`DecryptTitlekey` returns and replaces the key field by the single-block title-key-mode transform
of that field under key slot 0x3D holding key-Y `common_keyy[commonKeyIndex]`, with counter = the
title identifier followed by eight zero bytes; the title identifier and the index are unchanged.
Afterwards slot 0x3D is selected and holds that key-Y. -/
theorem DecryptTitlekey_spec (E : AesEngine) (hw : AesHw) (entry : TitleKeyEntry)
    (hid : entry.titleId.length = 8) (hidx : entry.commonKeyIndex < 6) :
    ∃ hw1 entry1, DecryptTitlekey E hw entry = some (hw1, entry1)
      ∧ entry1.encryptedTitleKey
          = E.block 0x3D (common_keyy.getD entry.commonKeyIndex []) AES_CNT_TITLEKEY_MODE
              (entry.titleId ++ List.replicate 8 0) entry.encryptedTitleKey
      ∧ entry1.titleId = entry.titleId
      ∧ entry1.commonKeyIndex = entry.commonKeyIndex
      ∧ hw1.keyslot = 0x3D
      ∧ hw1.keyY 0x3D = common_keyy.getD entry.commonKeyIndex []
      ∧ hw1.ctr = entry.titleId ++ List.replicate 8 0 := by
  obtain ⟨row, hrow, hlen⟩ := common_keyy_row _ hidx
  have h := DecryptTitlekey_some E hw entry row hrow
  have hm : memcpy (List.replicate 16 0) row 16 = row := by
    unfold memcpy
    rw [List.take_of_length_le (by omega)]
    simp
  have hg : common_keyy.getD entry.commonKeyIndex [] = row := by
    rw [List.getD_eq_getElem?_getD, hrow]; rfl
  have hc : memcpy (List.replicate 16 0) entry.titleId 8 = entry.titleId ++ List.replicate 8 0 := by
    unfold memcpy
    rw [List.take_of_length_le (by omega)]
    simp
  rw [hm, hc] at h
  refine ⟨_, _, h, ?_, rfl, rfl, rfl, ?_, rfl⟩
  · rw [hg]
  · rw [hg]
    simp [use_aeskey, setup_aeskey, set_ctr]

/-- C9 at a system-title record (common-key index 1). -/
theorem DecryptTitlekey_spec_witness :
    [0x00, 0x04, 0x00, 0x10, 0x00, 0x02, 0x10, 0x00].length = 8 ∧ 1 < 6
    ∧ ∃ hw1 entry1, DecryptTitlekey xorCtrEngine zeroHw
          { commonKeyIndex := 1, titleId := [0x00, 0x04, 0x00, 0x10, 0x00, 0x02, 0x10, 0x00],
            encryptedTitleKey := List.replicate 16 0xAB } = some (hw1, entry1)
      ∧ entry1.encryptedTitleKey
          = xorCtrEngine.block 0x3D (common_keyy.getD 1 []) AES_CNT_TITLEKEY_MODE
              ([0x00, 0x04, 0x00, 0x10, 0x00, 0x02, 0x10, 0x00] ++ List.replicate 8 0)
              (List.replicate 16 0xAB)
      ∧ entry1.titleId = [0x00, 0x04, 0x00, 0x10, 0x00, 0x02, 0x10, 0x00]
      ∧ entry1.commonKeyIndex = 1 := by
  refine ⟨by decide, by decide, ?_⟩
  obtain ⟨hw1, entry1, h, hk, ht, hi, _⟩ := DecryptTitlekey_spec xorCtrEngine zeroHw
    { commonKeyIndex := 1, titleId := [0x00, 0x04, 0x00, 0x10, 0x00, 0x02, 0x10, 0x00],
      encryptedTitleKey := List.replicate 16 0xAB } (by decide) (by decide)
  exact ⟨hw1, entry1, h, hk, ht, hi⟩

theorem DecryptTitlekeysNand.findExid_le (t : List Nat) (es : List TitleKeyEntry) (k : Nat) :
    DecryptTitlekeysNand.findExid t es k ≤ k + es.length := by
  induction es generalizing k with
  | nil => simp [DecryptTitlekeysNand.findExid]
  | cons e rest ih =>
    unfold DecryptTitlekeysNand.findExid
    split
    · simp
    · have := ih (k + 1)
      simp only [List.length_cons]
      omega

theorem DecryptTitlekeysNand.findExid_lt_iff (t : List Nat) (es : List TitleKeyEntry) (k : Nat) :
    DecryptTitlekeysNand.findExid t es k < k + es.length
      ↔ ∃ e ∈ es, t.take 8 = e.titleId.take 8 := by
  induction es generalizing k with
  | nil => simp [DecryptTitlekeysNand.findExid]
  | cons e rest ih =>
    unfold DecryptTitlekeysNand.findExid
    by_cases h : t.take 8 = e.titleId.take 8
    · simp [memcmp_eq, h]
    · have := ih (k + 1)
      simp only [memcmp_eq, h, decide_False, Bool.false_eq_true, if_false, List.length_cons,
        List.mem_cons, exists_eq_or_imp, false_or]
      rw [← this]
      omega

/-- One stride of the scan, when it returns: either the entries are unchanged (the stride is no
ticket, or its title identifier is already present), or one entry is appended that carries the
stride's title identifier and index and the title-key transform of the stride's key. -/
theorem DecryptTitlekeysNand.body_cases (E : AesEngine) (buffer : Nat → Nat) (i : Nat)
    (hw hw1 : AesHw) (es es1 : List TitleKeyEntry)
    (h : DecryptTitlekeysNand.body E buffer i hw es = some (hw1, es1)) :
    (es1 = es ∧ hw1 = hw ∧ (isTicket buffer i = true →
        ∃ e ∈ es, titleIdAt buffer i = e.titleId.take 8))
    ∨ (isTicket buffer i = true ∧ (∀ e ∈ es, titleIdAt buffer i ≠ e.titleId.take 8)
        ∧ buffer (i + 0xB1) < 6
        ∧ ∃ e4, es1 = es ++ [e4] ∧ e4.titleId = titleIdAt buffer i
          ∧ e4.commonKeyIndex = buffer (i + 0xB1)
          ∧ e4.encryptedTitleKey
              = E.block 0x3D (common_keyy.getD (buffer (i + 0xB1)) []) AES_CNT_TITLEKEY_MODE
                  (titleIdAt buffer i ++ List.replicate 8 0) (readBytes buffer (i + 0x7F) 16)) := by
  have ht8 : (readBytes buffer (i + 0x9C) 8).take 8 = readBytes buffer (i + 0x9C) 8 :=
    List.take_of_length_le (by rw [readBytes_length])
  have hm8 : memcpy (List.replicate 8 0) (readBytes buffer (i + 0x9C) 8) 8
      = readBytes buffer (i + 0x9C) 8 := by
    unfold memcpy; rw [ht8]; simp
  have hm16 : memcpy (List.replicate 16 0) (readBytes buffer (i + 0x7F) 16) 16
      = readBytes buffer (i + 0x7F) 16 := by
    unfold memcpy
    rw [List.take_of_length_le (by rw [readBytes_length])]
    simp
  have hc : memcpy (List.replicate 16 0) (readBytes buffer (i + 0x9C) 8) 8
      = readBytes buffer (i + 0x9C) 8 ++ List.replicate 8 0 := by
    unfold memcpy; rw [ht8]; simp
  unfold DecryptTitlekeysNand.body at h
  by_cases htk : memcmp_eq (readBytes buffer i 26) issuer = true
  · simp only [htk, if_true] at h
    by_cases hex : DecryptTitlekeysNand.findExid (readBytes buffer (i + 0x9C) 8) es 0 < es.length
    · simp only [hex, if_true, Option.some.injEq, Prod.mk.injEq] at h
      refine Or.inl ⟨h.2.symm, h.1.symm, fun _ => ?_⟩
      have := (DecryptTitlekeysNand.findExid_lt_iff (readBytes buffer (i + 0x9C) 8) es 0).mp
        (by omega)
      rw [ht8] at this
      exact this
    · simp only [hex, if_false, hm8, hm16] at h
      have hnot : ∀ e ∈ es, titleIdAt buffer i ≠ e.titleId.take 8 := by
        intro e he heq
        apply hex
        have := (DecryptTitlekeysNand.findExid_lt_iff (readBytes buffer (i + 0x9C) 8) es 0).mpr
          ⟨e, he, by rw [ht8]; exact heq⟩
        omega
      cases hd : DecryptTitlekey E hw
          { commonKeyIndex := buffer (i + 0xB1), titleId := readBytes buffer (i + 0x9C) 8,
            encryptedTitleKey := readBytes buffer (i + 0x7F) 16 } with
      | none => rw [hd] at h; exact absurd h (by simp)
      | some r =>
        obtain ⟨hw2, e4⟩ := r
        rw [hd] at h
        simp only [Option.some.injEq, Prod.mk.injEq] at h
        obtain ⟨hidx, hti, hci, hke⟩ := DecryptTitlekey_inv E hw hw2 _ e4 hd
        simp only [hc] at hke
        exact Or.inr ⟨htk, hnot, hidx, e4, h.2.symm, hti, hci, hke⟩
  · simp only [htk, Bool.false_eq_true, if_false, Option.some.injEq, Prod.mk.injEq] at h
    exact Or.inl ⟨h.2.symm, h.1.symm, fun hc => absurd hc htk⟩

/-- One stride of the scan returns unless it is a ticket whose common-key index is outside the
table. -/
theorem DecryptTitlekeysNand.body_some (E : AesEngine) (buffer : Nat → Nat) (i : Nat)
    (hw : AesHw) (es : List TitleKeyEntry)
    (hidx : isTicket buffer i = true → buffer (i + 0xB1) < 6) :
    ∃ r, DecryptTitlekeysNand.body E buffer i hw es = some r := by
  unfold DecryptTitlekeysNand.body
  by_cases htk : memcmp_eq (readBytes buffer i 26) issuer = true
  · simp only [htk, if_true]
    split
    · exact ⟨_, rfl⟩
    · obtain ⟨row, hrow, _⟩ := common_keyy_row _ (hidx htk)
      rw [DecryptTitlekey_some E hw _ row hrow]
      exact ⟨_, rfl⟩
  · simp only [htk, Bool.false_eq_true, if_false]
    exact ⟨_, rfl⟩

/-- The scan loop visits the strides in order. -/
theorem DecryptTitlekeysNand.loop_strides (E : AesEngine) (buffer : Nat → Nat) (n : Nat) :
    ∀ (fuel k : Nat) (hw : AesHw) (es : List TitleKeyEntry),
      k + n = 3327 → n < fuel →
      DecryptTitlekeysNand.loop E buffer fuel (0x158 + 0x200 * k) hw es
        = scanStrides E buffer ((List.range' k n).map (fun k => 0x158 + 0x200 * k)) hw es := by
  induction n with
  | zero =>
    intro fuel k hw es hk hf
    obtain ⟨f, rfl⟩ : ∃ f, fuel = f + 1 := ⟨fuel - 1, by omega⟩
    have : ¬ (0x158 + 0x200 * k < 2 * TICKET_SIZE - 0x200) := by
      simp only [TICKET_SIZE]; omega
    simp [DecryptTitlekeysNand.loop, this, scanStrides]
  | succ m ih =>
    intro fuel k hw es hk hf
    obtain ⟨f, rfl⟩ : ∃ f, fuel = f + 1 := ⟨fuel - 1, by omega⟩
    have hlt : 0x158 + 0x200 * k < 2 * TICKET_SIZE - 0x200 := by
      simp only [TICKET_SIZE]; omega
    have hwrap : (0x158 + 0x200 * k + 0x200) % 2 ^ 32 = 0x158 + 0x200 * (k + 1) := by
      rw [Nat.mod_eq_of_lt (by omega)]; ring
    simp only [DecryptTitlekeysNand.loop, hlt, if_true, hwrap, List.range'_succ, List.map_cons,
      scanStrides]
    cases hb : DecryptTitlekeysNand.body E buffer (0x158 + 0x200 * k) hw es with
    | none => rfl
    | some r =>
      obtain ⟨hw1, es1⟩ := r
      exact ih f (k + 1) hw1 es1 (by omega) (by omega)

theorem DecryptTitlekeysNand.scan_eq (E : AesEngine) (hw : AesHw) (buffer : Nat → Nat) :
    DecryptTitlekeysNand.scan E hw buffer
      = (scanStrides E buffer strides hw []).map
          (fun r => (r.1, { n_entries := r.2.length, entries := r.2 })) := by
  unfold DecryptTitlekeysNand.scan
  have h := DecryptTitlekeysNand.loop_strides E buffer 3327 DecryptTitlekeysNand.fuel 0 hw []
    (by omega) (by norm_num [DecryptTitlekeysNand.fuel, TICKET_SIZE])
  simp only [Nat.mul_zero, Nat.add_zero] at h
  rw [h, strides, List.range_eq_range']
  cases scanStrides E buffer
      ((List.range' 0 3327).map (fun k => 0x158 + 0x200 * k)) hw [] with
  | none => rfl
  | some r => rfl

theorem GoodEntries.nil : GoodEntries [] := by
  simp [GoodEntries]

/-- One stride of the scan keeps the entries good, only ever appends, appends at most one entry,
and leaves the title identifier of a ticket stride present. -/
theorem DecryptTitlekeysNand.body_inv (E : AesEngine) (buffer : Nat → Nat) (i : Nat)
    (hw hw1 : AesHw) (es es1 : List TitleKeyEntry)
    (h : DecryptTitlekeysNand.body E buffer i hw es = some (hw1, es1)) (hg : GoodEntries es) :
    GoodEntries es1 ∧ (∃ tail, es1 = es ++ tail) ∧ es1.length ≤ es.length + 1
      ∧ (isTicket buffer i = true → titleIdAt buffer i ∈ es1.map (fun e => e.titleId)) := by
  rcases DecryptTitlekeysNand.body_cases E buffer i hw hw1 es es1 h with
    ⟨rfl, _, hin⟩ | ⟨htk, hnot, _, e4, rfl, hti, _, _⟩
  · refine ⟨hg, ⟨[], by simp⟩, by omega, fun htk => ?_⟩
    obtain ⟨e, he, heq⟩ := hin htk
    rw [List.take_of_length_le (by rw [hg.2 e he])] at heq
    exact List.mem_map.mpr ⟨e, he, heq.symm⟩
  · refine ⟨⟨?_, ?_⟩, ⟨[e4], rfl⟩, by simp, fun _ => ?_⟩
    · rw [List.map_append, List.map_singleton, hti]
      apply List.Nodup.append hg.1 (List.nodup_singleton _)
      intro t ht1 ht2
      rw [List.mem_singleton] at ht2
      subst ht2
      obtain ⟨e, he, heq⟩ := List.mem_map.mp ht1
      apply hnot e he
      rw [List.take_of_length_le (by rw [hg.2 e he])]
      exact heq.symm
    · intro e he
      rcases List.mem_append.mp he with he | he
      · exact hg.2 e he
      · rw [List.mem_singleton] at he
        subst he
        rw [hti]
        exact readBytes_length _ _ _
    · rw [List.map_append, List.map_singleton, hti]
      simp

/-- The scan over a list of strides, when it returns: the entries stay good, the entries it
started from are a prefix of the result, at most one entry per stride is appended, and the title
identifier of every ticket stride is present in the result. -/
theorem scanStrides_inv (E : AesEngine) (buffer : Nat → Nat) (l : List Nat) :
    ∀ (hw hw1 : AesHw) (es es1 : List TitleKeyEntry),
      scanStrides E buffer l hw es = some (hw1, es1) → GoodEntries es →
      GoodEntries es1 ∧ (∃ tail, es1 = es ++ tail) ∧ es1.length ≤ es.length + l.length
        ∧ (∀ i ∈ l, isTicket buffer i = true →
            titleIdAt buffer i ∈ es1.map (fun e => e.titleId)) := by
  induction l with
  | nil =>
    intro hw hw1 es es1 h hg
    simp only [scanStrides, Option.some.injEq, Prod.mk.injEq] at h
    obtain ⟨_, rfl⟩ := h
    exact ⟨hg, ⟨[], by simp⟩, by simp, by simp⟩
  | cons i rest ih =>
    intro hw hw1 es es1 h hg
    unfold scanStrides at h
    cases hb : DecryptTitlekeysNand.body E buffer i hw es with
    | none => rw [hb] at h; exact absurd h (by simp)
    | some r =>
      obtain ⟨hw2, es2⟩ := r
      rw [hb] at h
      obtain ⟨hg2, ⟨t2, ht2⟩, hl2, hin2⟩ :=
        DecryptTitlekeysNand.body_inv E buffer i hw hw2 es es2 hb hg
      obtain ⟨hg1, ⟨t1, ht1⟩, hl1, hin1⟩ := ih hw2 hw1 es2 es1 h hg2
      refine ⟨hg1, ⟨t2 ++ t1, by rw [ht1, ht2, List.append_assoc]⟩, ?_, ?_⟩
      · simp only [List.length_cons]; omega
      · intro j hj htk
        rcases List.mem_cons.mp hj with rfl | hj
        · have := hin2 htk
          rw [ht1, List.map_append]
          exact List.mem_append_left _ this
        · exact hin1 j hj htk

/-- The scan over a list of strides returns when every ticket stride in it carries a common-key
index inside the table. -/
theorem scanStrides_some (E : AesEngine) (buffer : Nat → Nat) (l : List Nat)
    (hidx : ∀ i ∈ l, isTicket buffer i = true → buffer (i + 0xB1) < 6) :
    ∀ (hw : AesHw) (es : List TitleKeyEntry), ∃ r, scanStrides E buffer l hw es = some r := by
  induction l with
  | nil => intro hw es; exact ⟨_, rfl⟩
  | cons i rest ih =>
    intro hw es
    obtain ⟨r, hr⟩ := DecryptTitlekeysNand.body_some E buffer i hw es
      (hidx i (List.mem_cons_self _ _))
    unfold scanStrides
    rw [hr]
    exact ih (fun j hj => hidx j (List.mem_cons_of_mem _ hj)) r.1 r.2

theorem strides_length : strides.length = 3327 := by
  simp [strides]

/-! ### Worked ticket memories -/

theorem ticketBuf_at (n : Nat) (title : Nat → List Nat) (idx : Nat → Nat) (k r : Nat)
    (hr : r < 0x200) :
    ticketBuf n title idx (0x158 + 0x200 * k + r)
      = if n ≤ k then 0
        else if r < 26 then issuer.getD r 0
        else if 0x7F ≤ r ∧ r < 0x8F then 0x11
        else if 0x9C ≤ r ∧ r < 0xA4 then (title k).getD (r - 0x9C) 0
        else if r = 0xB1 then idx k
        else 0 := by
  have h1 : ¬ (0x158 + 0x200 * k + r < 0x158) := by omega
  have h2 : (0x158 + 0x200 * k + r - 0x158) / 0x200 = k := by omega
  have h3 : (0x158 + 0x200 * k + r - 0x158) % 0x200 = r := by omega
  unfold ticketBuf
  simp only [h1, h2, h3, if_false]

theorem mem_strides (i : Nat) : i ∈ strides ↔ ∃ k, k < 3327 ∧ i = 0x158 + 0x200 * k := by
  simp only [strides, List.mem_map, List.mem_range]
  constructor
  · rintro ⟨k, hk, rfl⟩; exact ⟨k, hk, rfl⟩
  · rintro ⟨k, hk, rfl⟩; exact ⟨k, hk, rfl⟩

theorem isTicket_ticketBuf (n : Nat) (title : Nat → List Nat) (idx : Nat → Nat) (k : Nat)
    (hk : k < n) : isTicket (ticketBuf n title idx) (0x158 + 0x200 * k) = true := by
  have h : ∀ j ∈ List.range 26,
      ticketBuf n title idx (0x158 + 0x200 * k + j) = issuer.getD j 0 := by
    intro j hj
    have hj26 : j < 26 := List.mem_range.mp hj
    rw [ticketBuf_at n title idx k j (by omega)]
    simp [Nat.not_le.mpr hk, hj26]
  unfold isTicket readBytes memcmp_eq
  rw [List.map_congr_left h]
  decide

theorem index_ticketBuf (n : Nat) (title : Nat → List Nat) (idx : Nat → Nat) (k : Nat)
    (hk : k < n) : ticketBuf n title idx (0x158 + 0x200 * k + 0xB1) = idx k := by
  rw [ticketBuf_at n title idx k 0xB1 (by norm_num)]
  simp [Nat.not_le.mpr hk]

theorem getD_range8 (l : List Nat) (h : l.length = 8) :
    (List.range 8).map (fun j => l.getD j 0) = l := by
  rcases l with _ | ⟨a0, _ | ⟨a1, _ | ⟨a2, _ | ⟨a3, _ | ⟨a4,
    _ | ⟨a5, _ | ⟨a6, _ | ⟨a7, _ | ⟨a8, t⟩⟩⟩⟩⟩⟩⟩⟩⟩
    <;> simp at h
  simp [List.range, List.range.loop]

theorem titleIdAt_ticketBuf (n : Nat) (title : Nat → List Nat) (idx : Nat → Nat) (k : Nat)
    (hk : k < n) (hlen : (title k).length = 8) :
    titleIdAt (ticketBuf n title idx) (0x158 + 0x200 * k) = title k := by
  have h : ∀ j ∈ List.range 8,
      ticketBuf n title idx (0x158 + 0x200 * k + 0x9C + j) = (title k).getD j 0 := by
    intro j hj
    have hj8 : j < 8 := List.mem_range.mp hj
    have ha : 0x158 + 0x200 * k + 0x9C + j = 0x158 + 0x200 * k + (0x9C + j) := by omega
    rw [ha, ticketBuf_at n title idx k (0x9C + j) (by omega)]
    have h1 : ¬ (0x9C + j < 26) := by omega
    have h2 : ¬ (0x7F ≤ 0x9C + j ∧ 0x9C + j < 0x8F) := by omega
    have h3 : 0x9C ≤ 0x9C + j ∧ 0x9C + j < 0xA4 := by omega
    have h4 : 0x9C + j - 0x9C = j := by omega
    simp only [Nat.not_le.mpr hk, h1, h2, h3, h4, if_false, if_true, and_self]
  unfold titleIdAt readBytes
  rw [List.map_congr_left h, getD_range8 _ hlen]

/-! ### The scan of `DecryptTitlekeysNand` -/

/-- What a returning scan has built: good entries, at most one per stride, holding the title
identifier of every ticket stride, under a count header equal to the number of entries. -/
theorem DecryptTitlekeysNand.scan_inv (E : AesEngine) (hw hw1 : AesHw) (buffer : Nat → Nat)
    (info : EncKeysInfo) (h : DecryptTitlekeysNand.scan E hw buffer = some (hw1, info)) :
    GoodEntries info.entries ∧ info.entries.length ≤ 3327
      ∧ info.n_entries = info.entries.length
      ∧ (∀ i ∈ strides, isTicket buffer i = true →
          titleIdAt buffer i ∈ info.entries.map (fun e => e.titleId)) := by
  rw [DecryptTitlekeysNand.scan_eq] at h
  cases hs : scanStrides E buffer strides hw [] with
  | none => rw [hs] at h; exact absurd h (by simp)
  | some r =>
    obtain ⟨hw2, es⟩ := r
    rw [hs] at h
    simp only [Option.map_some', Option.some.injEq, Prod.mk.injEq] at h
    obtain ⟨_, rfl⟩ := h
    obtain ⟨hg, _, hl, hin⟩ := scanStrides_inv E buffer strides hw hw2 [] es hs GoodEntries.nil
    rw [strides_length] at hl
    exact ⟨hg, by simpa using hl, rfl, hin⟩

theorem entries_with_title_unique (l : List TitleKeyEntry) (t : List Nat)
    (hn : (l.map (fun e => e.titleId)).Nodup) (hm : t ∈ l.map (fun e => e.titleId)) :
    (l.filter (fun e => decide (e.titleId = t))).length = 1 := by
  induction l with
  | nil => simp at hm
  | cons e rest ih =>
    rw [List.map_cons, List.nodup_cons] at hn
    by_cases he : e.titleId = t
    · have hnil : rest.filter (fun e => decide (e.titleId = t)) = [] := by
        rw [List.filter_eq_nil_iff]
        intro x hx hxt
        apply hn.1
        rw [he]
        exact List.mem_map.mpr ⟨x, hx, by simpa using hxt⟩
      rw [List.filter_cons_of_pos (by simpa using he), hnil]
      rfl
    · rw [List.filter_cons_of_neg (by simpa using he)]
      apply ih hn.2
      rw [List.map_cons, List.mem_cons] at hm
      rcases hm with hm | hm
      · exact absurd hm.symm he
      · exact hm

/-- C7: for every ticket buffer, the bundle the signature scan of `DecryptTitlekeysNand` builds
holds pairwise distinct title identifiers, and the title identifier of every ticket stride occurs
in it exactly once, however many strides carry that identifier; the scan builds a bundle
whenever no ticket stride carries a common-key index outside the six-row key table. -/
theorem DecryptTitlekeysNand_scan_distinct (E : AesEngine) (hw : AesHw) (buffer : Nat → Nat) :
    (∀ hw1 info, DecryptTitlekeysNand.scan E hw buffer = some (hw1, info) →
        (info.entries.map (fun e => e.titleId)).Nodup
        ∧ ∀ i ∈ strides, isTicket buffer i = true →
            (info.entries.filter (fun e => decide (e.titleId = titleIdAt buffer i))).length = 1)
    ∧ ((∀ i ∈ strides, isTicket buffer i = true → buffer (i + 0xB1) < 6) →
        ∃ hw1 info, DecryptTitlekeysNand.scan E hw buffer = some (hw1, info)) := by
  constructor
  · intro hw1 info h
    obtain ⟨hg, _, _, hin⟩ := DecryptTitlekeysNand.scan_inv E hw hw1 buffer info h
    exact ⟨hg.1, fun i hi htk => entries_with_title_unique _ _ hg.1 (hin i hi htk)⟩
  · intro hidx
    obtain ⟨r, hr⟩ := scanStrides_some E buffer strides hidx hw []
    rw [DecryptTitlekeysNand.scan_eq, hr]
    exact ⟨_, _, rfl⟩

/-- C7 at a ticket memory that holds the same record in its first two strides: the bundle has
one entry, and the record's title identifier occurs once. -/
theorem DecryptTitlekeysNand_scan_distinct_witness :
    isTicket dupBuf 0x158 = true ∧ isTicket dupBuf 0x358 = true
    ∧ titleIdAt dupBuf 0x158 = titleIdAt dupBuf 0x358
    ∧ (DecryptTitlekeysNand.scan xorCtrEngine zeroHw dupBuf).map (fun r => r.2.n_entries) = some 1
    ∧ ∃ hw1 info, DecryptTitlekeysNand.scan xorCtrEngine zeroHw dupBuf = some (hw1, info)
      ∧ (info.entries.filter (fun e => decide (e.titleId = titleIdAt dupBuf 0x158))).length
          = 1 := by
  have hidx : ∀ i ∈ strides, isTicket dupBuf i = true → dupBuf (i + 0xB1) < 6 := by
    intro i hi _
    obtain ⟨k, _, rfl⟩ := (mem_strides i).mp hi
    unfold dupBuf
    rw [ticketBuf_at _ _ _ k 0xB1 (by norm_num)]
    split <;> simp
  obtain ⟨hw1, info, h⟩ :=
    (DecryptTitlekeysNand_scan_distinct xorCtrEngine zeroHw dupBuf).2 hidx
  have hc := ((DecryptTitlekeysNand_scan_distinct xorCtrEngine zeroHw dupBuf).1 hw1 info h).2
    0x158 ((mem_strides _).mpr ⟨0, by norm_num, rfl⟩) (by decide)
  exact ⟨by decide, by decide, by decide, by decide, hw1, info, h, hc⟩

theorem fullBuf_titles_nodup :
    ((List.range 3327).map (fun k => [0, 0, 0, 0, 0, 0, k / 256, k % 256])).Nodup := by
  apply List.Nodup.map _ (List.nodup_range _)
  intro a b hab
  simp only [List.cons.injEq, true_and, and_true] at hab
  omega

/-- C8, the code at a ticket memory with a record for a different title in every stride: the
scan returns a bundle of 3327 entries. No step of the scan compares the entry count with
`MAX_ENTRIES`; the only bound on the count is the number of strides. -/
theorem DecryptTitlekeysNand_scan_unbounded (E : AesEngine) (hw : AesHw) :
    ∃ hw1 info, DecryptTitlekeysNand.scan E hw fullBuf = some (hw1, info)
      ∧ info.n_entries = 3327 ∧ info.entries.length = 3327 := by
  have hidx : ∀ i ∈ strides, isTicket fullBuf i = true → fullBuf (i + 0xB1) < 6 := by
    intro i hi _
    obtain ⟨k, hk, rfl⟩ := (mem_strides i).mp hi
    unfold fullBuf
    rw [index_ticketBuf _ _ _ k hk]
    norm_num
  obtain ⟨r, hr⟩ := scanStrides_some E fullBuf strides hidx hw []
  have hscan : DecryptTitlekeysNand.scan E hw fullBuf
      = some (r.1, { n_entries := r.2.length, entries := r.2 }) := by
    rw [DecryptTitlekeysNand.scan_eq, hr]; rfl
  obtain ⟨hg, hle, _, hin⟩ := DecryptTitlekeysNand.scan_inv E hw _ fullBuf _ hscan
  have hsub : (List.range 3327).map (fun k => [0, 0, 0, 0, 0, 0, k / 256, k % 256])
      ⊆ r.2.map (fun e => e.titleId) := by
    intro t ht
    obtain ⟨k, hk, rfl⟩ := List.mem_map.mp ht
    have hk3 : k < 3327 := List.mem_range.mp hk
    have := hin (0x158 + 0x200 * k) ((mem_strides _).mpr ⟨k, hk3, rfl⟩)
      (isTicket_ticketBuf _ _ _ k hk3)
    unfold fullBuf at this
    rw [titleIdAt_ticketBuf _ _ _ k hk3 (by simp)] at this
    exact this
  have hge := (fullBuf_titles_nodup.subperm hsub).length_le
  simp only [List.length_map, List.length_range] at hge
  simp only at hle
  exact ⟨r.1, _, hscan, by simp only; omega, by simp only; omega⟩

theorem DecryptTitlekeysNand.body_none (E : AesEngine) (buffer : Nat → Nat) (i : Nat)
    (hw : AesHw) (htk : isTicket buffer i = true) (hidx : 6 ≤ buffer (i + 0xB1)) :
    DecryptTitlekeysNand.body E buffer i hw [] = none := by
  unfold isTicket at htk
  unfold DecryptTitlekeysNand.body
  simp only [htk, if_true, DecryptTitlekeysNand.findExid, List.length_nil, Nat.lt_irrefl,
    if_false]
  rw [DecryptTitlekey_none E hw _ hidx]

/-- C10, the code at records whose common-key index is 6. On the NAND path a ticket stride with
index byte 6 reaches the lookup `common_keyy[6]` through `DecryptTitlekey`; on the file path an
entry with index 6 in a bundle of accepted size does the same. Neither path checks the index, and
the lookup has no defined result. -/
theorem DecryptTitlekey_index_unchecked (E : AesEngine) (hw : AesHw) (MAX_ENTRIES : Nat) :
    isTicket badIndexBuf 0x158 = true ∧ badIndexBuf (0x158 + 0xB1) = 6
    ∧ DecryptTitlekeysNand.scan E hw badIndexBuf = none
    ∧ DecryptTitlekeysFile E (MAX_ENTRIES + 1) okFiles hw
        { n_entries := 1,
          entries := [{ commonKeyIndex := 6,
                        titleId := [0x00, 0x04, 0x00, 0x10, 0x00, 0x02, 0x10, 0x00],
                        encryptedTitleKey := List.replicate 16 0x11 }] } = none := by
  refine ⟨by decide, by decide, ?_, ?_⟩
  · rw [DecryptTitlekeysNand.scan_eq]
    have hs : strides = 0x158 :: (List.range' 1 3326).map (fun k => 0x158 + 0x200 * k) := by
      rw [strides, List.range_eq_range']
      rfl
    rw [hs, scanStrides, DecryptTitlekeysNand.body_none E badIndexBuf 0x158 hw (by decide)
      (by decide)]
    rfl
  · unfold DecryptTitlekeysFile
    simp [okFiles, DecryptTitlekeysFile.loop, DecryptTitlekey_none]

/-! ## `NcchPadgen` -/

theorem NcchPadgen.findSeed_eq (titleId : Nat) (keydata : List Nat) (l : List SeedInfoEntry) :
    NcchPadgen.findSeed titleId keydata l
      = match l.find? (fun s => decide (s.titleId = titleId)) with
        | none => (0, keydata)
        | some s => (1, keydata.take 16 ++ memcpy (keydata.drop 16) s.external_seed 16) := by
  induction l with
  | nil => rfl
  | cons s rest ih =>
    unfold NcchPadgen.findSeed
    by_cases h : s.titleId = titleId
    · simp [h]
    · simp [h, ih]

/-- The body of the job loop in one expression. -/
theorem NcchPadgen.padInfo_eq (C : Console) (seedinfo : SeedInfo) (e : NcchInfoEntry) :
    NcchPadgen.padInfo C seedinfo e
      = if e.uses7xCrypto ≠ 0 ∧ e.usesSeedCrypto ≠ 0 then
          match (seedinfo.entries.take seedinfo.n_entries).find?
              (fun s => decide (s.titleId = e.titleId)) with
          | none => none
          | some s =>
            some { keyslot := ncchKeyslot e.uses7xCrypto, setKeyY := 1,
                   CTR := memcpy (List.replicate 16 0) e.CTR 16,
                   keyY := memcpy (List.replicate 16 0)
                     (C.sha256 (((memcpy (List.replicate 32 0) e.keyY 16).take 16
                       ++ memcpy ((memcpy (List.replicate 32 0) e.keyY 16).drop 16)
                           s.external_seed 16).take 32)) 16,
                   size_mb := e.size_mb, filename := e.filename }
        else
          some { keyslot := ncchKeyslot e.uses7xCrypto, setKeyY := 1,
                 CTR := memcpy (List.replicate 16 0) e.CTR 16,
                 keyY := memcpy (List.replicate 16 0) e.keyY 16,
                 size_mb := e.size_mb, filename := e.filename } := by
  by_cases h7 : e.uses7xCrypto = 0 <;> by_cases hs : e.usesSeedCrypto = 0 <;>
    cases hfind : (seedinfo.entries.take seedinfo.n_entries).find?
        (fun s => decide (s.titleId = e.titleId)) <;>
    simp [NcchPadgen.padInfo, NcchPadgen.findSeed_eq, ncchKeyslot, h7, hs, hfind]

/-- Where the body of the job loop executes `return 0`: both flags set and no seed record for
the title among the `n_entries` records of the table. -/
theorem NcchPadgen.padInfo_eq_none (C : Console) (seedinfo : SeedInfo) (e : NcchInfoEntry) :
    NcchPadgen.padInfo C seedinfo e = none
      ↔ e.uses7xCrypto ≠ 0 ∧ e.usesSeedCrypto ≠ 0
        ∧ ∀ s ∈ seedinfo.entries.take seedinfo.n_entries, s.titleId ≠ e.titleId := by
  rw [NcchPadgen.padInfo_eq]
  by_cases hf : e.uses7xCrypto ≠ 0 ∧ e.usesSeedCrypto ≠ 0
  · rw [if_pos hf]
    cases hfind : (seedinfo.entries.take seedinfo.n_entries).find?
        (fun s => decide (s.titleId = e.titleId)) with
    | none =>
      have := List.find?_eq_none.mp hfind
      simp only [decide_eq_true_eq] at this
      exact ⟨fun _ => ⟨hf.1, hf.2, this⟩, fun _ => rfl⟩
    | some s =>
      have h1 := List.find?_some hfind
      have h2 := List.mem_of_find?_eq_some hfind
      simp only [decide_eq_true_eq] at h1
      constructor
      · intro h; exact absurd h (by simp)
      · intro h; exact absurd h1 (h.2.2 s h2)
  · rw [if_neg hf]
    constructor
    · intro h; exact absurd h (by simp)
    · intro h; exact absurd ⟨h.1, h.2.1⟩ hf

/-- The pad of an entry with both flags set whose title has a seed record: key-Y is the first 16
bytes of SHA-256 over base key-Y followed by the seed of the first such record. -/
theorem NcchPadgen.padInfo_seed (C : Console) (seedinfo : SeedInfo) (e : NcchInfoEntry)
    (s : SeedInfoEntry) (h7 : e.uses7xCrypto ≠ 0) (hs : e.usesSeedCrypto ≠ 0)
    (hfind : (seedinfo.entries.take seedinfo.n_entries).find?
      (fun s => decide (s.titleId = e.titleId)) = some s)
    (hk : e.keyY.length = 16) (hseed : s.external_seed.length = 16) :
    NcchPadgen.padInfo C seedinfo e
      = some { keyslot := ncchKeyslot e.uses7xCrypto, setKeyY := 1,
               CTR := memcpy (List.replicate 16 0) e.CTR 16,
               keyY := (C.sha256 (e.keyY ++ s.external_seed)).take 16,
               size_mb := e.size_mb, filename := e.filename } := by
  have h1 : memcpy (List.replicate 32 0) e.keyY 16 = e.keyY ++ List.replicate 16 0 := by
    unfold memcpy
    rw [List.take_of_length_le (by omega)]
    simp
  have h2 : memcpy (List.replicate 16 0) s.external_seed 16 = s.external_seed := by
    unfold memcpy
    rw [List.take_of_length_le (by omega)]
    simp
  have h32 : (e.keyY ++ s.external_seed).take 32 = e.keyY ++ s.external_seed :=
    List.take_of_length_le (by simp; omega)
  have h3 : ∀ d : List Nat, memcpy (List.replicate 16 0) d 16 = d.take 16 := by
    intro d; simp [memcpy]
  rw [NcchPadgen.padInfo_eq, if_pos ⟨h7, hs⟩, hfind]
  simp only [h1, List.take_left' hk, List.drop_left' hk, h2, h32, h3]

/-- The pad of an entry with one of the two flags clear: key-Y is the base key-Y. -/
theorem NcchPadgen.padInfo_plain (C : Console) (seedinfo : SeedInfo) (e : NcchInfoEntry)
    (hf : e.uses7xCrypto = 0 ∨ e.usesSeedCrypto = 0) (hk : e.keyY.length = 16) :
    NcchPadgen.padInfo C seedinfo e
      = some { keyslot := ncchKeyslot e.uses7xCrypto, setKeyY := 1,
               CTR := memcpy (List.replicate 16 0) e.CTR 16,
               keyY := e.keyY, size_mb := e.size_mb, filename := e.filename } := by
  have hn : ¬ (e.uses7xCrypto ≠ 0 ∧ e.usesSeedCrypto ≠ 0) := by
    rcases hf with h | h <;> simp [h]
  have hm : memcpy (List.replicate 16 0) e.keyY 16 = e.keyY := by
    unfold memcpy
    rw [List.take_of_length_le (by omega)]
    simp
  rw [NcchPadgen.padInfo_eq, if_neg hn, hm]

/-- Every pad built by the body of the job loop requests a key-Y install and has its slot chosen
from the crypto-generation flag. -/
theorem NcchPadgen.padInfo_slot (C : Console) (seedinfo : SeedInfo) (e : NcchInfoEntry)
    (pad : PadInfo) (h : NcchPadgen.padInfo C seedinfo e = some pad) :
    pad.keyslot = ncchKeyslot e.uses7xCrypto ∧ pad.setKeyY = 1 ∧ pad.size_mb = e.size_mb
      ∧ pad.filename = e.filename := by
  rw [NcchPadgen.padInfo_eq] at h
  split_ifs at h
  · cases hfind : (seedinfo.entries.take seedinfo.n_entries).find?
        (fun s => decide (s.titleId = e.titleId)) with
    | none => rw [hfind] at h; exact absurd h (by simp)
    | some s =>
      rw [hfind] at h
      simp only [Option.some.injEq] at h
      subst h
      exact ⟨rfl, rfl, rfl, rfl⟩
  · simp only [Option.some.injEq] at h
    subst h
    exact ⟨rfl, rfl, rfl, rfl⟩

/-- The job loop returns; the calls of `CreatePad` it makes are, in order, for the pads of a
prefix of the job entries. -/
theorem NcchPadgen.loop_calls (E : AesEngine) (C : Console) (fl : FileLayer) (buffer : List Nat)
    (seedinfo : SeedInfo) :
    ∀ (entries : List NcchInfoEntry) (hw : AesHw) (calls : List PadCall),
      ∃ code hw1 new, NcchPadgen.loop E C fl buffer seedinfo entries hw calls
          = some (code, hw1, calls ++ new)
        ∧ new.length ≤ entries.length
        ∧ new.map (fun c => some c.pad)
            = (entries.take new.length).map (NcchPadgen.padInfo C seedinfo) := by
  intro entries
  induction entries with
  | nil =>
    intro hw calls
    exact ⟨0, hw, [], by simp [NcchPadgen.loop], by simp, by simp⟩
  | cons e rest ih =>
    intro hw calls
    unfold NcchPadgen.loop
    cases hp : NcchPadgen.padInfo C seedinfo e with
    | none => exact ⟨0, hw, [], by simp, by simp, by simp⟩
    | some pad =>
      obtain ⟨rc, hw2, ws, hc⟩ : ∃ rc hw2 ws, CreatePad E fl hw buffer pad = some (rc, hw2, ws) := by
        obtain ⟨rc, hw2, j, hc, _, _⟩ := CreatePad_eq E fl hw buffer pad
        exact ⟨rc, hw2, _, hc⟩
      simp only [hc]
      by_cases hrc : rc = 0
      · obtain ⟨code, hw1, new, h, hl, hm⟩ := ih hw2
          (calls ++ [{ pad := pad, code := rc, writes := ws }])
        refine ⟨code, hw1, { pad := pad, code := rc, writes := ws } :: new, ?_, ?_, ?_⟩
        · simp only [hrc, if_true] at h ⊢
          rw [h]
          simp
        · simp only [List.length_cons]; omega
        · simp only [List.length_cons, List.take_succ_cons, List.map_cons, hp, hm]
      · refine ⟨1, hw2, [{ pad := pad, code := rc, writes := ws }], ?_, by simp, ?_⟩
        · simp only [hrc, if_false]
        · simp [hp]

/-- When every file creation and write succeeds, the job loop returns 0 after one successful call
of `CreatePad` for each job entry up to, and not including, the first entry without a seed. -/
theorem NcchPadgen.loop_ok (E : AesEngine) (C : Console) (fl : FileLayer) (buffer : List Nat)
    (seedinfo : SeedInfo) (hcreate : ∀ name, fl.createOk name = true)
    (hwrite : ∀ sz off, fl.writeOk sz off = true) :
    ∀ (entries : List NcchInfoEntry) (hw : AesHw) (calls : List PadCall),
      ∃ hw1 new, NcchPadgen.loop E C fl buffer seedinfo entries hw calls
          = some (0, hw1, calls ++ new)
        ∧ new.map (fun c => some c.pad)
            = (entries.takeWhile (fun e => (NcchPadgen.padInfo C seedinfo e).isSome)).map
                (NcchPadgen.padInfo C seedinfo)
        ∧ ∀ c ∈ new, c.code = 0 := by
  intro entries
  induction entries with
  | nil =>
    intro hw calls
    exact ⟨hw, [], by simp [NcchPadgen.loop], by simp, by simp⟩
  | cons e rest ih =>
    intro hw calls
    unfold NcchPadgen.loop
    cases hp : NcchPadgen.padInfo C seedinfo e with
    | none => exact ⟨hw, [], by simp, by simp [List.takeWhile, hp], by simp⟩
    | some pad =>
      obtain ⟨hw2, ws, hc⟩ : ∃ hw2 ws, CreatePad E fl hw buffer pad = some (0, hw2, ws) := by
        obtain ⟨rc, hw2, j, hc, _, hok⟩ := CreatePad_eq E fl hw buffer pad
        obtain ⟨hrc, _⟩ := hok (hcreate _) hwrite
        subst hrc
        exact ⟨hw2, _, hc⟩
      simp only [hc]
      obtain ⟨hw1, new, h, hm, hz⟩ := ih hw2 (calls ++ [{ pad := pad, code := 0, writes := ws }])
      refine ⟨hw1, { pad := pad, code := 0, writes := ws } :: new, ?_, ?_, ?_⟩
      · simp only [if_true]
        rw [h]
        simp
      · simp only [List.map_cons, List.takeWhile, hp, Option.isSome_some, hm]
      · intro c hcm
        rcases List.mem_cons.mp hcm with rfl | hcm
        · rfl
        · exact hz c hcm

/-- The two ways `NcchPadgen` ends: it fails before the first entry, with no pad, or it runs the
loop over the first `n_entries` job entries against the seed table it searches (the file's when
`/seeddb.bin` opens, otherwise what the table's memory held on entry). -/
theorem NcchPadgen_cases (E : AesEngine) (C : Console) (H : DecryptorH) (fl : FileLayer)
    (hw : AesHw) (buffer : List Nat) (slot0x25KeyX : List Nat) (seeddb seedMem : SeedInfo)
    (ncchinfo : NcchInfo) :
    (∃ keyX, NcchPadgen E C H fl hw buffer slot0x25KeyX seeddb seedMem ncchinfo
        = some { code := 1, hw := hw, keyX25 := keyX, calls := [] })
    ∨ NcchPadgen E C H fl hw buffer slot0x25KeyX seeddb seedMem ncchinfo
      = (NcchPadgen.loop E C fl buffer (if fl.openOk "/seeddb.bin" then seeddb else seedMem)
          (ncchinfo.entries.take ncchinfo.n_entries) hw []).map
          (fun r => { code := r.1, hw := r.2.1,
                      keyX25 := if fl.openOk "/slot0x25KeyX.bin" then some (slot0x25KeyX.take 16)
                        else none,
                      calls := r.2.2 }) := by
  unfold NcchPadgen
  dsimp only
  by_cases h1 : (fl.openOk "/slot0x25KeyX.bin" && !fl.readOk 16 0) = true
  · rw [if_pos h1]; exact Or.inl ⟨_, rfl⟩
  rw [if_neg h1]
  by_cases h2 : (fl.openOk "/seeddb.bin" && !fl.readOk 16 0) = true
  · rw [if_pos h2]; exact Or.inl ⟨_, rfl⟩
  rw [if_neg h2]
  by_cases h3 : fl.openOk "/seeddb.bin" = true
      ∧ (seeddb.n_entries = 0 ∨ seeddb.n_entries > H.MAX_ENTRIES)
  · rw [if_pos h3]; exact Or.inl ⟨_, rfl⟩
  rw [if_neg h3]
  by_cases h4 : (fl.openOk "/seeddb.bin"
      && !fl.readOk (seeddb.n_entries * H.sizeofSeedInfoEntry) 16) = true
  · rw [if_pos h4]; exact Or.inl ⟨_, rfl⟩
  rw [if_neg h4]
  by_cases h5 : (!fl.openOk "/ncchinfo.bin") = true
  · rw [if_pos h5]; exact Or.inl ⟨_, rfl⟩
  rw [if_neg h5]
  by_cases h6 : (!fl.readOk 16 0) = true
  · rw [if_pos h6]; exact Or.inl ⟨_, rfl⟩
  rw [if_neg h6]
  by_cases h7 : ncchinfo.n_entries = 0 ∨ ncchinfo.n_entries > H.MAX_ENTRIES
  · rw [if_pos h7]; exact Or.inl ⟨_, rfl⟩
  rw [if_neg h7]
  by_cases h8 : ncchinfo.ncch_info_version ≠ 0xF0000004
  · rw [if_pos h8]; exact Or.inl ⟨_, rfl⟩
  rw [if_neg h8]
  by_cases h9 : (!fl.readOk (ncchinfo.n_entries * H.sizeofNcchInfoEntry) 16) = true
  · rw [if_pos h9]; exact Or.inl ⟨_, rfl⟩
  rw [if_neg h9]
  right
  cases NcchPadgen.loop E C fl buffer (if fl.openOk "/seeddb.bin" then seeddb else seedMem)
    (ncchinfo.entries.take ncchinfo.n_entries) hw [] <;> rfl

/-- With every read succeeding, the job file opening and the two counts in range, `NcchPadgen`
runs the loop over the first `n_entries` job entries. -/
theorem NcchPadgen_run (E : AesEngine) (C : Console) (H : DecryptorH) (fl : FileLayer)
    (hw : AesHw) (buffer : List Nat) (slot0x25KeyX : List Nat) (seeddb seedMem : SeedInfo)
    (ncchinfo : NcchInfo) (hread : ∀ sz off, fl.readOk sz off = true)
    (hopen : fl.openOk "/ncchinfo.bin" = true)
    (hseed : fl.openOk "/seeddb.bin" = true →
      seeddb.n_entries ≠ 0 ∧ seeddb.n_entries ≤ H.MAX_ENTRIES)
    (hn : ncchinfo.n_entries ≠ 0 ∧ ncchinfo.n_entries ≤ H.MAX_ENTRIES)
    (hv : ncchinfo.ncch_info_version = 0xF0000004) :
    NcchPadgen E C H fl hw buffer slot0x25KeyX seeddb seedMem ncchinfo
      = (NcchPadgen.loop E C fl buffer (if fl.openOk "/seeddb.bin" then seeddb else seedMem)
          (ncchinfo.entries.take ncchinfo.n_entries) hw []).map
          (fun r => { code := r.1, hw := r.2.1,
                      keyX25 := if fl.openOk "/slot0x25KeyX.bin" then some (slot0x25KeyX.take 16)
                        else none,
                      calls := r.2.2 }) := by
  have hn2 : ¬ (ncchinfo.n_entries = 0 ∨ ncchinfo.n_entries > H.MAX_ENTRIES) := by
    intro h; rcases h with h | h
    · exact hn.1 h
    · omega
  have hs2 : ¬ (fl.openOk "/seeddb.bin" = true
      ∧ (seeddb.n_entries = 0 ∨ seeddb.n_entries > H.MAX_ENTRIES)) := by
    intro h
    have := hseed h.1
    rcases h.2 with h | h
    · exact this.1 h
    · omega
  unfold NcchPadgen
  dsimp only
  rw [if_neg (by simp [hread]), if_neg (by simp [hread]), if_neg hs2, if_neg (by simp [hread]),
    if_neg (by simp [hopen]), if_neg (by simp [hread]), if_neg hn2, if_neg (by simp [hv]),
    if_neg (by simp [hread])]
  cases NcchPadgen.loop E C fl buffer (if fl.openOk "/seeddb.bin" then seeddb else seedMem)
      (ncchinfo.entries.take ncchinfo.n_entries) hw [] <;> rfl

/-- `NcchPadgen` returns, whatever the files hold and the file layer does; the calls of
`CreatePad` it makes are, in order, for the pads of the first job entries, built against the seed
table it searches. -/
theorem NcchPadgen_calls (E : AesEngine) (C : Console) (H : DecryptorH) (fl : FileLayer)
    (hw : AesHw) (buffer : List Nat) (slot0x25KeyX : List Nat) (seeddb seedMem : SeedInfo)
    (ncchinfo : NcchInfo) :
    ∃ r, NcchPadgen E C H fl hw buffer slot0x25KeyX seeddb seedMem ncchinfo = some r
      ∧ r.calls.length ≤ ncchinfo.n_entries
      ∧ r.calls.map (fun c => some c.pad)
          = (ncchinfo.entries.take r.calls.length).map
              (NcchPadgen.padInfo C (if fl.openOk "/seeddb.bin" then seeddb else seedMem)) := by
  obtain ⟨code, hw1, new, h, hl, hm⟩ := NcchPadgen.loop_calls E C fl buffer
    (if fl.openOk "/seeddb.bin" then seeddb else seedMem)
    (ncchinfo.entries.take ncchinfo.n_entries) hw []
  have hlen : new.length ≤ ncchinfo.n_entries := by
    have := List.length_take_le ncchinfo.n_entries ncchinfo.entries
    omega
  have htake : (ncchinfo.entries.take ncchinfo.n_entries).take new.length
      = ncchinfo.entries.take new.length := by
    rw [List.take_take, Nat.min_eq_left hlen]
  rw [List.nil_append] at h
  rcases NcchPadgen_cases E C H fl hw buffer slot0x25KeyX seeddb seedMem ncchinfo with
    ⟨keyX, hk⟩ | hk
  · exact ⟨_, hk, by simp, by simp⟩
  · rw [h] at hk
    exact ⟨_, hk, hlen, by rw [← htake]; exact hm⟩

/-- What a call of `CreatePad` recorded at position `i` was made for: the pad of job entry `i`. -/
theorem padInfo_of_call (C : Console) (seedinfo : SeedInfo) (entries : List NcchInfoEntry)
    (calls : List PadCall)
    (hm : calls.map (fun c => some c.pad)
      = (entries.take calls.length).map (NcchPadgen.padInfo C seedinfo))
    (i : Nat) (c : PadCall) (hc : calls[i]? = some c) :
    ∃ e, entries[i]? = some e ∧ NcchPadgen.padInfo C seedinfo e = some c.pad := by
  have hi : i < calls.length := (List.getElem?_eq_some.mp hc).1
  have h1 : (calls.map (fun c => some c.pad))[i]? = some (some c.pad) := by
    rw [List.getElem?_map, hc]; rfl
  rw [hm, List.getElem?_map, List.getElem?_take, if_pos hi] at h1
  cases he : entries[i]? with
  | none => rw [he] at h1; exact absurd h1 (by simp)
  | some e =>
    rw [he] at h1
    simp only [Option.map_some', Option.some.injEq] at h1
    exact ⟨e, rfl, h1⟩

/-- Every call recorded by the job loop of `NcchPadgen` is a run of `CreatePad` on the pad
recorded, with the return code and the writes recorded. -/
theorem NcchPadgen.loop_made (E : AesEngine) (C : Console) (fl : FileLayer) (buffer : List Nat)
    (seedinfo : SeedInfo) :
    ∀ (entries : List NcchInfoEntry) (hw : AesHw) (calls : List PadCall),
      ∃ code hw1 new, NcchPadgen.loop E C fl buffer seedinfo entries hw calls
          = some (code, hw1, calls ++ new)
        ∧ ∀ c ∈ new, ∃ hwa hwb, CreatePad E fl hwa buffer c.pad = some (c.code, hwb, c.writes) := by
  intro entries
  induction entries with
  | nil =>
    intro hw calls
    exact ⟨0, hw, [], by simp [NcchPadgen.loop], by simp⟩
  | cons e rest ih =>
    intro hw calls
    unfold NcchPadgen.loop
    cases hp : NcchPadgen.padInfo C seedinfo e with
    | none => exact ⟨0, hw, [], by simp, by simp⟩
    | some pad =>
      obtain ⟨rc, hw2, ws, hc⟩ : ∃ rc hw2 ws, CreatePad E fl hw buffer pad = some (rc, hw2, ws) := by
        obtain ⟨rc, hw2, j, hc, -, -⟩ := CreatePad_eq E fl hw buffer pad
        exact ⟨rc, hw2, _, hc⟩
      simp only [hc]
      by_cases hrc : rc = 0
      · rw [if_pos hrc]
        obtain ⟨code, hw1, new, h, hmade⟩ :=
          ih hw2 (calls ++ [{ pad := pad, code := rc, writes := ws }])
        refine ⟨code, hw1, { pad := pad, code := rc, writes := ws } :: new, ?_, ?_⟩
        · rw [h]; simp
        · intro c hcm
          rcases List.mem_cons.mp hcm with rfl | hcm
          · exact ⟨hw, hw2, hc⟩
          · exact hmade c hcm
      · rw [if_neg hrc]
        refine ⟨1, hw2, [{ pad := pad, code := rc, writes := ws }], rfl, ?_⟩
        intro c hcm
        rw [List.mem_singleton.mp hcm]
        exact ⟨hw, hw2, hc⟩

/-- C20: `NcchPadgen` always returns, and every call of `CreatePad` it makes (the call at
position `i` is for job entry `i`) is a run of `CreatePad` on a pad whose key slot is decided by
the entry's crypto-generation flag `uses7xCrypto` alone: 0x18 when the flag is 0xA, 0x25 when it
is any other non-zero value, 0x2C when it is zero; and the pad has `setKeyY = 1`, a key-Y
install requested. The calls are made: when every file operation succeeds, the headers are
accepted, the job file holds the entries it declares and no entry that requires a seed misses
it, `NcchPadgen` returns 0 having made exactly one such call per job entry, in order, each
returning 0. -/
theorem NcchPadgen_keyslot (E : AesEngine) (C : Console) (H : DecryptorH) (fl : FileLayer)
    (hw : AesHw) (buffer : List Nat) (slot0x25KeyX : List Nat) (seeddb seedMem : SeedInfo)
    (ncchinfo : NcchInfo) :
    (∃ r, NcchPadgen E C H fl hw buffer slot0x25KeyX seeddb seedMem ncchinfo = some r
      ∧ ∀ (i : Nat) (c : PadCall), r.calls[i]? = some c →
        ∃ e : NcchInfoEntry, ncchinfo.entries[i]? = some e ∧ i < ncchinfo.n_entries
          ∧ c.pad.keyslot
              = (if e.uses7xCrypto = 0xA then 0x18 else if e.uses7xCrypto ≠ 0 then 0x25 else 0x2C)
          ∧ (c.pad.keyslot = 0x18 ∨ c.pad.keyslot = 0x25 ∨ c.pad.keyslot = 0x2C)
          ∧ c.pad.setKeyY = 1
          ∧ ∃ hwa hwb, CreatePad E fl hwa buffer c.pad = some (c.code, hwb, c.writes))
    ∧ ((∀ name, fl.createOk name = true) → (∀ sz off, fl.writeOk sz off = true) →
        (∀ sz off, fl.readOk sz off = true) → fl.openOk "/ncchinfo.bin" = true →
        (fl.openOk "/seeddb.bin" = true →
          seeddb.n_entries ≠ 0 ∧ seeddb.n_entries ≤ H.MAX_ENTRIES) →
        ncchinfo.n_entries ≠ 0 ∧ ncchinfo.n_entries ≤ H.MAX_ENTRIES →
        ncchinfo.ncch_info_version = 0xF0000004 →
        ncchinfo.n_entries ≤ ncchinfo.entries.length →
        (∀ e ∈ ncchinfo.entries.take ncchinfo.n_entries,
          e.uses7xCrypto ≠ 0 → e.usesSeedCrypto ≠ 0 →
          ∃ s ∈ (if fl.openOk "/seeddb.bin" then seeddb else seedMem).entries.take
              (if fl.openOk "/seeddb.bin" then seeddb else seedMem).n_entries,
            s.titleId = e.titleId) →
        ∃ r, NcchPadgen E C H fl hw buffer slot0x25KeyX seeddb seedMem ncchinfo = some r
          ∧ r.code = 0
          ∧ r.calls.length = ncchinfo.n_entries
          ∧ ∀ (i : Nat), i < ncchinfo.n_entries →
            ∃ (e : NcchInfoEntry) (c : PadCall),
              ncchinfo.entries[i]? = some e ∧ r.calls[i]? = some c
              ∧ c.pad.keyslot
                  = (if e.uses7xCrypto = 0xA then 0x18
                     else if e.uses7xCrypto ≠ 0 then 0x25 else 0x2C)
              ∧ c.pad.setKeyY = 1
              ∧ c.pad.size_mb = e.size_mb ∧ c.pad.filename = e.filename
              ∧ c.code = 0
              ∧ ∃ hwa hwb, CreatePad E fl hwa buffer c.pad = some (0, hwb, c.writes)) := by
  have hslotOf : ∀ (seedinfo : SeedInfo) (e : NcchInfoEntry) (pad : PadInfo),
      NcchPadgen.padInfo C seedinfo e = some pad →
      pad.keyslot
          = (if e.uses7xCrypto = 0xA then 0x18 else if e.uses7xCrypto ≠ 0 then 0x25 else 0x2C)
        ∧ (pad.keyslot = 0x18 ∨ pad.keyslot = 0x25 ∨ pad.keyslot = 0x2C)
        ∧ pad.setKeyY = 1 ∧ pad.size_mb = e.size_mb ∧ pad.filename = e.filename := by
    intro seedinfo e pad hp
    obtain ⟨hslot, hset, hsize, hname⟩ := NcchPadgen.padInfo_slot C seedinfo e pad hp
    refine ⟨by rw [hslot]; rfl, ?_, hset, hsize, hname⟩
    rw [hslot]; unfold ncchKeyslot; split_ifs <;> simp
  constructor
  · obtain ⟨r, hr, hlen, hm⟩ :=
      NcchPadgen_calls E C H fl hw buffer slot0x25KeyX seeddb seedMem ncchinfo
    refine ⟨r, hr, fun i c hc => ?_⟩
    obtain ⟨e, he, hp⟩ := padInfo_of_call C _ ncchinfo.entries r.calls hm i c hc
    have hi : i < r.calls.length := (List.getElem?_eq_some.mp hc).1
    obtain ⟨hslot, hthree, hset, -, -⟩ := hslotOf _ e c.pad hp
    refine ⟨e, he, by omega, hslot, hthree, hset, ?_⟩
    have hmem : c ∈ r.calls := List.getElem?_mem hc
    rcases NcchPadgen_cases E C H fl hw buffer slot0x25KeyX seeddb seedMem ncchinfo with
      ⟨keyX, hk⟩ | hk
    · rw [hk] at hr
      rw [← Option.some.inj hr] at hmem
      exact absurd hmem (List.not_mem_nil c)
    · obtain ⟨code, hw1, new, hloop, hmade⟩ := NcchPadgen.loop_made E C fl buffer
        (if fl.openOk "/seeddb.bin" then seeddb else seedMem)
        (ncchinfo.entries.take ncchinfo.n_entries) hw []
      rw [hloop, List.nil_append] at hk
      rw [hk] at hr
      rw [← Option.some.inj hr] at hmem
      exact hmade c hmem
  · intro hcreate hwrite hread hopen hseed hn hv hlen hfound
    have hrun := NcchPadgen_run E C H fl hw buffer slot0x25KeyX seeddb seedMem ncchinfo hread
      hopen hseed hn hv
    have hall : ∀ x ∈ ncchinfo.entries.take ncchinfo.n_entries,
        (NcchPadgen.padInfo C (if fl.openOk "/seeddb.bin" then seeddb else seedMem) x).isSome
          = true := by
      intro x hx
      cases h : NcchPadgen.padInfo C (if fl.openOk "/seeddb.bin" then seeddb else seedMem) x with
      | some p => rfl
      | none =>
        rw [NcchPadgen.padInfo_eq_none] at h
        obtain ⟨s, hsm, hst⟩ := hfound x hx h.1 h.2.1
        exact absurd hst (h.2.2 s hsm)
    have htw : (ncchinfo.entries.take ncchinfo.n_entries).takeWhile
        (fun e => (NcchPadgen.padInfo C
          (if fl.openOk "/seeddb.bin" then seeddb else seedMem) e).isSome)
        = ncchinfo.entries.take ncchinfo.n_entries :=
      List.takeWhile_eq_self_iff.mpr hall
    obtain ⟨hw1, new, hloop, hm, hcodes⟩ := NcchPadgen.loop_ok E C fl buffer
      (if fl.openOk "/seeddb.bin" then seeddb else seedMem) hcreate hwrite
      (ncchinfo.entries.take ncchinfo.n_entries) hw []
    obtain ⟨code2, hw2, new2, hloop2, hmade⟩ := NcchPadgen.loop_made E C fl buffer
      (if fl.openOk "/seeddb.bin" then seeddb else seedMem)
      (ncchinfo.entries.take ncchinfo.n_entries) hw []
    rw [hloop] at hloop2
    have hnew : new2 = new := by
      have := Option.some.inj hloop2
      simp only [Prod.mk.injEq, List.nil_append] at this
      exact this.2.2.symm
    subst hnew
    rw [List.nil_append] at hloop
    rw [htw] at hm
    rw [hloop] at hrun
    have hl : new2.length = ncchinfo.n_entries := by
      have := congrArg List.length hm
      simp only [List.length_map, List.length_take] at this
      omega
    refine ⟨_, hrun, rfl, hl, fun i hi => ?_⟩
    have hilen : i < ncchinfo.entries.length := by omega
    have hic : i < new2.length := by omega
    have hm2 : new2.map (fun c => some c.pad)
        = (ncchinfo.entries.take new2.length).map
            (NcchPadgen.padInfo C (if fl.openOk "/seeddb.bin" then seeddb else seedMem)) := by
      rw [hm, hl]
    obtain ⟨e, he, hp⟩ := padInfo_of_call C _ ncchinfo.entries new2 hm2 i new2[i]
      (List.getElem?_eq_getElem hic)
    obtain ⟨hslot, -, hset, hsize, hname⟩ := hslotOf _ e new2[i].pad hp
    have hmem : new2[i] ∈ new2 := List.getElem_mem hic
    have hcode := hcodes new2[i] hmem
    obtain ⟨hwa, hwb, hcp⟩ := hmade new2[i] hmem
    rw [hcode] at hcp
    exact ⟨e, new2[i], he, List.getElem?_eq_getElem hic, hslot, hset, hsize, hname, hcode,
      hwa, hwb, hcp⟩

/-- C20 at a three-entry job list with the flags 0, 0xA and 1 on a file layer that never fails:
three calls of `CreatePad`, with the slots 0x2C, 0x18 and 0x25 and a key-Y install requested. -/
theorem NcchPadgen_keyslot_witness :
    (NcchPadgen xorCtrEngine seedConsole demoH okFiles zeroHw [] [] demoSeeds demoSeeds
        (demoJobs [demoEntry 0 0 5, demoEntry 1 0xA 7, demoEntry 0 1 6])).map
        (fun r => (r.code, r.calls.map (fun c => (c.pad.keyslot, c.pad.setKeyY, c.code))))
      = some (0, [(0x2C, 1, 0), (0x18, 1, 0), (0x25, 1, 0)])
    ∧ ∃ r, NcchPadgen xorCtrEngine seedConsole demoH okFiles zeroHw [] [] demoSeeds demoSeeds
          (demoJobs [demoEntry 0 0 5, demoEntry 1 0xA 7, demoEntry 0 1 6]) = some r
        ∧ r.code = 0
        ∧ r.calls.length = (demoJobs [demoEntry 0 0 5, demoEntry 1 0xA 7, demoEntry 0 1 6]).n_entries
        ∧ ∀ (i : Nat),
          i < (demoJobs [demoEntry 0 0 5, demoEntry 1 0xA 7, demoEntry 0 1 6]).n_entries →
            ∃ (e : NcchInfoEntry) (c : PadCall),
              (demoJobs [demoEntry 0 0 5, demoEntry 1 0xA 7, demoEntry 0 1 6]).entries[i]?
                = some e
              ∧ r.calls[i]? = some c
              ∧ c.pad.keyslot
                  = (if e.uses7xCrypto = 0xA then 0x18
                     else if e.uses7xCrypto ≠ 0 then 0x25 else 0x2C)
              ∧ c.pad.setKeyY = 1
              ∧ c.pad.size_mb = e.size_mb ∧ c.pad.filename = e.filename
              ∧ c.code = 0
              ∧ ∃ hwa hwb, CreatePad xorCtrEngine okFiles hwa [] c.pad = some (0, hwb, c.writes) :=
  ⟨by decide,
    (NcchPadgen_keyslot xorCtrEngine seedConsole demoH okFiles zeroHw [] [] demoSeeds demoSeeds
      (demoJobs [demoEntry 0 0 5, demoEntry 1 0xA 7, demoEntry 0 1 6])).2
      (fun _ => rfl) (fun _ _ => rfl) (fun _ _ => rfl) rfl (fun _ => by decide) (by decide) rfl
      (by decide) (by decide)⟩

/-- C13 (amended): for every call of `CreatePad` that `NcchPadgen` makes (the call at position
`i` is for job entry `i`), with 16-byte key-Y and seed fields: when both the crypto-generation
flag and the seed-crypto flag of the entry are set, the key-Y handed over is the first 16 bytes
of SHA-256 over the entry's base key-Y followed by the external seed of the first record with
the entry's title identifier among the first `n_entries` records of the seed table; when either
flag is clear, it is the entry's base key-Y unchanged. -/
theorem NcchPadgen_keyY (E : AesEngine) (C : Console) (H : DecryptorH) (fl : FileLayer)
    (hw : AesHw) (buffer : List Nat) (slot0x25KeyX : List Nat) (seeddb seedMem : SeedInfo)
    (ncchinfo : NcchInfo)
    (hk : ∀ e ∈ ncchinfo.entries, e.keyY.length = 16)
    (hseed : ∀ s ∈ (if fl.openOk "/seeddb.bin" then seeddb else seedMem).entries,
      s.external_seed.length = 16) :
    ∃ r, NcchPadgen E C H fl hw buffer slot0x25KeyX seeddb seedMem ncchinfo = some r
      ∧ ∀ (i : Nat) (c : PadCall), r.calls[i]? = some c →
        ∃ e : NcchInfoEntry, ncchinfo.entries[i]? = some e
          ∧ (e.uses7xCrypto ≠ 0 → e.usesSeedCrypto ≠ 0 →
              ∃ s : SeedInfoEntry, ((if fl.openOk "/seeddb.bin" then seeddb else seedMem).entries.take
                      (if fl.openOk "/seeddb.bin" then seeddb else seedMem).n_entries).find?
                    (fun s => decide (s.titleId = e.titleId)) = some s
                ∧ c.pad.keyY = (C.sha256 (e.keyY ++ s.external_seed)).take 16)
          ∧ (e.uses7xCrypto = 0 ∨ e.usesSeedCrypto = 0 → c.pad.keyY = e.keyY) := by
  obtain ⟨r, hr, hlen, hm⟩ :=
    NcchPadgen_calls E C H fl hw buffer slot0x25KeyX seeddb seedMem ncchinfo
  refine ⟨r, hr, fun i c hc => ?_⟩
  obtain ⟨e, he, hp⟩ := padInfo_of_call C _ ncchinfo.entries r.calls hm i c hc
  have hek : e.keyY.length = 16 := hk e (List.getElem?_mem he)
  refine ⟨e, he, fun h7 hs => ?_, fun hf => ?_⟩
  · cases hfind : ((if fl.openOk "/seeddb.bin" then seeddb else seedMem).entries.take
        (if fl.openOk "/seeddb.bin" then seeddb else seedMem).n_entries).find?
        (fun s => decide (s.titleId = e.titleId)) with
    | none =>
      have hnone : NcchPadgen.padInfo C (if fl.openOk "/seeddb.bin" then seeddb else seedMem) e
          = none := by
        rw [NcchPadgen.padInfo_eq_none]
        refine ⟨h7, hs, fun s hsm heq => ?_⟩
        have := List.find?_eq_none.mp hfind s hsm
        simp [heq] at this
      rw [hnone] at hp
      exact absurd hp (by simp)
    | some s =>
      have hsm : s ∈ (if fl.openOk "/seeddb.bin" then seeddb else seedMem).entries :=
        List.mem_of_mem_take (List.mem_of_find?_eq_some hfind)
      rw [NcchPadgen.padInfo_seed C _ e s h7 hs hfind hek (hseed s hsm)] at hp
      refine ⟨s, rfl, ?_⟩
      rw [← Option.some.inj hp]
  · rw [NcchPadgen.padInfo_plain C _ e hf hek] at hp
    rw [← Option.some.inj hp]

/-- C13 (amended) at a one-entry job list whose entry has both flags set and whose title is in
the seed table. -/
theorem NcchPadgen_keyY_witness :
    ∃ r, NcchPadgen xorCtrEngine seedConsole demoH okFiles zeroHw [] [] demoSeeds demoSeeds
        (demoJobs [demoEntry 1 1 7]) = some r
      ∧ ∀ (i : Nat) (c : PadCall), r.calls[i]? = some c →
        ∃ e : NcchInfoEntry, (demoJobs [demoEntry 1 1 7]).entries[i]? = some e
          ∧ (e.uses7xCrypto ≠ 0 → e.usesSeedCrypto ≠ 0 →
              ∃ s : SeedInfoEntry, ((if okFiles.openOk "/seeddb.bin" then demoSeeds else demoSeeds).entries.take
                      (if okFiles.openOk "/seeddb.bin" then demoSeeds else demoSeeds).n_entries).find?
                    (fun s => decide (s.titleId = e.titleId)) = some s
                ∧ c.pad.keyY = (seedConsole.sha256 (e.keyY ++ s.external_seed)).take 16)
          ∧ (e.uses7xCrypto = 0 ∨ e.usesSeedCrypto = 0 → c.pad.keyY = e.keyY) :=
  NcchPadgen_keyY xorCtrEngine seedConsole demoH okFiles zeroHw [] [] demoSeeds demoSeeds
    (demoJobs [demoEntry 1 1 7]) (by decide) (by decide)

/-- C13 as stated fails for an entry whose seed-crypto flag is set while its crypto-generation
flag is zero: the title is in the seed table, yet the key-Y handed to `CreatePad` is the base
key-Y (sixteen zero bytes), not the first 16 bytes of the SHA-256 digest. -/
theorem NcchPadgen_keyY_counterexample :
    (demoEntry 1 0 7).usesSeedCrypto = 1
    ∧ (demoSeeds.entries.take demoSeeds.n_entries).find?
        (fun s => decide (s.titleId = (demoEntry 1 0 7).titleId))
        = some { titleId := 7, external_seed := List.replicate 16 0 }
    ∧ (NcchPadgen xorCtrEngine seedConsole demoH okFiles zeroHw [] [] demoSeeds demoSeeds
        (demoJobs [demoEntry 1 0 7])).map (fun r => r.calls.map (fun c => c.pad.keyY))
        = some [List.replicate 16 0]
    ∧ (seedConsole.sha256 ((demoEntry 1 0 7).keyY ++ List.replicate 16 0)).take 16
        = [0x66, 0x68, 0x7a, 0xad, 0xf8, 0x62, 0xbd, 0x77, 0x6c, 0x8f, 0xc1, 0x8b, 0x8e, 0x9f,
           0x8e, 0x20] := by
  decide

/-- What the code does at a missing seed, for every input: when every file operation succeeds
and the two headers are accepted, and some job entry requires seed crypto (both flags set) while
no record among those searched in the seed table has its title identifier, `NcchPadgen` leaves
its job loop at the first such entry through `return 0`: `CreatePad` has been called, in order,
for exactly the entries before it, and is called neither for that entry nor for any later entry
of the job list. -/
theorem NcchPadgen_stops_at_missing_seed (E : AesEngine) (C : Console) (H : DecryptorH) (fl : FileLayer)
    (hw : AesHw) (buffer : List Nat) (slot0x25KeyX : List Nat) (seeddb seedMem : SeedInfo)
    (ncchinfo : NcchInfo) (pre post : List NcchInfoEntry) (e : NcchInfoEntry)
    (hcreate : ∀ name, fl.createOk name = true)
    (hwrite : ∀ sz off, fl.writeOk sz off = true)
    (hread : ∀ sz off, fl.readOk sz off = true)
    (hopen : ∀ name, fl.openOk name = true)
    (hseedn : seeddb.n_entries ≠ 0 ∧ seeddb.n_entries ≤ H.MAX_ENTRIES)
    (hn : ncchinfo.n_entries ≠ 0 ∧ ncchinfo.n_entries ≤ H.MAX_ENTRIES)
    (hv : ncchinfo.ncch_info_version = 0xF0000004)
    (hsplit : ncchinfo.entries.take ncchinfo.n_entries = pre ++ e :: post)
    (hpre : ∀ x ∈ pre, x.uses7xCrypto ≠ 0 → x.usesSeedCrypto ≠ 0 →
      ∃ s ∈ seeddb.entries.take seeddb.n_entries, s.titleId = x.titleId)
    (h7 : e.uses7xCrypto ≠ 0) (hs : e.usesSeedCrypto ≠ 0)
    (hmiss : ∀ s ∈ seeddb.entries.take seeddb.n_entries, s.titleId ≠ e.titleId) :
    ∃ r, NcchPadgen E C H fl hw buffer slot0x25KeyX seeddb seedMem ncchinfo = some r
      ∧ r.code = 0
      ∧ r.calls.length = pre.length
      ∧ r.calls.map (fun c => some c.pad) = pre.map (NcchPadgen.padInfo C seeddb)
      ∧ (∀ c ∈ r.calls, c.code = 0)
      ∧ ∀ x ∈ pre, NcchPadgen.padInfo C seeddb x ≠ none := by
  have hsel : (if fl.openOk "/seeddb.bin" then seeddb else seedMem) = seeddb := by
    rw [hopen]; rfl
  have hrun := NcchPadgen_run E C H fl hw buffer slot0x25KeyX seeddb seedMem ncchinfo hread
    (hopen _) (fun _ => hseedn) hn hv
  rw [hsel, hsplit] at hrun
  have hpre2 : ∀ x ∈ pre, NcchPadgen.padInfo C seeddb x ≠ none := by
    intro x hx hnone
    rw [NcchPadgen.padInfo_eq_none] at hnone
    obtain ⟨s, hsm, hst⟩ := hpre x hx hnone.1 hnone.2.1
    exact hnone.2.2 s hsm hst
  have he : NcchPadgen.padInfo C seeddb e = none :=
    (NcchPadgen.padInfo_eq_none C seeddb e).mpr ⟨h7, hs, hmiss⟩
  have htw : (pre ++ e :: post).takeWhile (fun e => (NcchPadgen.padInfo C seeddb e).isSome)
      = pre := by
    rw [List.takeWhile_append_of_pos]
    · simp [List.takeWhile_cons, he]
    · intro x hx
      have := hpre2 x hx
      cases h : NcchPadgen.padInfo C seeddb x with
      | none => exact absurd h this
      | some p => rfl
  obtain ⟨hw1, new, hloop, hm, hcodes⟩ :=
    NcchPadgen.loop_ok E C fl buffer seeddb hcreate hwrite (pre ++ e :: post) hw []
  rw [List.nil_append] at hloop
  rw [htw] at hm
  rw [hloop] at hrun
  have hl : new.length = pre.length := by
    have := congrArg List.length hm
    simpa using this
  exact ⟨_, hrun, rfl, hl, hm, hcodes, hpre2⟩

/-- The same at a three-entry job list whose second entry requires a seed for title 9, absent
from the seed table: the third entry is abandoned. -/
theorem NcchPadgen_stops_at_missing_seed_example :
    (demoJobs [demoEntry 0 0 5, demoEntry 1 1 9, demoEntry 0 0 6]).entries.take
        (demoJobs [demoEntry 0 0 5, demoEntry 1 1 9, demoEntry 0 0 6]).n_entries
      = [demoEntry 0 0 5] ++ demoEntry 1 1 9 :: [demoEntry 0 0 6]
    ∧ ∃ r, NcchPadgen xorCtrEngine seedConsole demoH okFiles zeroHw [] [] demoSeeds demoSeeds
        (demoJobs [demoEntry 0 0 5, demoEntry 1 1 9, demoEntry 0 0 6]) = some r
      ∧ r.code = 0
      ∧ r.calls.length = [demoEntry 0 0 5].length
      ∧ r.calls.map (fun c => some c.pad)
          = [demoEntry 0 0 5].map (NcchPadgen.padInfo seedConsole demoSeeds)
      ∧ (∀ c ∈ r.calls, c.code = 0)
      ∧ ∀ x ∈ [demoEntry 0 0 5], NcchPadgen.padInfo seedConsole demoSeeds x ≠ none :=
  ⟨by decide,
    NcchPadgen_stops_at_missing_seed xorCtrEngine seedConsole demoH okFiles zeroHw [] []
      demoSeeds demoSeeds (demoJobs [demoEntry 0 0 5, demoEntry 1 1 9, demoEntry 0 0 6])
      [demoEntry 0 0 5] [demoEntry 0 0 6] (demoEntry 1 1 9)
      (fun _ => rfl) (fun _ _ => rfl) (fun _ _ => rfl) (fun _ => rfl)
      (by decide) (by decide) rfl (by decide) (by decide) (by decide) (by decide) (by decide)⟩

/-- C12, the code on a two-entry job list whose first entry requires a seed for title 9, absent
from the seed table, and whose second entry requires no seed, with every file operation
succeeding: `NcchPadgen` returns 0, the success code, having made no call of `CreatePad`, so the
second entry has no pad, although on a job list of its own it gets one. -/
theorem NcchPadgen_missing_seed_returns_zero :
    (demoJobs [demoEntry 1 1 9, demoEntry 0 0 5]).n_entries = 2
    ∧ (demoSeeds.entries.take demoSeeds.n_entries).find?
        (fun s => decide (s.titleId = (demoEntry 1 1 9).titleId)) = none
    ∧ (NcchPadgen.padInfo seedConsole demoSeeds (demoEntry 0 0 5)).isSome = true
    ∧ (NcchPadgen xorCtrEngine seedConsole demoH okFiles zeroHw [] [] demoSeeds demoSeeds
        (demoJobs [demoEntry 0 0 5])).map (fun r => (r.code, r.calls.length))
        = some (0, 1)
    ∧ (NcchPadgen xorCtrEngine seedConsole demoH okFiles zeroHw [] [] demoSeeds demoSeeds
        (demoJobs [demoEntry 1 1 9, demoEntry 0 0 5])).map (fun r => (r.code, r.calls.length))
        = some (0, 0) := by
  decide

/-! ## `DecryptTitlekeysFile` -/

/-- The entry `DecryptTitlekey` returns does not depend on the engine state it is called in. -/
theorem DecryptTitlekey_entry (E : AesEngine) (hw hw0 : AesHw) (e : TitleKeyEntry) :
    (DecryptTitlekey E hw e).map Prod.snd = (DecryptTitlekey E hw0 e).map Prod.snd := by
  by_cases hidx : e.commonKeyIndex < 6
  · obtain ⟨row, hrow, -⟩ := common_keyy_row _ hidx
    rw [DecryptTitlekey_some E hw e row hrow, DecryptTitlekey_some E hw0 e row hrow]
    rfl
  · rw [DecryptTitlekey_none E hw e (by omega), DecryptTitlekey_none E hw0 e (by omega)]

/-- The decryption loop of `DecryptTitlekeysFile` returns on entries whose common-key indices are
rows of the table, with one decrypted entry per entry visited, in order. -/
theorem DecryptTitlekeysFile.loop_some (E : AesEngine) (hw0 : AesHw) :
    ∀ (l : List TitleKeyEntry) (hw : AesHw), (∀ e ∈ l, e.commonKeyIndex < 6) →
      ∃ hw1 es, DecryptTitlekeysFile.loop E l hw = some (hw1, es)
        ∧ es.length = l.length
        ∧ es.map some = l.map (fun e => (DecryptTitlekey E hw0 e).map Prod.snd) := by
  intro l
  induction l with
  | nil => intro hw _; exact ⟨hw, [], rfl, rfl, rfl⟩
  | cons e rest ih =>
    intro hw hidx
    obtain ⟨row, hrow, -⟩ := common_keyy_row _ (hidx e (List.mem_cons_self _ _))
    have h1 := DecryptTitlekey_some E hw e row hrow
    have h0 := DecryptTitlekey_entry E hw hw0 e
    rw [h1] at h0
    obtain ⟨hw2, es, hl, hlen, hm⟩ := ih
      (use_aeskey (setup_aeskey (set_ctr hw (memcpy (List.replicate 16 0) e.titleId 8))
        0x3D (memcpy (List.replicate 16 0) row 16)) 0x3D)
      (fun x hx => hidx x (List.mem_cons_of_mem _ hx))
    refine ⟨hw2,
      { commonKeyIndex := e.commonKeyIndex, titleId := e.titleId,
        encryptedTitleKey := E.block 0x3D (memcpy (List.replicate 16 0) row 16)
          AES_CNT_TITLEKEY_MODE (memcpy (List.replicate 16 0) e.titleId 8)
          e.encryptedTitleKey } :: es, ?_, ?_, ?_⟩
    · rw [DecryptTitlekeysFile.loop, h1]
      simp only [hl]
    · simp [hlen]
    · rw [List.map_cons, List.map_cons, hm, ← h0]
      rfl

/-- C11: `DecryptTitlekeysFile` rejects an entry count of zero or above `MAX_ENTRIES`: it returns
1 having made no call of `DecryptTitlekey` (engine state untouched) and without creating
`/decTitleKeys.bin`, whatever the file layer does. When the count is in `1..MAX_ENTRIES`, every
file operation succeeds, the file holds that many records and their common-key indices are rows
of the table, it returns 0 and writes the header with that count followed by exactly that many
records, record `i` being what `DecryptTitlekey` returns on record `i` of the input. -/
theorem DecryptTitlekeysFile_contract (E : AesEngine) (MAX_ENTRIES : Nat) (fl : FileLayer)
    (hw : AesHw) (file : EncKeysInfo) :
    (file.n_entries = 0 ∨ file.n_entries > MAX_ENTRIES →
      DecryptTitlekeysFile E MAX_ENTRIES fl hw file
        = some { code := 1, hw := hw, decrypted := [], created := false, written := none })
    ∧ (1 ≤ file.n_entries ∧ file.n_entries ≤ MAX_ENTRIES →
        fl.openOk "/encTitleKeys.bin" = true →
        (∀ sz off, fl.readOk sz off = true) →
        fl.createOk "/decTitleKeys.bin" = true →
        (∀ sz off, fl.writeOk sz off = true) →
        file.n_entries ≤ file.entries.length →
        (∀ e ∈ file.entries.take file.n_entries, e.commonKeyIndex < 6) →
        ∃ hw1 es, DecryptTitlekeysFile E MAX_ENTRIES fl hw file
            = some { code := 0, hw := hw1, decrypted := es, created := true,
                     written := some { n_entries := file.n_entries, entries := es } }
          ∧ es.length = file.n_entries
          ∧ es.map some = (file.entries.take file.n_entries).map
              (fun e => (DecryptTitlekey E hw e).map Prod.snd)) := by
  constructor
  · intro h
    unfold DecryptTitlekeysFile
    dsimp only
    by_cases h1 : (!fl.openOk "/encTitleKeys.bin") = true
    · rw [if_pos h1]
    rw [if_neg h1]
    by_cases h2 : (!fl.readOk 16 0) = true
    · rw [if_pos h2]
    rw [if_neg h2, if_pos h]
  · intro hn hopen hread hcreate hwrite hlen hidx
    obtain ⟨hw1, es, hl, hlen2, hm⟩ :=
      DecryptTitlekeysFile.loop_some E hw (file.entries.take file.n_entries) hw hidx
    refine ⟨hw1, es, ?_, ?_, hm⟩
    · have hn2 : ¬ (file.n_entries = 0 ∨ file.n_entries > MAX_ENTRIES) := by omega
      unfold DecryptTitlekeysFile
      dsimp only
      rw [if_neg (by simp [hopen]), if_neg (by simp [hread]), if_neg hn2,
        if_neg (by simp [hread])]
      simp only [hl]
      rw [if_neg (by simp [hcreate]), if_neg (by simp [hwrite])]
    · rw [hlen2, List.length_take, Nat.min_eq_left hlen]

/-- C11 at an empty bundle on a file layer that never fails, and at a two-record bundle. -/
theorem DecryptTitlekeysFile_contract_witness :
    DecryptTitlekeysFile xorCtrEngine 1024 okFiles zeroHw { n_entries := 0, entries := [] }
      = some { code := 1, hw := zeroHw, decrypted := [], created := false, written := none }
    ∧ ∃ hw1 es, DecryptTitlekeysFile xorCtrEngine 1024 okFiles zeroHw demoBundle
        = some { code := 0, hw := hw1, decrypted := es, created := true,
                 written := some { n_entries := demoBundle.n_entries, entries := es } }
      ∧ es.length = demoBundle.n_entries
      ∧ es.map some = (demoBundle.entries.take demoBundle.n_entries).map
          (fun e => (DecryptTitlekey xorCtrEngine zeroHw e).map Prod.snd) :=
  ⟨(DecryptTitlekeysFile_contract xorCtrEngine 1024 okFiles zeroHw
      { n_entries := 0, entries := [] }).1 (Or.inl rfl),
    (DecryptTitlekeysFile_contract xorCtrEngine 1024 okFiles zeroHw demoBundle).2
      (by decide) rfl (fun _ _ => rfl) rfl (fun _ _ => rfl) (by decide) (by decide)⟩

/-! ## The bundle `DecryptTitlekeysNand` writes -/

theorem DecryptTitlekey_rawEntryAt (E : AesEngine) (hw : AesHw) (buffer : Nat → Nat) (i : Nat)
    (hidx : buffer (i + 0xB1) < 6) :
    ∃ hw1, DecryptTitlekey E hw (rawEntryAt buffer i) = some (hw1, entryAt E buffer i) := by
  obtain ⟨row, hrow, hlen⟩ := common_keyy_row _ hidx
  have h := DecryptTitlekey_some E hw (rawEntryAt buffer i) row hrow
  have hm : memcpy (List.replicate 16 0) row 16 = row := by
    unfold memcpy
    rw [List.take_of_length_le (by omega)]
    simp [hlen]
  have hc : memcpy (List.replicate 16 0) (readBytes buffer (i + 0x9C) 8) 8
      = readBytes buffer (i + 0x9C) 8 ++ List.replicate 8 0 := by
    unfold memcpy
    rw [List.take_of_length_le (by rw [readBytes_length])]
    simp
  have hg : common_keyy.getD (buffer (i + 0xB1)) [] = row := by
    have hrow2 : common_keyy[buffer (i + 0xB1)]? = some row := hrow
    simp [List.getD, hrow2]
  refine ⟨use_aeskey (setup_aeskey (set_ctr hw
    (memcpy (List.replicate 16 0) (rawEntryAt buffer i).titleId 8)) 0x3D
    (memcpy (List.replicate 16 0) row 16)) 0x3D, ?_⟩
  rw [h]
  simp only [rawEntryAt, entryAt, hm, hc, hg]

/-- One stride of the scan, in full: the entries are unchanged unless the stride carries the
issuer string and a title identifier not yet in the bundle, in which case the stride's decrypted
record is appended. -/
theorem DecryptTitlekeysNand.body_eq (E : AesEngine) (buffer : Nat → Nat) (i : Nat)
    (hw : AesHw) (es : List TitleKeyEntry) (hlen : ∀ e ∈ es, e.titleId.length = 8) :
    (¬ (isTicket buffer i = true ∧ titleIdAt buffer i ∉ es.map (fun e => e.titleId)) →
      DecryptTitlekeysNand.body E buffer i hw es = some (hw, es))
    ∧ (isTicket buffer i = true → titleIdAt buffer i ∉ es.map (fun e => e.titleId) →
        buffer (i + 0xB1) < 6 →
        ∃ hw1, DecryptTitlekeysNand.body E buffer i hw es
          = some (hw1, es ++ [entryAt E buffer i])) := by
  have ht8 : (readBytes buffer (i + 0x9C) 8).take 8 = readBytes buffer (i + 0x9C) 8 :=
    List.take_of_length_le (by rw [readBytes_length])
  have hm8 : memcpy (List.replicate 8 0) (readBytes buffer (i + 0x9C) 8) 8
      = readBytes buffer (i + 0x9C) 8 := by
    unfold memcpy; rw [ht8]; simp
  have hm16 : memcpy (List.replicate 16 0) (readBytes buffer (i + 0x7F) 16) 16
      = readBytes buffer (i + 0x7F) 16 := by
    unfold memcpy
    rw [List.take_of_length_le (by rw [readBytes_length])]
    simp
  have hex : DecryptTitlekeysNand.findExid (readBytes buffer (i + 0x9C) 8) es 0 < es.length
      ↔ titleIdAt buffer i ∈ es.map (fun e => e.titleId) := by
    have h := DecryptTitlekeysNand.findExid_lt_iff (readBytes buffer (i + 0x9C) 8) es 0
    rw [Nat.zero_add, ht8] at h
    rw [h, List.mem_map]
    constructor
    · rintro ⟨e, he, heq⟩
      refine ⟨e, he, ?_⟩
      rw [List.take_of_length_le (by rw [hlen e he])] at heq
      exact heq.symm
    · rintro ⟨e, he, heq⟩
      refine ⟨e, he, ?_⟩
      rw [List.take_of_length_le (by rw [hlen e he])]
      exact heq.symm
  constructor
  · intro hno
    unfold DecryptTitlekeysNand.body
    by_cases htk : memcmp_eq (readBytes buffer i 26) issuer = true
    · have hin : titleIdAt buffer i ∈ es.map (fun e => e.titleId) := by
        by_contra hc
        exact hno ⟨htk, hc⟩
      simp only [htk, if_true, hex.mpr hin]
    · simp only [htk, Bool.false_eq_true, if_false]
  · intro htk hnew hidx
    obtain ⟨hw1, hd⟩ := DecryptTitlekey_rawEntryAt E hw buffer i hidx
    refine ⟨hw1, ?_⟩
    have htk2 : memcmp_eq (readBytes buffer i 26) issuer = true := htk
    have hnex : ¬ DecryptTitlekeysNand.findExid (readBytes buffer (i + 0x9C) 8) es 0
        < es.length := fun h => hnew (hex.mp h)
    unfold DecryptTitlekeysNand.body
    simp only [htk2, if_true, hnex, if_false, hm8, hm16]
    unfold rawEntryAt at hd
    rw [hd]

/-- The scan over a list of strides appends, in order, the decrypted records of the strides at
which a new title identifier is met. -/
theorem scanStrides_firstNew (E : AesEngine) (buffer : Nat → Nat) :
    ∀ (l : List Nat) (hw : AesHw) (es : List TitleKeyEntry),
      (∀ e ∈ es, e.titleId.length = 8) →
      (∀ i ∈ firstNew buffer l (es.map (fun e => e.titleId)), buffer (i + 0xB1) < 6) →
      ∃ hw1, scanStrides E buffer l hw es
        = some (hw1, es ++ (firstNew buffer l (es.map (fun e => e.titleId))).map
            (entryAt E buffer)) := by
  intro l
  induction l with
  | nil => intro hw es _ _; exact ⟨hw, by simp [scanStrides, firstNew]⟩
  | cons i rest ih =>
    intro hw es hlen hidx
    obtain ⟨hskip, hadd⟩ := DecryptTitlekeysNand.body_eq E buffer i hw es hlen
    by_cases hc : isTicket buffer i = true ∧ titleIdAt buffer i ∉ es.map (fun e => e.titleId)
    · have hcond : (isTicket buffer i
          && !(decide (titleIdAt buffer i ∈ es.map (fun e => e.titleId)))) = true := by
        simp [hc.1, hc.2]
      have hfn : firstNew buffer (i :: rest) (es.map (fun e => e.titleId))
          = i :: firstNew buffer rest (es.map (fun e => e.titleId) ++ [titleIdAt buffer i]) := by
        rw [firstNew, if_pos hcond]
      rw [hfn] at hidx ⊢
      obtain ⟨hw1, hb⟩ := hadd hc.1 hc.2 (hidx i (List.mem_cons_self _ _))
      have hmap : (es ++ [entryAt E buffer i]).map (fun e => e.titleId)
          = es.map (fun e => e.titleId) ++ [titleIdAt buffer i] := by
        simp [entryAt, titleIdAt]
      have hlen2 : ∀ e ∈ es ++ [entryAt E buffer i], e.titleId.length = 8 := by
        intro e he
        rcases List.mem_append.mp he with h | h
        · exact hlen e h
        · rw [List.mem_singleton.mp h]
          simp [entryAt, readBytes_length]
      obtain ⟨hw2, hr⟩ := ih hw1 (es ++ [entryAt E buffer i]) hlen2 (by
        rw [hmap]
        exact fun j hj => hidx j (List.mem_cons_of_mem _ hj))
      refine ⟨hw2, ?_⟩
      rw [scanStrides, hb]
      simp only [hr, hmap, List.map_cons, List.append_assoc, List.singleton_append]
    · have hcond : ¬ (isTicket buffer i
          && !(decide (titleIdAt buffer i ∈ es.map (fun e => e.titleId)))) = true := by
        intro h
        simp only [Bool.and_eq_true, Bool.not_eq_true', decide_eq_false_iff_not] at h
        exact hc h
      have hfn : firstNew buffer (i :: rest) (es.map (fun e => e.titleId))
          = firstNew buffer rest (es.map (fun e => e.titleId)) := by
        rw [firstNew, if_neg hcond]
      rw [hfn] at hidx ⊢
      obtain ⟨hw2, hr⟩ := ih hw es hlen hidx
      refine ⟨hw2, ?_⟩
      rw [scanStrides, hskip hc]
      exact hr

/-- On strides in increasing order, the strides at which the scan appends an entry are those
that carry the issuer string and a title identifier neither seen before the scan nor carried by
a ticket stride before them. -/
theorem firstNew_eq_filter (buffer : Nat → Nat) :
    ∀ (l : List Nat) (seen : List (List Nat)), l.Pairwise (· < ·) →
      firstNew buffer l seen
        = l.filter (fun i => isTicket buffer i && !(decide (titleIdAt buffer i ∈ seen))
            && !(l.any (fun j => decide (j < i) && isTicket buffer j
                  && decide (titleIdAt buffer j = titleIdAt buffer i)))) := by
  intro l
  induction l with
  | nil => intro seen _; rfl
  | cons a rest ih =>
    intro seen hp
    have hgt : ∀ j ∈ rest, a < j := (List.pairwise_cons.mp hp).1
    have hrest : rest.Pairwise (· < ·) := (List.pairwise_cons.mp hp).2
    have hany_a : (a :: rest).any (fun j => decide (j < a) && isTicket buffer j
        && decide (titleIdAt buffer j = titleIdAt buffer a)) = false := by
      apply Bool.eq_false_iff.mpr
      intro h
      rw [List.any_eq_true] at h
      obtain ⟨j, hj, hjp⟩ := h
      simp only [Bool.and_eq_true, decide_eq_true_eq] at hjp
      rcases List.mem_cons.mp hj with h | h
      · omega
      · have := hgt j h; omega
    by_cases hc : (isTicket buffer a && !(decide (titleIdAt buffer a ∈ seen))) = true
    · rw [firstNew, if_pos hc, List.filter_cons, hany_a, hc, ih _ hrest]
      simp only [Bool.not_false, Bool.and_true, if_true]
      congr 1
      apply List.filter_congr
      intro i hi
      have hai : a < i := hgt i hi
      simp only [Bool.and_eq_true, Bool.not_eq_true', decide_eq_false_iff_not] at hc
      simp only [List.any_cons, hai, decide_True, Bool.true_and, hc.1, List.mem_append,
        List.mem_singleton]
      by_cases heq : titleIdAt buffer a = titleIdAt buffer i
      · simp [heq]
      · have heq2 : ¬ titleIdAt buffer i = titleIdAt buffer a := fun h => heq h.symm
        simp [heq, heq2]
    · rw [firstNew, if_neg hc, List.filter_cons, ih _ hrest]
      have hfa : (isTicket buffer a && !(decide (titleIdAt buffer a ∈ seen))
          && !((a :: rest).any (fun j => decide (j < a) && isTicket buffer j
                && decide (titleIdAt buffer j = titleIdAt buffer a)))) = false := by
        cases hx : (isTicket buffer a && !(decide (titleIdAt buffer a ∈ seen))) with
        | true => exact absurd hx hc
        | false => rfl
      rw [hfa]
      simp only [Bool.false_eq_true, if_false]
      apply List.filter_congr
      intro i hi
      have hai : a < i := hgt i hi
      simp only [List.any_cons, hai, decide_True, Bool.true_and]
      by_cases hta : isTicket buffer a = true
      · have hseen : titleIdAt buffer a ∈ seen := by
          by_contra hns
          exact hc (by simp [hta, hns])
        by_cases heq : titleIdAt buffer a = titleIdAt buffer i
        · have : titleIdAt buffer i ∈ seen := heq ▸ hseen
          simp [this]
        · simp [heq]
      · simp [hta]

theorem strides_pairwise : strides.Pairwise (· < ·) := by
  unfold strides
  rw [List.pairwise_map]
  exact (List.pairwise_lt_range 3327).imp (fun h => by omega)

theorem firstNew_strides (buffer : Nat → Nat) :
    firstNew buffer strides [] = firstStrides buffer := by
  rw [firstNew_eq_filter buffer strides [] strides_pairwise, firstStrides]
  apply List.filter_congr
  intro i _
  simp

/-- The scan returns whenever the common-key indices at the strides of first occurrence are rows
of the table, and the bundle it builds holds the decrypted records of those strides, in order. -/
theorem DecryptTitlekeysNand.scan_firstStrides (E : AesEngine) (hw : AesHw) (buffer : Nat → Nat)
    (hidx : ∀ i ∈ firstStrides buffer, buffer (i + 0xB1) < 6) :
    ∃ hw1, DecryptTitlekeysNand.scan E hw buffer
      = some (hw1, { n_entries := (firstStrides buffer).length,
                     entries := (firstStrides buffer).map (entryAt E buffer) }) := by
  obtain ⟨hw1, h⟩ := scanStrides_firstNew E buffer strides hw [] (by simp) (by
    simp only [List.map_nil]
    rw [firstNew_strides]
    exact hidx)
  simp only [List.map_nil, List.nil_append] at h
  rw [firstNew_strides] at h
  refine ⟨hw1, ?_⟩
  rw [DecryptTitlekeysNand.scan_eq, h]
  simp

/-- C19: for every ticket memory whose strides of first occurrence carry common-key indices that
are rows of the table, `DecryptTitlekeysNand`, once the ticket memory is in place, returns, and
the bundle it writes holds exactly one entry per stride of first occurrence (the strides
`0x158 + 0x200 * k` below `2 * 0xD0000 - 0x200` that carry the issuer string and a title
identifier carried by no such stride before them), in stride order; each entry is what
`DecryptTitlekey` returns on the record read from that stride at `i + 0x9C` (8 bytes), `i + 0xB1`
(1 byte) and `i + 0x7F` (16 bytes); the count header is the number of entries; the title
identifiers of the entries are pairwise distinct and every title identifier of a ticket stride
is among them. With at least one such stride and the file operations succeeding the bundle is
written and the return code is 0. -/
theorem DecryptTitlekeysNand_bundle (E : AesEngine) (fl : FileLayer) (hw : AesHw)
    (buffer : Nat → Nat) (hidx : ∀ i ∈ firstStrides buffer, buffer (i + 0xB1) < 6) :
    ∃ r, DecryptTitlekeysNand.fromTickets E fl hw buffer = some r
      ∧ (∀ info, r.written = some info →
          info.entries = (firstStrides buffer).map (entryAt E buffer)
          ∧ info.n_entries = info.entries.length)
      ∧ (firstStrides buffer ≠ [] → fl.createOk "/decTitleKeys.bin" = true →
          (∀ sz off, fl.writeOk sz off = true) →
          r.code = 0
          ∧ r.written = some { n_entries := (firstStrides buffer).length,
                               entries := (firstStrides buffer).map (entryAt E buffer) })
      ∧ (∀ i ∈ firstStrides buffer,
          (DecryptTitlekey E hw (rawEntryAt buffer i)).map Prod.snd = some (entryAt E buffer i))
      ∧ ((firstStrides buffer).map (titleIdAt buffer)).Nodup
      ∧ ∀ i ∈ strides, isTicket buffer i = true →
          titleIdAt buffer i ∈ (firstStrides buffer).map (titleIdAt buffer) := by
  obtain ⟨hw1, hscan⟩ := DecryptTitlekeysNand.scan_firstStrides E hw buffer hidx
  obtain ⟨hgood, -, -, hall⟩ := DecryptTitlekeysNand.scan_inv E hw hw1 buffer _ hscan
  have hmap : ((firstStrides buffer).map (entryAt E buffer)).map (fun e => e.titleId)
      = (firstStrides buffer).map (titleIdAt buffer) := by
    rw [List.map_map]
    rfl
  simp only [hmap] at hall
  have hnodup := hgood.1
  simp only [hmap] at hnodup
  have hdec : ∀ i ∈ firstStrides buffer,
      (DecryptTitlekey E hw (rawEntryAt buffer i)).map Prod.snd = some (entryAt E buffer i) := by
    intro i hi
    obtain ⟨hw2, h⟩ := DecryptTitlekey_rawEntryAt E hw buffer i (hidx i hi)
    rw [h]
    rfl
  unfold DecryptTitlekeysNand.fromTickets
  simp only [hscan]
  by_cases hn : (firstStrides buffer).length > 0
  · rw [if_pos hn]
    by_cases hcr : (!fl.createOk "/decTitleKeys.bin") = true
    · rw [if_pos hcr]
      refine ⟨_, rfl, fun info h => absurd h (by simp), fun _ hc _ => ?_, hdec, hnodup, hall⟩
      rw [hc] at hcr
      exact absurd hcr (by simp)
    · rw [if_neg hcr]
      by_cases hwr : (!fl.writeOk (0x10 + (firstStrides buffer).length * 0x20) 0) = true
      · rw [if_pos hwr]
        refine ⟨_, rfl, fun info h => absurd h (by simp), fun _ _ hw => ?_, hdec, hnodup, hall⟩
        rw [hw] at hwr
        exact absurd hwr (by simp)
      · rw [if_neg hwr]
        refine ⟨_, rfl, fun info h => ?_, fun _ _ _ => ⟨rfl, rfl⟩, hdec, hnodup, hall⟩
        simp only [Option.some.injEq] at h
        rw [← h]
        simp
  · rw [if_neg hn]
    refine ⟨_, rfl, fun info h => absurd h (by simp), fun hne _ _ => ?_, hdec, hnodup, hall⟩
    exact absurd (List.length_pos.mpr hne) hn

/-- C19 at a ticket memory that holds the same record in its first two strides: the stride of
first occurrence is the first one, and the bundle written has that one entry. -/
theorem DecryptTitlekeysNand_bundle_witness :
    firstStrides dupBuf = [0x158]
    ∧ ∃ r, DecryptTitlekeysNand.fromTickets xorCtrEngine okFiles zeroHw dupBuf = some r
      ∧ (∀ info, r.written = some info →
          info.entries = (firstStrides dupBuf).map (entryAt xorCtrEngine dupBuf)
          ∧ info.n_entries = info.entries.length)
      ∧ (firstStrides dupBuf ≠ [] → okFiles.createOk "/decTitleKeys.bin" = true →
          (∀ sz off, okFiles.writeOk sz off = true) →
          r.code = 0
          ∧ r.written = some { n_entries := (firstStrides dupBuf).length,
                               entries := (firstStrides dupBuf).map (entryAt xorCtrEngine dupBuf) })
      ∧ (∀ i ∈ firstStrides dupBuf,
          (DecryptTitlekey xorCtrEngine zeroHw (rawEntryAt dupBuf i)).map Prod.snd
            = some (entryAt xorCtrEngine dupBuf i))
      ∧ ((firstStrides dupBuf).map (titleIdAt dupBuf)).Nodup
      ∧ ∀ i ∈ strides, isTicket dupBuf i = true →
          titleIdAt dupBuf i ∈ (firstStrides dupBuf).map (titleIdAt dupBuf) :=
  ⟨by decide,
    DecryptTitlekeysNand_bundle xorCtrEngine okFiles zeroHw dupBuf (by
      intro i hi
      obtain ⟨k, _, rfl⟩ := (mem_strides i).mp (List.mem_of_mem_filter hi)
      unfold dupBuf
      rw [ticketBuf_at _ _ _ k 0xB1 (by norm_num)]
      split <;> simp)⟩

/-! ## `DecryptNandToFile` -/

theorem chunk_size_eq : NAND_SECTOR_SIZE * SECTORS_PER_READ = 1048576 := by
  norm_num [NAND_SECTOR_SIZE, SECTORS_PER_READ, BUFFER_MAX_SIZE]

theorem nandPlain_length (E : AesEngine) (C : Console) (nand : Nat → Nat) (keyY : List Nat)
    (partition : PartitionInfo) (offset size : Nat) (h16 : 16 ∣ size) :
    (nandPlain E C nand keyY partition offset size).length = size := by
  unfold nandPlain
  rw [ctrRun_length _ _ _ _ _ _ _ (by rw [readBytes_length]; omega), readBytes_length]

/-- On a sector-aligned window `DecryptNandToMem` returns 0, leaves the plaintext of the window
at the start of the buffer, what followed in the buffer untouched, and every key slot as it
was. -/
theorem DecryptNandToMem_run (E : AesEngine) (C : Console) (nand : Nat → Nat) (hw : AesHw)
    (buffer : List Nat) (offset size : Nat) (partition : PartitionInfo)
    (ho : 0x200 ∣ offset) (hs : 0x200 ∣ size) (h32 : size < 2 ^ 32) :
    ∃ hw1, DecryptNandToMem E C nand hw buffer offset size partition
        = some (0, hw1,
            nandPlain E C nand (hw.keyY partition.keyslot) partition offset size
              ++ buffer.drop size)
      ∧ hw1.keyY = hw.keyY := by
  obtain ⟨a, ha⟩ := ho
  obtain ⟨b, hb⟩ := hs
  have hbuf : sdmmc_nand_readsectors nand (offset / NAND_SECTOR_SIZE) (size / NAND_SECTOR_SIZE)
      buffer = readBytes nand offset size ++ buffer.drop size := by
    have h1 : offset / 0x200 * 0x200 = offset := by omega
    have h2 : size / 0x200 * 0x200 = size := by omega
    unfold sdmmc_nand_readsectors memcpy NAND_SECTOR_SIZE
    rw [h1, h2, List.take_of_length_le (by rw [readBytes_length])]
  obtain ⟨hw1, h1, _, hk⟩ := DecryptBuffer_eq E hw
    { keyslot := partition.keyslot, setKeyY := 0,
      CTR := GetNandCtr C (List.replicate 16 0) offset,
      keyY := List.replicate 16 0, size := size,
      buffer := readBytes nand offset size ++ buffer.drop size, mode := partition.mode }
    ⟨32 * b, by simp only; omega⟩ h32
  refine ⟨hw1, ?_, by simpa using hk⟩
  unfold DecryptNandToMem
  simp only [hbuf, h1]
  have hlen : (readBytes nand offset size).length = 16 * (size / 16) := by
    rw [readBytes_length]; omega
  simp [nandPlain, ctrRun_append E _ _ _ _ _ _ _ hlen]

theorem readBytes_take (f : Nat → Nat) (p a b : Nat) :
    (readBytes f p (a + b)).take a = readBytes f p a := by
  unfold readBytes
  rw [← List.map_take, List.take_range, Nat.min_eq_left (by omega)]

/-- The plaintext of a sub-range is the corresponding slice of the plaintext of the range, on
either side of the counter-regime boundary. -/
theorem nandPlain_slice (E : AesEngine) (C : Console) (nand : Nat → Nat) (keyY : List Nat)
    (partition : PartitionInfo) (offset size i rb : Nat)
    (hi : 16 ∣ i) (hrb : 16 ∣ rb) (hsize : 16 ∣ size) (hle : i + rb ≤ size) (hlt : i < size)
    (hreg : 0x0B100000 ≤ offset ∨ offset + size ≤ 0x0B100000) :
    ((nandPlain E C nand keyY partition offset size).drop i).take rb
      = nandPlain E C nand keyY partition (offset + i) rb := by
  obtain ⟨a, ha⟩ := hi
  obtain ⟨b, hb⟩ := hrb
  obtain ⟨s, hs⟩ := hsize
  have hctr : ctrAfter a (GetNandCtr C (List.replicate 16 0) offset)
      = GetNandCtr C (List.replicate 16 0) (offset + i) := by
    by_cases h0 : i = 0
    · have : a = 0 := by omega
      subst this
      rw [h0]
      rfl
    · have := GetNandCtr_advance C (List.replicate 16 0) offset (offset + i) (by omega)
        ⟨a, by omega⟩ (by omega)
      have hq : (offset + i - offset) / 16 = a := by omega
      rw [hq] at this
      exact this
  unfold nandPlain
  have hq1 : size / 16 = a + (b + (s - a - b)) := by omega
  have hq2 : rb / 16 = b := by omega
  have hsz : size = i + (rb + (size - i - rb)) := by omega
  rw [hq1, hq2, ha, ctrRun_drop, hctr, ← ha]
  have hd : (readBytes nand offset size).drop i
      = readBytes nand (offset + i) (rb + (size - i - rb)) := by
    conv_lhs => rw [hsz]
    exact readBytes_drop nand offset i _
  rw [hd, hb, ctrRun_take, ← hb]
  have hsplit : readBytes nand (offset + i) (rb + (size - i - rb))
      = readBytes nand (offset + i) rb ++ readBytes nand (offset + i + rb) (size - i - rb) := by
    conv_lhs => rw [← List.take_append_drop rb
      (readBytes nand (offset + i) (rb + (size - i - rb)))]
    rw [readBytes_take, readBytes_drop]
  rw [hsplit, ctrRun_append E _ _ _ _ _ _ _ (by rw [readBytes_length]; exact hb)]
  rw [List.take_append_of_le_length (by
    rw [ctrRun_length _ _ _ _ _ _ _ (by rw [readBytes_length]; omega), readBytes_length])]
  rw [List.take_of_length_le (by
    rw [ctrRun_length _ _ _ _ _ _ _ (by rw [readBytes_length]; omega), readBytes_length])]

theorem fileChunks_succ (P : List Nat) (c n : Nat) :
    fileChunks P c (n + 1)
      = (c * 1048576, (P.drop (c * 1048576)).take 1048576) :: fileChunks P (c + 1) n := by
  simp [fileChunks, List.range'_succ]

theorem fileChunks_snoc (P : List Nat) (k : Nat) :
    fileChunks P 0 (k + 1)
      = fileChunks P 0 k ++ [(k * 1048576, (P.drop (k * 1048576)).take 1048576)] := by
  simp [fileChunks, List.range'_concat]

/-- The file made of the first `k` chunk writes of `P` is the start of `P`. -/
theorem fileOf_fileChunks (P : List Nat) (k : Nat) (hk : k ≤ (P.length + 1048575) / 1048576) :
    fileOf (fileChunks P 0 k) = P.take (k * 1048576) := by
  induction k with
  | zero => simp [fileChunks, fileOf]
  | succ j ih =>
    have hj : j * 1048576 < P.length := by omega
    have hlen : (P.take (j * 1048576)).length = j * 1048576 := by
      rw [List.length_take]; omega
    rw [fileChunks_snoc]
    unfold fileOf at ih ⊢
    rw [List.foldl_append, ih (by omega), List.foldl_cons, List.foldl_nil]
    simp only
    have hp := pwrite_at_end (P.take (j * 1048576)) ((P.drop (j * 1048576)).take 1048576)
    rw [hlen] at hp
    have : (j + 1) * 1048576 = j * 1048576 + 1048576 := by ring
    rw [hp, this, List.take_add]

/-- The chunk loop of `DecryptNandToFile` on a sector-aligned range: it returns, having written
the first chunks of the plaintext of the range, all of them unless a write failed. -/
theorem DecryptNandToFile.loop_eq (E : AesEngine) (C : Console) (nand : Nat → Nat)
    (fl : FileLayer) (offset size : Nat) (partition : PartitionInfo) (keyY : List Nat)
    (ho : 0x200 ∣ offset) (hs : 0x200 ∣ size)
    (hreg : 0x0B100000 ≤ offset ∨ offset + size ≤ 0x0B100000)
    (h32 : offset + size ≤ 2 ^ 32) (hsz : size ≤ 2 ^ 32 - 2 ^ 20) (r : Nat) :
    ∀ (fuel c : Nat) (hw : AesHw) (buffer : List Nat) (ws : Writes),
      r < fuel → c + r = (size + 1048575) / 1048576 → hw.keyY partition.keyslot = keyY →
      ∃ rc hw1 buffer1 j,
        DecryptNandToFile.loop E C nand fl offset size partition fuel (c * 1048576) hw buffer ws
          = some (rc, hw1, buffer1,
              ws ++ fileChunks (nandPlain E C nand keyY partition offset size) c j)
        ∧ j ≤ r ∧ (rc = 0 ∧ j = r ∨ rc = 1 ∧ j < r)
        ∧ ((∀ sz off, fl.writeOk sz off = true) → rc = 0)
        ∧ hw1.keyY = hw.keyY := by
  induction r with
  | zero =>
    intro fuel c hw buffer ws hf hc hk
    obtain ⟨f, rfl⟩ : ∃ f, fuel = f + 1 := ⟨fuel - 1, by omega⟩
    have hge : ¬ c * 1048576 < size := by omega
    refine ⟨0, hw, buffer, 0, ?_, le_refl _, Or.inl ⟨rfl, rfl⟩, fun _ => rfl, rfl⟩
    simp [DecryptNandToFile.loop, hge, fileChunks]
  | succ m ih =>
    intro fuel c hw buffer ws hf hc hk
    obtain ⟨f, rfl⟩ : ∃ f, fuel = f + 1 := ⟨fuel - 1, by omega⟩
    have hlt : c * 1048576 < size := by omega
    obtain ⟨sz, hsz2⟩ := hs
    obtain ⟨oz, hoz⟩ := ho
    have hrbdvd : 0x200 ∣ min 1048576 (size - c * 1048576) := by
      rcases Nat.le_total 1048576 (size - c * 1048576) with h | h
      · rw [Nat.min_eq_left h]; exact ⟨2048, by norm_num⟩
      · rw [Nat.min_eq_right h]; exact ⟨sz - c * 2048, by omega⟩
    have hoff : (offset + c * 1048576) % 2 ^ 32 = offset + c * 1048576 :=
      Nat.mod_eq_of_lt (by omega)
    have hnext : (c * 1048576 + 1048576) % 2 ^ 32 = (c + 1) * 1048576 := by
      rw [Nat.mod_eq_of_lt (by omega)]; ring
    obtain ⟨hw1, hrun, hkey⟩ := DecryptNandToMem_run E C nand hw buffer
      (offset + c * 1048576) (min 1048576 (size - c * 1048576)) partition
      ⟨oz + c * 2048, by omega⟩ hrbdvd (by omega)
    have hrb16 : 16 ∣ min 1048576 (size - c * 1048576) :=
      Nat.dvd_trans ⟨32, by norm_num⟩ hrbdvd
    have hplen := nandPlain_length E C nand (hw.keyY partition.keyslot) partition
      (offset + c * 1048576) (min 1048576 (size - c * 1048576)) hrb16
    have hslice := nandPlain_slice E C nand keyY partition offset size (c * 1048576)
      (min 1048576 (size - c * 1048576)) ⟨c * 65536, by omega⟩ hrb16 ⟨sz * 32, by omega⟩
      (by omega) hlt hreg
    have hfull := nandPlain_length E C nand keyY partition offset size ⟨sz * 32, by omega⟩
    have htake : ((nandPlain E C nand keyY partition offset size).drop (c * 1048576)).take
        (min 1048576 (size - c * 1048576))
        = ((nandPlain E C nand keyY partition offset size).drop (c * 1048576)).take
            1048576 := by
      rcases Nat.le_total 1048576 (size - c * 1048576) with h | h
      · rw [Nat.min_eq_left h]
      · rw [Nat.min_eq_right h, List.take_of_length_le (by rw [List.length_drop, hfull]),
          List.take_of_length_le (by rw [List.length_drop, hfull]; omega)]
    have hchunk : (nandPlain E C nand (hw.keyY partition.keyslot) partition
        (offset + c * 1048576) (min 1048576 (size - c * 1048576))
        ++ buffer.drop (min 1048576 (size - c * 1048576))).take
          (min 1048576 (size - c * 1048576))
        = ((nandPlain E C nand keyY partition offset size).drop (c * 1048576)).take
            1048576 := by
      rw [List.take_append_of_le_length (by omega), List.take_of_length_le (by omega), hk,
        ← hslice, htake]
    rw [DecryptNandToFile.loop, if_pos hlt]
    simp only [chunk_size_eq, hoff, hrun, hnext]
    by_cases hwr : (!fl.writeOk (min 1048576 (size - c * 1048576)) (c * 1048576)) = true
    · rw [if_pos hwr]
      refine ⟨1, hw1, nandPlain E C nand (hw.keyY partition.keyslot) partition
          (offset + c * 1048576) (min 1048576 (size - c * 1048576))
          ++ buffer.drop (min 1048576 (size - c * 1048576)), 0, ?_, by omega,
        Or.inr ⟨rfl, by omega⟩, fun hall => ?_, hkey⟩
      · simp [fileChunks]
      · rw [hall] at hwr
        exact absurd hwr (by simp)
    · rw [if_neg hwr, hchunk]
      obtain ⟨rc, hw2, buffer2, j, hloop, hj, hrc, hall, hkey2⟩ := ih f (c + 1) hw1
        (nandPlain E C nand (hw.keyY partition.keyslot) partition
          (offset + c * 1048576) (min 1048576 (size - c * 1048576))
          ++ buffer.drop (min 1048576 (size - c * 1048576)))
        (ws ++ [(c * 1048576,
          ((nandPlain E C nand keyY partition offset size).drop (c * 1048576)).take 1048576)])
        (by omega) (by omega) (by rw [hkey]; exact hk)
      refine ⟨rc, hw2, buffer2, j + 1, ?_, by omega, ?_, hall, by rw [hkey2, hkey]⟩
      · rw [hloop, fileChunks_succ]
        simp
      · rcases hrc with ⟨h1, h2⟩ | ⟨h1, h2⟩
        · exact Or.inl ⟨h1, by omega⟩
        · exact Or.inr ⟨h1, by omega⟩

/-- On a sector-aligned range that stays on one side of the counter-regime boundary and within
the `u32` bounds, `DecryptNandToFile` returns, whatever the file layer does, with code 0 or 1 and
every key slot as it was. -/
theorem DecryptNandToFile_total (E : AesEngine) (C : Console) (nand : Nat → Nat)
    (fl : FileLayer) (hw : AesHw) (buffer : List Nat) (filename : String) (offset size : Nat)
    (partition : PartitionInfo) (ho : 0x200 ∣ offset) (hs : 0x200 ∣ size)
    (hreg : 0x0B100000 ≤ offset ∨ offset + size ≤ 0x0B100000)
    (h32 : offset + size ≤ 2 ^ 32) (hsz : size ≤ 2 ^ 32 - 2 ^ 20) :
    ∃ rc hw1 buffer1 ws,
      DecryptNandToFile E C nand fl hw buffer filename offset size partition
        = some (rc, hw1, buffer1, ws)
      ∧ (rc = 0 ∨ rc = 1) ∧ hw1.keyY = hw.keyY := by
  unfold DecryptNandToFile
  by_cases hc : (!fl.createOk filename) = true
  · rw [if_pos hc]
    exact ⟨1, hw, buffer, [], rfl, Or.inr rfl, rfl⟩
  · rw [if_neg hc]
    obtain ⟨rc, hw1, buffer1, j, hloop, -, hrc, -, hkey⟩ :=
      DecryptNandToFile.loop_eq E C nand fl offset size partition (hw.keyY partition.keyslot)
        ho hs hreg h32 hsz ((size + 1048575) / 1048576) DecryptNandToFile.fuel 0 hw buffer []
        (by norm_num [DecryptNandToFile.fuel, chunk_size_eq]; omega) (by omega) rfl
    rw [Nat.zero_mul] at hloop
    refine ⟨rc, hw1, buffer1, _, hloop, ?_, hkey⟩
    rcases hrc with ⟨h, -⟩ | ⟨h, -⟩
    · exact Or.inl h
    · exact Or.inr h

/-- C18 (amended): for a byte range `(offset, size)` with `offset` and `size` multiples of the
sector size 0x200, lying on one side of the counter-regime boundary 0x0B100000, with
`offset + size ≤ 2 ^ 32` and `size ≤ 2 ^ 32 - 2 ^ 20`, when the file operations succeed,
`DecryptNandToFile` returns 0; the file written is `size` bytes long and equals both the
plaintext of the device bytes `[offset, offset + size)` and what a single `DecryptNandToMem` of
the whole range leaves; the writes are the chunks of that plaintext, chunk `t` of at most
1 MiB (`BUFFER_MAX_SIZE`) at file position `t * 1 MiB`, its offset within the range. -/
theorem DecryptNandToFile_eq_window (E : AesEngine) (C : Console) (nand : Nat → Nat)
    (fl : FileLayer) (hw : AesHw) (buffer : List Nat) (filename : String) (offset size : Nat)
    (partition : PartitionInfo) (ho : 0x200 ∣ offset) (hs : 0x200 ∣ size)
    (hreg : 0x0B100000 ≤ offset ∨ offset + size ≤ 0x0B100000)
    (h32 : offset + size ≤ 2 ^ 32) (hsz : size ≤ 2 ^ 32 - 2 ^ 20)
    (hcreate : fl.createOk filename = true) (hwrite : ∀ sz off, fl.writeOk sz off = true) :
    ∃ hw1 buffer1 ws hw2,
      DecryptNandToFile E C nand fl hw buffer filename offset size partition
        = some (0, hw1, buffer1, ws)
      ∧ (fileOf ws).length = size
      ∧ fileOf ws = nandPlain E C nand (hw.keyY partition.keyslot) partition offset size
      ∧ DecryptNandToMem E C nand hw [] offset size partition = some (0, hw2, fileOf ws)
      ∧ ws = (List.range ((size + 1048575) / 1048576)).map
          (fun t => (t * 1048576, ((fileOf ws).drop (t * 1048576)).take 1048576))
      ∧ ∀ w ∈ ws, w.2.length ≤ BUFFER_MAX_SIZE := by
  obtain ⟨sz, hsz2⟩ := hs
  have hplen := nandPlain_length E C nand (hw.keyY partition.keyslot) partition offset size
    ⟨sz * 32, by omega⟩
  obtain ⟨rc, hw1, buffer1, j, hloop, -, hrc, hall, -⟩ :=
    DecryptNandToFile.loop_eq E C nand fl offset size partition (hw.keyY partition.keyslot)
      ho ⟨sz, hsz2⟩ hreg h32 hsz ((size + 1048575) / 1048576) DecryptNandToFile.fuel 0 hw
      buffer [] (by norm_num [DecryptNandToFile.fuel, chunk_size_eq]; omega) (by omega) rfl
  have hrc0 := hall hwrite
  have hj : j = (size + 1048575) / 1048576 := by
    rcases hrc with ⟨-, h⟩ | ⟨h, -⟩
    · exact h
    · omega
  rw [Nat.zero_mul, List.nil_append, hrc0, hj] at hloop
  have hfile : fileOf (fileChunks
      (nandPlain E C nand (hw.keyY partition.keyslot) partition offset size) 0
      ((size + 1048575) / 1048576))
      = nandPlain E C nand (hw.keyY partition.keyslot) partition offset size := by
    rw [fileOf_fileChunks _ _ (by rw [hplen]), List.take_of_length_le (by rw [hplen]; omega)]
  obtain ⟨hw2, hmem, -⟩ := DecryptNandToMem_run E C nand hw [] offset size partition ho
    ⟨sz, hsz2⟩ (by omega)
  refine ⟨hw1, buffer1, _, hw2, ?_, ?_, hfile, ?_, ?_, ?_⟩
  · unfold DecryptNandToFile
    rw [if_neg (by simp [hcreate])]
    exact hloop
  · rw [hfile, hplen]
  · rw [hfile, hmem]
    simp
  · rw [hfile, fileChunks, List.range_eq_range']
  · intro w hw
    unfold fileChunks at hw
    obtain ⟨t, -, rfl⟩ := List.mem_map.mp hw
    simp only [List.length_take, BUFFER_MAX_SIZE_eq]
    omega

/-- C18 (amended) at a range of one mebibyte and one sector at the start of the legacy CTRNAND
partition, on a file layer that never fails. -/
theorem DecryptNandToFile_eq_window_witness :
    ∃ hw1 buffer1 ws hw2,
      DecryptNandToFile xorCtrEngine zeroConsole demoNand okFiles zeroHw [] "/demo.bin"
          0x0B95CA00 0x100200 ctrnandO3DS = some (0, hw1, buffer1, ws)
      ∧ (fileOf ws).length = 0x100200
      ∧ fileOf ws = nandPlain xorCtrEngine zeroConsole demoNand
          (zeroHw.keyY ctrnandO3DS.keyslot) ctrnandO3DS 0x0B95CA00 0x100200
      ∧ DecryptNandToMem xorCtrEngine zeroConsole demoNand zeroHw [] 0x0B95CA00 0x100200
          ctrnandO3DS = some (0, hw2, fileOf ws)
      ∧ ws = (List.range ((0x100200 + 1048575) / 1048576)).map
          (fun t => (t * 1048576, ((fileOf ws).drop (t * 1048576)).take 1048576))
      ∧ ∀ w ∈ ws, w.2.length ≤ BUFFER_MAX_SIZE :=
  DecryptNandToFile_eq_window xorCtrEngine zeroConsole demoNand okFiles zeroHw [] "/demo.bin"
    0x0B95CA00 0x100200 ctrnandO3DS (by decide) (by decide) (by decide) (by decide) (by decide)
    rfl (fun _ _ => rfl)

/-- C18 as stated fails on the 16-byte range at the start of the legacy CTRNAND partition: no
sector is read (`size / 0x200 = 0`), so the 16 bytes written are the transform of what the
scratch memory held (here zero bytes), not the plaintext of the device bytes. -/
theorem DecryptNandToFile_eq_window_counterexample :
    (DecryptNandToFile xorCtrEngine zeroConsole demoNand okFiles zeroHw (List.replicate 16 0)
        "/demo.bin" 0x0B95CA00 0x10 ctrnandO3DS).map (fun r => (r.1, fileOf r.2.2.2))
      = some (0, [55, 71, 8, 255, 247, 113, 157, 213, 151, 158, 200, 117, 214, 38, 46, 200])
    ∧ nandPlain xorCtrEngine zeroConsole demoNand (zeroHw.keyY ctrnandO3DS.keyslot) ctrnandO3DS
        0x0B95CA00 0x10
      = [97, 16, 80, 166, 173, 42, 193, 136, 201, 193, 168, 20, 180, 69, 74, 173]
    ∧ readBytes demoNand 0x0B95CA00 0x10
      = [86, 87, 88, 89, 90, 91, 92, 93, 94, 95, 96, 97, 98, 99, 100, 101] := by
  decide

/-! ## `GetTicketData` -/

theorem GetTicketData.isTick_eq (E : AesEngine) (C : Console) (nand : Nat → Nat) (hw : AesHw)
    (info : PartitionInfo) (o : Nat) (ho : 0x200 ∣ o) :
    GetTicketData.isTick E C nand hw info o
      = memcmp_eq ((nandPlain E C nand (hw.keyY info.keyslot) info o 0x200).take 4) TICK := by
  obtain ⟨hw1, h, -⟩ := DecryptNandToMem_run E C nand hw [] o 0x200 info ho ⟨1, rfl⟩
    (by norm_num)
  unfold GetTicketData.isTick NAND_SECTOR_SIZE
  rw [h]
  simp

/-- One probe of a search loop: the sector test made on the memory `DecryptNandToMem` leaves is
the test `isTick` at that offset, and the key slots are as they were. -/
theorem GetTicketData.probe_eq (E : AesEngine) (C : Console) (nand : Nat → Nat) (hw0 hw : AesHw)
    (info : PartitionInfo) (buffer : List Nat) (o : Nat) (ho : 0x200 ∣ o)
    (hk : hw.keyY = hw0.keyY) :
    ∃ hw1 buffer1, DecryptNandToMem E C nand hw buffer o NAND_SECTOR_SIZE info
        = some (0, hw1, buffer1)
      ∧ hw1.keyY = hw0.keyY
      ∧ memcmp_eq (buffer1.take 4) TICK = GetTicketData.isTick E C nand hw0 info o := by
  obtain ⟨hw1, h, hkey⟩ := DecryptNandToMem_run E C nand hw buffer o 0x200 info ho ⟨1, rfl⟩
    (by norm_num)
  refine ⟨hw1, _, h, by rw [hkey, hk], ?_⟩
  rw [GetTicketData.isTick_eq E C nand hw0 info o ho, hk]
  have hl := nandPlain_length E C nand (hw0.keyY info.keyslot) info o 0x200 ⟨32, by norm_num⟩
  rw [List.take_append_of_le_length (by omega)]

/-- A search loop of `GetTicketData` over a window of `N` sectors that does not wrap: it returns;
either no sector of the window from sector `k` on passes the test and `p` ends at `size`, or `p`
ends at the first sector from `k` on that passes it. The probes are the sectors visited. -/
theorem GetTicketData.search_spec (E : AesEngine) (C : Console) (nand : Nat → Nat)
    (hw0 : AesHw) (info : PartitionInfo) (N base : Nat) (hb : 0x200 ∣ base)
    (h32 : base + 0x200 * N < 2 ^ 32) (m : Nat) :
    ∀ (fuel k : Nat) (hw : AesHw) (buffer probes : List Nat),
      k + m = N → m < fuel → hw.keyY = hw0.keyY →
      ∃ s, GetTicketData.search E C nand info (0x200 * N) base fuel (0x200 * k) hw buffer probes
          = some s
        ∧ s.hw.keyY = hw0.keyY
        ∧ ((s.p = 0x200 * N ∧ s.offset = base
            ∧ (∀ j, k ≤ j → j < N →
                GetTicketData.isTick E C nand hw0 info (base + 0x200 * j) = false)
            ∧ s.probes = probes ++ (List.range' k m).map (fun j => base + 0x200 * j))
          ∨ (∃ j, k ≤ j ∧ j < N ∧ s.p = 0x200 * j ∧ s.offset = base + 0x200 * j
              ∧ GetTicketData.isTick E C nand hw0 info (base + 0x200 * j) = true
              ∧ (∀ j2, k ≤ j2 → j2 < j →
                  GetTicketData.isTick E C nand hw0 info (base + 0x200 * j2) = false)
              ∧ s.probes = probes ++ (List.range' k (j - k + 1)).map
                  (fun j => base + 0x200 * j))) := by
  induction m with
  | zero =>
    intro fuel k hw buffer probes hk hf hkey
    obtain ⟨f, rfl⟩ : ∃ f, fuel = f + 1 := ⟨fuel - 1, by omega⟩
    have hge : ¬ 0x200 * k < 0x200 * N := by omega
    refine ⟨{ p := 0x200 * k, offset := base, hw := hw, buffer := buffer, probes := probes },
      ?_, hkey, Or.inl ⟨by simp only; omega, rfl, fun j h1 h2 => by omega, by simp⟩⟩
    rw [GetTicketData.search, if_neg hge]
  | succ m ih =>
    intro fuel k hw buffer probes hk hf hkey
    obtain ⟨f, rfl⟩ : ∃ f, fuel = f + 1 := ⟨fuel - 1, by omega⟩
    have hlt : 0x200 * k < 0x200 * N := by omega
    obtain ⟨bz, hbz⟩ := hb
    have hoff : (base + 0x200 * k) % 2 ^ 32 = base + 0x200 * k := Nat.mod_eq_of_lt (by omega)
    have hnext : (0x200 * k + NAND_SECTOR_SIZE) % 2 ^ 32 = 0x200 * (k + 1) := by
      unfold NAND_SECTOR_SIZE
      rw [Nat.mod_eq_of_lt (by omega)]; ring
    obtain ⟨hw1, buffer1, hrun, hkey1, htest⟩ := GetTicketData.probe_eq E C nand hw0 hw info
      buffer (base + 0x200 * k) ⟨bz + k, by omega⟩ hkey
    rw [GetTicketData.search, if_pos hlt]
    simp only [hoff, hrun, hnext, htest]
    by_cases ht : GetTicketData.isTick E C nand hw0 info (base + 0x200 * k) = true
    · rw [if_pos ht]
      refine ⟨_, rfl, hkey1, Or.inr ⟨k, le_refl _, by omega, rfl, rfl, ht,
        fun j2 h1 h2 => by omega, ?_⟩⟩
      simp
    · rw [if_neg ht]
      have htf : GetTicketData.isTick E C nand hw0 info (base + 0x200 * k) = false := by
        cases h : GetTicketData.isTick E C nand hw0 info (base + 0x200 * k) with
        | true => exact absurd h ht
        | false => rfl
      obtain ⟨s, hs, hsk, hcase⟩ := ih f (k + 1) hw1 buffer1 (probes ++ [base + 0x200 * k])
        (by omega) (by omega) hkey1
      refine ⟨s, hs, hsk, ?_⟩
      rcases hcase with ⟨hp, ho, hno, hpr⟩ | ⟨j, hj1, hj2, hp, ho, hyes, hno, hpr⟩
      · refine Or.inl ⟨hp, ho, fun j h1 h2 => ?_, ?_⟩
        · rcases Nat.eq_or_lt_of_le h1 with h | h
          · rw [← h]; exact htf
          · exact hno j h h2
        · rw [hpr, List.range'_succ]
          simp
      · refine Or.inr ⟨j, by omega, hj2, hp, ho, hyes, fun j2 h1 h2 => ?_, ?_⟩
        · rcases Nat.eq_or_lt_of_le h1 with h | h
          · rw [← h]; exact htf
          · exact hno j2 h h2
        · have hjk : j - k + 1 = (j - (k + 1) + 1) + 1 := by omega
          have hr : List.range' k (j - k + 1) = k :: List.range' (k + 1) (j - (k + 1) + 1) := by
            rw [hjk, List.range'_succ]
          rw [hpr, hr]
          simp

/-- The two copies that end `GetTicketData` leave the plaintext of the `TICKET_SIZE` bytes at
the first offset followed by that of the `TICKET_SIZE` bytes at the second. -/
theorem GetTicketData.copy_eq (E : AesEngine) (C : Console) (nand : Nat → Nat)
    (info : PartitionInfo) (hw : AesHw) (buffer : List Nat) (o0 o1 : Nat)
    (h0 : 0x200 ∣ o0) (h1 : 0x200 ∣ o1) :
    ∃ hw3 rest, GetTicketData.copy E C nand info hw buffer o0 o1
      = some (hw3, nandPlain E C nand (hw.keyY info.keyslot) info o0 TICKET_SIZE
          ++ nandPlain E C nand (hw.keyY info.keyslot) info o1 TICKET_SIZE ++ rest) := by
  have hT1 : 0x200 ∣ TICKET_SIZE := ⟨0x680, by norm_num [TICKET_SIZE]⟩
  have hT2 : TICKET_SIZE < 2 ^ 32 := by norm_num [TICKET_SIZE]
  unfold GetTicketData.copy
  generalize TICKET_SIZE = T at hT1 hT2 ⊢
  obtain ⟨hw2, hrun2, hkey2⟩ := DecryptNandToMem_run E C nand hw buffer o0 T info h0 hT1 hT2
  obtain ⟨hw3, hrun3, hkey3⟩ := DecryptNandToMem_run E C nand hw2
    ((nandPlain E C nand (hw.keyY info.keyslot) info o0 T ++ buffer.drop T).drop T)
    o1 T info h1 hT1 hT2
  have hl := nandPlain_length E C nand (hw.keyY info.keyslot) info o0 T
    (Nat.dvd_trans ⟨32, by norm_num⟩ hT1)
  rw [hrun2, Option.some_bind, hrun3, Option.some_bind]
  refine ⟨hw3, ((nandPlain E C nand (hw.keyY info.keyslot) info o0 T
    ++ buffer.drop T).drop T).drop T, ?_⟩
  rw [List.take_append_of_le_length (by omega), List.take_of_length_le (by omega),
    hkey2, List.append_assoc]

/-- The three ways `GetTicketData` ends, for a descriptor `info` whose two windows are sector
aligned and do not wrap: no match in the first window; a first match in the first window and no
match in the second; a first match in each, and then the two blobs are in the buffer. -/
theorem GetTicketData_cases (E : AesEngine) (C : Console) (nand : Nat → Nat)
    (platform3DS : Bool) (hw : AesHw) (buffer : List Nat) (info : PartitionInfo) (N : Nat)
    (hinfo : partitions[if platform3DS then 5 else 6]? = some info)
    (ho : 0x200 ∣ info.offset) (hsize : info.size = 0x200 * N)
    (h32 : info.offset + info.size + 0x11BE200 + info.size < 2 ^ 32) :
    ∃ g, GetTicketData E C nand platform3DS hw buffer = some g
      ∧ ((g.code = 1
          ∧ (∀ j, j < N →
              GetTicketData.isTick E C nand hw info (info.offset + 0x200 * j) = false)
          ∧ g.probes = (List.range' 0 N).map (fun j => info.offset + 0x200 * j))
        ∨ (∃ k0, k0 < N
            ∧ GetTicketData.isTick E C nand hw info (info.offset + 0x200 * k0) = true
            ∧ (∀ j, j < k0 →
                GetTicketData.isTick E C nand hw info (info.offset + 0x200 * j) = false)
            ∧ ((g.code = 1
                ∧ (∀ j, j < N → GetTicketData.isTick E C nand hw info
                    (info.offset + 0x200 * k0 + 0x11BE200 + 0x200 * j) = false)
                ∧ g.probes = (List.range' 0 (k0 + 1)).map (fun j => info.offset + 0x200 * j)
                    ++ (List.range' 0 N).map
                        (fun j => info.offset + 0x200 * k0 + 0x11BE200 + 0x200 * j))
              ∨ (∃ k1, k1 < N
                  ∧ GetTicketData.isTick E C nand hw info
                      (info.offset + 0x200 * k0 + 0x11BE200 + 0x200 * k1) = true
                  ∧ (∀ j, j < k1 → GetTicketData.isTick E C nand hw info
                      (info.offset + 0x200 * k0 + 0x11BE200 + 0x200 * j) = false)
                  ∧ g.code = 0
                  ∧ g.offset = [info.offset + 0x200 * k0,
                                info.offset + 0x200 * k0 + 0x11BE200 + 0x200 * k1]
                  ∧ g.probes = (List.range' 0 (k0 + 1)).map (fun j => info.offset + 0x200 * j)
                      ++ (List.range' 0 (k1 + 1)).map
                          (fun j => info.offset + 0x200 * k0 + 0x11BE200 + 0x200 * j)
                  ∧ ∃ rest, g.buffer
                      = nandPlain E C nand (hw.keyY info.keyslot) info
                          (info.offset + 0x200 * k0) TICKET_SIZE
                        ++ nandPlain E C nand (hw.keyY info.keyslot) info
                          (info.offset + 0x200 * k0 + 0x11BE200 + 0x200 * k1) TICKET_SIZE
                        ++ rest)))) := by
  obtain ⟨oz, hoz⟩ := ho
  have hfuel : 0x200 * N / NAND_SECTOR_SIZE + 1 = N + 1 := by
    unfold NAND_SECTOR_SIZE; omega
  obtain ⟨s0, hs0, hk0, hc0⟩ := GetTicketData.search_spec E C nand hw info N info.offset
    ⟨oz, hoz⟩ (by omega) N (N + 1) 0 hw buffer [] (by omega) (by omega) rfl
  rw [Nat.mul_zero] at hs0
  unfold GetTicketData
  simp only [hinfo, hsize, hfuel]
  rw [hs0]
  simp only
  rcases hc0 with ⟨hp, -, hno, hpr⟩ | ⟨k0, -, hk0N, hp, hoff0, hyes0, hno0, hpr0⟩
  · rw [if_pos (by rw [hp])]
    refine ⟨_, rfl, Or.inl ⟨rfl, fun j hj => hno j (Nat.zero_le _) hj, ?_⟩⟩
    simpa using hpr
  · rw [if_neg (by rw [hp]; omega)]
    have hbase : (s0.offset + 0x11BE200) % 2 ^ 32 = info.offset + 0x200 * k0 + 0x11BE200 := by
      rw [hoff0, Nat.mod_eq_of_lt (by omega)]
    obtain ⟨s1, hs1, hk1, hc1⟩ := GetTicketData.search_spec E C nand hw info N
      (info.offset + 0x200 * k0 + 0x11BE200) ⟨oz + k0 + 0x8DF1, by omega⟩ (by omega) N (N + 1) 0
      s0.hw s0.buffer s0.probes (by omega) (by omega) hk0
    rw [Nat.mul_zero] at hs1
    rw [hbase, hs1]
    simp only
    have hpr0b : s0.probes = (List.range' 0 (k0 + 1)).map (fun j => info.offset + 0x200 * j) := by
      simpa using hpr0
    rcases hc1 with ⟨hp1, -, hno1, hpr1⟩ | ⟨k1, -, hk1N, hp1, hoff1, hyes1, hno1, hpr1⟩
    · rw [if_pos (by rw [hp1])]
      refine ⟨_, rfl, Or.inr ⟨k0, hk0N, hyes0, fun j hj => hno0 j (Nat.zero_le _) hj,
        Or.inl ⟨rfl, fun j hj => hno1 j (Nat.zero_le _) hj, ?_⟩⟩⟩
      simp only
      rw [hpr1, hpr0b]
    · rw [if_neg (by rw [hp1]; omega)]
      obtain ⟨hw3, rest, hcopy⟩ := GetTicketData.copy_eq E C nand info s1.hw s1.buffer
        (info.offset + 0x200 * k0) (info.offset + 0x200 * k0 + 0x11BE200 + 0x200 * k1)
        ⟨oz + k0, by omega⟩ ⟨oz + k0 + 0x8DF1 + k1, by omega⟩
      rw [hoff0, hoff1, hcopy]
      refine ⟨_, rfl, Or.inr ⟨k0, hk0N, hyes0, fun j hj => hno0 j (Nat.zero_le _) hj,
        Or.inr ⟨k1, hk1N, hyes1, fun j hj => hno1 j (Nat.zero_le _) hj, rfl, rfl, ?_, ?_⟩⟩⟩
      · simp only
        rw [hpr1, hpr0b, Nat.sub_zero]
      · exact ⟨rest, by simp only; rw [hk1]⟩

theorem partitions_ctrnand (platform3DS : Bool) :
    partitions[if platform3DS then 5 else 6]?
      = some (if platform3DS then ctrnandO3DS else ctrnandN3DS) := by
  cases platform3DS <;> rfl

/-- `GetTicketData` on either platform: the case analysis of `GetTicketData_cases` at the
platform's CTRNAND descriptor. -/
theorem GetTicketData_platform (platform3DS : Bool) :
    ∃ info N, partitions[if platform3DS then 5 else 6]? = some info
      ∧ info = (if platform3DS then ctrnandO3DS else ctrnandN3DS)
      ∧ 0x200 ∣ info.offset ∧ info.size = 0x200 * N ∧ N = info.size / 0x200
      ∧ info.offset + info.size + 0x11BE200 + info.size < 2 ^ 32 := by
  refine ⟨_, _, partitions_ctrnand platform3DS, rfl, ?_, ?_, rfl, ?_⟩
  · cases platform3DS
    · exact ⟨0x5CAD7, by norm_num [ctrnandN3DS]⟩
    · exact ⟨0x5CAE5, by norm_num [ctrnandO3DS]⟩
  · cases platform3DS
    · norm_num [ctrnandN3DS]
    · norm_num [ctrnandO3DS]
  · cases platform3DS
    · norm_num [ctrnandN3DS]
    · norm_num [ctrnandO3DS]

/-- C16: on either platform `GetTicketData` returns. It returns failure exactly when the first
search window (the sectors of the CTRNAND partition range) holds no sector that decrypts to
data beginning with `"TICK"`, or it holds one and the second window (as many sectors, starting
0x11BE200 bytes after the first located offset) holds none. On success each located offset is
the lowest-addressed matching sector of its window, and the buffer holds the `TICKET_SIZE` bytes
decrypted at the first located offset followed by the `TICKET_SIZE` bytes decrypted at the
second. -/
theorem GetTicketData_windows (E : AesEngine) (C : Console) (nand : Nat → Nat)
    (platform3DS : Bool) (hw : AesHw) (buffer : List Nat) :
    ∃ info g, partitions[if platform3DS then 5 else 6]? = some info
      ∧ GetTicketData E C nand platform3DS hw buffer = some g
      ∧ (g.code ≠ 0 ↔
          (∀ j, j < info.size / 0x200 →
            GetTicketData.isTick E C nand hw info (info.offset + 0x200 * j) = false)
          ∨ ∃ k0, k0 < info.size / 0x200
              ∧ GetTicketData.isTick E C nand hw info (info.offset + 0x200 * k0) = true
              ∧ (∀ j, j < k0 →
                  GetTicketData.isTick E C nand hw info (info.offset + 0x200 * j) = false)
              ∧ ∀ j, j < info.size / 0x200 → GetTicketData.isTick E C nand hw info
                  (info.offset + 0x200 * k0 + 0x11BE200 + 0x200 * j) = false)
      ∧ (g.code = 0 →
          ∃ k0 k1 hwa hwb blob0 blob1 rest,
            k0 < info.size / 0x200 ∧ k1 < info.size / 0x200
            ∧ GetTicketData.isTick E C nand hw info (info.offset + 0x200 * k0) = true
            ∧ (∀ j, j < k0 →
                GetTicketData.isTick E C nand hw info (info.offset + 0x200 * j) = false)
            ∧ GetTicketData.isTick E C nand hw info
                (info.offset + 0x200 * k0 + 0x11BE200 + 0x200 * k1) = true
            ∧ (∀ j, j < k1 → GetTicketData.isTick E C nand hw info
                (info.offset + 0x200 * k0 + 0x11BE200 + 0x200 * j) = false)
            ∧ g.offset = [info.offset + 0x200 * k0,
                          info.offset + 0x200 * k0 + 0x11BE200 + 0x200 * k1]
            ∧ DecryptNandToMem E C nand hw [] (info.offset + 0x200 * k0) TICKET_SIZE info
                = some (0, hwa, blob0)
            ∧ DecryptNandToMem E C nand hw []
                (info.offset + 0x200 * k0 + 0x11BE200 + 0x200 * k1) TICKET_SIZE info
                = some (0, hwb, blob1)
            ∧ blob0.length = TICKET_SIZE ∧ blob1.length = TICKET_SIZE
            ∧ g.buffer = blob0 ++ blob1 ++ rest) := by
  obtain ⟨info, N, hinfo, -, ho, hsize, hN, h32⟩ := GetTicketData_platform platform3DS
  obtain ⟨g, hg, hcases⟩ := GetTicketData_cases E C nand platform3DS hw buffer info N hinfo ho
    hsize h32
  subst hN
  obtain ⟨oz, hoz⟩ := ho
  refine ⟨info, g, hinfo, hg, ?_, ?_⟩
  · rcases hcases with ⟨hc, hno, -⟩ | ⟨k0, hk0, hyes0, hno0, ⟨hc, hno1, -⟩ |
      ⟨k1, hk1, hyes1, hno1, hc, -⟩⟩
    · exact ⟨fun _ => Or.inl hno, fun _ => by rw [hc]; decide⟩
    · exact ⟨fun _ => Or.inr ⟨k0, hk0, hyes0, hno0, hno1⟩, fun _ => by rw [hc]; decide⟩
    · constructor
      · intro h; exact absurd hc h
      · rintro (hall | ⟨k, hk, hyes, hno, hall⟩)
        · rw [hall k0 hk0] at hyes0
          exact absurd hyes0 (by decide)
        · have hkk : k = k0 := by
            rcases Nat.lt_trichotomy k k0 with h | h | h
            · rw [hno0 k h] at hyes
              exact absurd hyes (by decide)
            · exact h
            · rw [hno k0 h] at hyes0
              exact absurd hyes0 (by decide)
          subst hkk
          rw [hall k1 hk1] at hyes1
          exact absurd hyes1 (by decide)
  · intro hcode
    rcases hcases with ⟨hc, -, -⟩ | ⟨k0, hk0, hyes0, hno0, ⟨hc, -, -⟩ |
      ⟨k1, hk1, hyes1, hno1, -, hoff, -, rest, hbuf⟩⟩
    · rw [hc] at hcode; exact absurd hcode (by decide)
    · rw [hc] at hcode; exact absurd hcode (by decide)
    · have hT1 : 0x200 ∣ TICKET_SIZE := ⟨0x680, by norm_num [TICKET_SIZE]⟩
      have hT2 : TICKET_SIZE < 2 ^ 32 := by norm_num [TICKET_SIZE]
      obtain ⟨hwa, hra, -⟩ := DecryptNandToMem_run E C nand hw [] (info.offset + 0x200 * k0)
        TICKET_SIZE info ⟨oz + k0, by omega⟩ hT1 hT2
      obtain ⟨hwb, hrb, -⟩ := DecryptNandToMem_run E C nand hw []
        (info.offset + 0x200 * k0 + 0x11BE200 + 0x200 * k1) TICKET_SIZE info
        ⟨oz + k0 + 0x8DF1 + k1, by omega⟩ hT1 hT2
      rw [List.drop_nil, List.append_nil] at hra hrb
      have h16 : 16 ∣ TICKET_SIZE := Nat.dvd_trans ⟨32, by norm_num⟩ hT1
      exact ⟨k0, k1, hwa, hwb, _, _, rest, hk0, hk1, hyes0, hno0, hyes1, hno1, hoff, hra, hrb,
        nandPlain_length E C nand _ info _ TICKET_SIZE h16,
        nandPlain_length E C nand _ info _ TICKET_SIZE h16, hbuf⟩

/-- With the identity engine the first four bytes of a decrypted sector are the device's. -/
theorem nandPlain_idEngine_take (C : Console) (nand : Nat → Nat) (keyY : List Nat)
    (info : PartitionInfo) (o : Nat) :
    (nandPlain idEngine C nand keyY info o 0x200).take 4
      = [nand (o + 0), nand (o + 1), nand (o + 2), nand (o + 3)] := by
  have h32 : 0x200 / 16 = 31 + 1 := by norm_num
  have ht : (readBytes nand o 0x200).take 16 = readBytes nand o 16 :=
    readBytes_take nand o 16 496
  unfold nandPlain
  rw [h32, ctrRun, List.take_append_of_le_length (by rw [idEngine.block_length]; norm_num), ht]
  simp [idEngine, readBytes, List.range_succ]

theorem tickNand_zero (a : Nat) (h : 0x0B95CA03 < a) : tickNand a = 0 := by
  unfold tickNand
  rw [if_neg (by omega), if_neg (by omega), if_neg (by omega), if_neg (by omega)]

/-- On the device `tickNand` no sector after the first of the partition passes the test. -/
theorem isTick_tickNand (hw : AesHw) (info : PartitionInfo) (o : Nat) (ho : 0x200 ∣ o)
    (h : 0x0B95CA00 < o) :
    GetTicketData.isTick idEngine zeroConsole tickNand hw info o = false := by
  rw [GetTicketData.isTick_eq idEngine zeroConsole tickNand hw info o ho,
    nandPlain_idEngine_take, tickNand_zero (o + 0) (by omega)]
  rfl

/-- C17, the code on the device `tickNand` on the legacy platform: the first window matches at
the first sector of the CTRNAND partition, the second window, which starts 0x11BE200 bytes
later and is as long as the partition, holds no match; `GetTicketData` returns 1 having probed
all its 1548059 sectors, among them the sector at the partition's end 0x3AD40000 and the sector
at 0x3BEFE000, neither inside the partition's device range. -/
theorem GetTicketData_probes_outside :
    partitions[5]? = some ctrnandO3DS
    ∧ ctrnandO3DS.offset + ctrnandO3DS.size = 0x3AD40000
    ∧ ∃ g, GetTicketData idEngine zeroConsole tickNand true zeroHw [] = some g
      ∧ g.code = 1
      ∧ g.probes.length = 1 + 1548059
      ∧ 0x3AD40000 ∈ g.probes ∧ 0x3BEFE000 ∈ g.probes := by
  refine ⟨rfl, by decide, ?_⟩
  have hfirst : GetTicketData.isTick idEngine zeroConsole tickNand zeroHw ctrnandO3DS
      (ctrnandO3DS.offset + 0x200 * 0) = true := by
    rw [GetTicketData.isTick_eq idEngine zeroConsole tickNand zeroHw ctrnandO3DS _
      ⟨0x5CAE5, by norm_num [ctrnandO3DS]⟩, nandPlain_idEngine_take]
    decide
  obtain ⟨g, hg, hcases⟩ := GetTicketData_cases idEngine zeroConsole tickNand true zeroHw []
    ctrnandO3DS 1548059 rfl ⟨0x5CAE5, by norm_num [ctrnandO3DS]⟩ (by norm_num [ctrnandO3DS])
    (by norm_num [ctrnandO3DS])
  have hoff : ctrnandO3DS.offset = 0x0B95CA00 := rfl
  rw [hoff] at hcases hfirst
  refine ⟨g, hg, ?_⟩
  rcases hcases with ⟨-, hno, -⟩ | ⟨k0, hk0, hyes0, hno0, ⟨hc, -, hpr⟩ |
    ⟨k1, hk1, hyes1, -⟩⟩
  · rw [hno 0 (by norm_num)] at hfirst
    exact absurd hfirst (by decide)
  · have hk : k0 = 0 := by
      by_contra hne
      rw [hno0 0 (by omega)] at hfirst
      exact absurd hfirst (by decide)
    subst hk
    refine ⟨hc, ?_, ?_, ?_⟩
    · rw [hpr, List.length_append, List.length_map, List.length_map, List.length_range',
        List.length_range']
    · rw [hpr]
      refine List.mem_append_right _ (List.mem_map.mpr ⟨1511722, ?_, by norm_num⟩)
      rw [List.mem_range']
      exact ⟨1511722, by norm_num, by norm_num⟩
    · rw [hpr]
      refine List.mem_append_right _ (List.mem_map.mpr ⟨1548058, ?_, by norm_num⟩)
      rw [List.mem_range']
      exact ⟨1548058, by norm_num, by norm_num⟩
  · rw [isTick_tickNand zeroHw ctrnandO3DS _ ⟨0x5CAE5 + k0 + 0x8DF1 + k1, by omega⟩ (by omega)]
      at hyes1
    exact absurd hyes1 (by decide)

/-! ## `DecryptNandSystemTitles` -/

/-- One iteration of the scan at a sector inside the partition: it returns, appends one probe
for that sector, an accepted size is a non-zero multiple of the sector size that fits in what
remains of the partition, and the loop increment then moves the scan to where the probe ends. -/
theorem DecryptNandSystemTitles.body_spec (E : AesEngine) (C : Console) (nand : Nat → Nat)
    (fl : FileLayer) (info : PartitionInfo) (i : Nat) (st : SystemTitlesState)
    (ho : 0x200 ∣ info.offset) (hreg : 0x0B100000 ≤ info.offset)
    (h32 : info.offset + info.size < 2 ^ 32) (hsz : info.size ≤ 2 ^ 32 - 2 ^ 20)
    (hi : i < info.size) (hia : 0x200 ∣ i) :
    ∃ nxt st1 p, DecryptNandSystemTitles.body E C nand fl info i st = some (nxt, st1)
      ∧ st1.trace = st.trace ++ [p] ∧ p.i = i
      ∧ (∀ size, p.accepted = some size → 0x200 ≤ size ∧ 0x200 ∣ size ∧ i + size ≤ info.size)
      ∧ (∀ i1, nxt = some i1 → (i1 + NAND_SECTOR_SIZE) % 2 ^ 32 = p.next) := by
  obtain ⟨oz, hoz⟩ := ho
  obtain ⟨iz, hiz⟩ := hia
  have hoff : (info.offset + i) % 2 ^ 32 = info.offset + i := Nat.mod_eq_of_lt (by omega)
  obtain ⟨hw1, hrun, -⟩ := DecryptNandToMem_run E C nand st.hw st.buffer (info.offset + i) 0x200
    info ⟨oz + iz, by omega⟩ ⟨1, rfl⟩ (by norm_num)
  have hplain : (i + NAND_SECTOR_SIZE) % 2 ^ 32 = i + NAND_SECTOR_SIZE := by
    unfold NAND_SECTOR_SIZE
    exact Nat.mod_eq_of_lt (by omega)
  unfold DecryptNandSystemTitles.body
  dsimp only
  rw [hoff]
  unfold NAND_SECTOR_SIZE at hplain ⊢
  rw [hrun]
  dsimp only
  rw [if_neg (by simp)]
  generalize nandPlain E C nand (st.hw.keyY info.keyslot) info (info.offset + i) 0x200
    ++ st.buffer.drop 0x200 = buffer
  by_cases hm : memcmp_eq ((buffer.drop 0x100).take 4) NCCH = true
  · rw [if_pos hm]
    generalize hsize : (0x200 * (buffer.getD 0x104 0 ||| (buffer.getD 0x105 0 <<< 8)
      ||| (buffer.getD 0x106 0 <<< 16) ||| (buffer.getD 0x107 0 <<< 24))) % 2 ^ 32 = size
    have hdvd : 0x200 ∣ size := by
      rw [← hsize]
      exact (Nat.dvd_mod_iff ⟨2 ^ 23, by norm_num⟩).mpr ⟨_, rfl⟩
    by_cases hbad : size = 0 ∨ size > info.size - i
    · rw [if_pos hbad]
      exact ⟨_, _, ⟨i, TitleOutcome.invalidSize size⟩, rfl, rfl, rfl,
        fun s h => absurd h (by simp [TitleProbe.accepted]),
        fun i1 h => by
          rw [← Option.some.inj h]
          simp only [TitleProbe.next, TitleProbe.accepted, NAND_SECTOR_SIZE]
          exact hplain⟩
    · rw [if_neg hbad]
      obtain ⟨sz, hsz2⟩ := hdvd
      have hge : 0x200 ≤ size := by omega
      have hfit : i + size ≤ info.size := by omega
      have hnext : ((i + (size + 2 ^ 32 - 0x200) % 2 ^ 32) % 2 ^ 32 + 0x200) % 2 ^ 32
          = i + size := by
        have h1 : (size + 2 ^ 32 - 0x200) % 2 ^ 32 = size - 0x200 := by omega
        rw [h1, Nat.mod_eq_of_lt (by omega), Nat.mod_eq_of_lt (by omega)]
        omega
      generalize "/" ++ hex8 (le32 buffer 0x10C) ++ hex8 (le32 buffer 0x108) ++ ".app"
        = filename
      by_cases hdup : st.files.contains filename = true
      · rw [if_pos hdup]
        exact ⟨_, _, ⟨i, TitleOutcome.duplicate size filename⟩, rfl, rfl, rfl,
          fun s h => by
            simp only [TitleProbe.accepted, Option.some.injEq] at h
            subst h
            exact ⟨hge, ⟨sz, hsz2⟩, hfit⟩,
          fun i1 h => by
            rw [← Option.some.inj h]
            simp only [TitleProbe.next, TitleProbe.accepted, NAND_SECTOR_SIZE]
            exact hnext⟩
      · rw [if_neg hdup]
        obtain ⟨rc2, hw2, buffer2, ws, hfile, hrc, -⟩ := DecryptNandToFile_total E C nand fl hw1
          buffer filename (info.offset + i) size info ⟨oz + iz, by omega⟩ ⟨sz, hsz2⟩
          (Or.inl (by omega)) (by omega) (by omega)
        rw [hfile]
        dsimp only
        by_cases hrc2 : rc2 ≠ 0
        · rw [if_pos hrc2]
          exact ⟨_, _, ⟨i, TitleOutcome.extracted size filename rc2⟩, rfl, rfl, rfl,
            fun s h => by
              simp only [TitleProbe.accepted, Option.some.injEq] at h
              subst h
              exact ⟨hge, ⟨sz, hsz2⟩, hfit⟩,
            fun i1 h => absurd h (by simp)⟩
        · rw [if_neg hrc2]
          exact ⟨_, _, ⟨i, TitleOutcome.extracted size filename rc2⟩, rfl, rfl, rfl,
            fun s h => by
              simp only [TitleProbe.accepted, Option.some.injEq] at h
              subst h
              exact ⟨hge, ⟨sz, hsz2⟩, hfit⟩,
            fun i1 h => by
              rw [← Option.some.inj h]
              simp only [TitleProbe.next, TitleProbe.accepted, NAND_SECTOR_SIZE]
              exact hnext⟩
  · rw [if_neg hm]
    exact ⟨_, _, ⟨i, TitleOutcome.noMagic⟩, rfl, rfl, rfl,
      fun s h => absurd h (by simp [TitleProbe.accepted]),
      fun i1 h => by
        rw [← Option.some.inj h]
        simp only [TitleProbe.next, TitleProbe.accepted, NAND_SECTOR_SIZE]
        exact hplain⟩

theorem TitleProbe.next_ge (p : TitleProbe)
    (h : ∀ size, p.accepted = some size → 0x200 ≤ size) : p.i + 0x200 ≤ p.next := by
  unfold TitleProbe.next
  cases ha : p.accepted with
  | none => simp [NAND_SECTOR_SIZE]
  | some size =>
    have := h size ha
    simp only
    omega

theorem TitleProbe.next_le (p : TitleProbe) (n : Nat) (hi : p.i < n) (hia : 0x200 ∣ p.i)
    (hn : 0x200 ∣ n) (h : ∀ size, p.accepted = some size → p.i + size ≤ n) : p.next ≤ n := by
  unfold TitleProbe.next
  cases ha : p.accepted with
  | none =>
    obtain ⟨a, ha2⟩ := hia
    obtain ⟨b, hb⟩ := hn
    simp only [NAND_SECTOR_SIZE]
    omega
  | some size => exact h size ha

theorem TitleProbe.next_dvd (p : TitleProbe) (hia : 0x200 ∣ p.i)
    (h : ∀ size, p.accepted = some size → 0x200 ∣ size) : 0x200 ∣ p.next := by
  unfold TitleProbe.next
  cases ha : p.accepted with
  | none => exact Nat.dvd_add hia ⟨1, rfl⟩
  | some size => exact Nat.dvd_add hia (h size ha)

/-- The scan loop of `DecryptNandSystemTitles` returns, and every probe it makes lies at or
after the end of each earlier probe: past the accepted region, or past the sector tested. -/
theorem DecryptNandSystemTitles.loop_spec (E : AesEngine) (C : Console) (nand : Nat → Nat)
    (fl : FileLayer) (info : PartitionInfo)
    (ho : 0x200 ∣ info.offset) (hreg : 0x0B100000 ≤ info.offset)
    (h32 : info.offset + info.size < 2 ^ 32) (hsz : info.size ≤ 2 ^ 32 - 2 ^ 20)
    (hsd : 0x200 ∣ info.size) (m : Nat) :
    ∀ (fuel i : Nat) (st : SystemTitlesState),
      m < fuel → info.size ≤ i + 0x200 * m → 0x200 ∣ i → i ≤ info.size →
      st.trace.Pairwise (fun a b => a.next ≤ b.i) →
      (∀ p ∈ st.trace, p.next ≤ i) →
      (∀ p ∈ st.trace, ∀ size, p.accepted = some size →
        0x200 ≤ size ∧ p.i + size ≤ info.size) →
      ∃ rc st1, DecryptNandSystemTitles.loop E C nand fl info fuel i st = some (rc, st1)
        ∧ (rc = 0 ∨ rc = 1)
        ∧ st1.trace.Pairwise (fun a b => a.next ≤ b.i)
        ∧ (∀ p ∈ st1.trace, ∀ size, p.accepted = some size →
            0x200 ≤ size ∧ p.i + size ≤ info.size)
        ∧ ∃ tail, st1.trace = st.trace ++ tail
            ∧ (i < info.size → ∃ p rest, tail = p :: rest ∧ p.i = i) := by
  induction m with
  | zero =>
    intro fuel i st hf hm hia hile hpw hnext hacc
    obtain ⟨f, rfl⟩ : ∃ f, fuel = f + 1 := ⟨fuel - 1, by omega⟩
    refine ⟨0, st, ?_, Or.inl rfl, hpw, hacc, [], (List.append_nil _).symm,
      fun h => absurd h (by omega)⟩
    rw [DecryptNandSystemTitles.loop, if_neg (by omega)]
  | succ m ih =>
    intro fuel i st hf hm hia hile hpw hnext hacc
    obtain ⟨f, rfl⟩ : ∃ f, fuel = f + 1 := ⟨fuel - 1, by omega⟩
    by_cases hi : i < info.size
    · obtain ⟨nxt, st1, p, hbody, htrace, hpi, hpacc, hpnext⟩ :=
        DecryptNandSystemTitles.body_spec E C nand fl info i st ho hreg h32 hsz hi hia
      have hpw1 : st1.trace.Pairwise (fun a b => a.next ≤ b.i) := by
        rw [htrace, List.pairwise_append]
        refine ⟨hpw, List.pairwise_singleton _ _, fun a ha b hb => ?_⟩
        rw [List.mem_singleton.mp hb, hpi]
        exact hnext a ha
      have hacc1 : ∀ q ∈ st1.trace, ∀ size, q.accepted = some size →
          0x200 ≤ size ∧ q.i + size ≤ info.size := by
        intro q hq size hs
        rw [htrace] at hq
        rcases List.mem_append.mp hq with h | h
        · exact hacc q h size hs
        · rw [List.mem_singleton.mp h] at hs ⊢
          have := hpacc size hs
          rw [hpi]
          exact ⟨this.1, this.2.2⟩
      rw [DecryptNandSystemTitles.loop, if_pos hi, hbody]
      cases nxt with
      | none => exact ⟨1, st1, rfl, Or.inr rfl, hpw1, hacc1, [p], htrace, fun _ => ⟨p, [], rfl, hpi⟩⟩
      | some i1 =>
        dsimp only
        rw [hpnext i1 rfl]
        have hge : p.i + 0x200 ≤ p.next :=
          TitleProbe.next_ge p (fun size hs => (hpacc size hs).1)
        have hle : p.next ≤ info.size :=
          TitleProbe.next_le p info.size (by rw [hpi]; exact hi) (by rw [hpi]; exact hia) hsd
            (fun size hs => by rw [hpi]; exact (hpacc size hs).2.2)
        have hdvd : 0x200 ∣ p.next :=
          TitleProbe.next_dvd p (by rw [hpi]; exact hia) (fun size hs => (hpacc size hs).2.1)
        obtain ⟨rc, st2, hloop, hrc, hpw2, hacc2, tail, htail, -⟩ :=
          ih f p.next st1 (by omega) (by omega) hdvd hle hpw1
            (fun q hq => by
              rw [htrace] at hq
              rcases List.mem_append.mp hq with h | h
              · have := hnext q h
                omega
              · rw [List.mem_singleton.mp h])
            hacc1
        refine ⟨rc, st2, hloop, hrc, hpw2, hacc2, p :: tail, ?_, fun _ => ⟨p, tail, rfl, hpi⟩⟩
        rw [htail, htrace, List.append_assoc, List.singleton_append]
    · refine ⟨0, st, ?_, Or.inl rfl, hpw, hacc, [], (List.append_nil _).symm,
        fun h => absurd h hi⟩
      rw [DecryptNandSystemTitles.loop, if_neg hi]

/-- C14: on either platform and for every device content, engine, file layer and set of files
present, `DecryptNandSystemTitles` returns, and among the sectors it tests for the magic, in the
order it tests them: the partition offsets are strictly increasing, and every sector tested
after a content region `[i, i + size)` was accepted (extracted, or skipped as an already
extracted duplicate) lies at or after the end of that region. Accepted regions are therefore
pairwise disjoint and visited in strictly increasing order, and no sector inside one is tested
again. The first sector tested is the first of the partition, and every accepted region is at
least one sector long. -/
theorem DecryptNandSystemTitles_regions (E : AesEngine) (C : Console) (nand : Nat → Nat)
    (fl : FileLayer) (platform3DS : Bool) (hw : AesHw) (buffer : List Nat)
    (files : List String) :
    ∃ rc st, DecryptNandSystemTitles E C nand fl platform3DS hw buffer files = some (rc, st)
      ∧ st.trace.Pairwise (fun a b => a.i < b.i)
      ∧ st.trace.Pairwise (fun a b => ∀ size, a.accepted = some size → a.i + size ≤ b.i)
      ∧ st.trace.Pairwise (fun a b => ∀ sa sb, a.accepted = some sa → b.accepted = some sb →
          ∀ x, ¬ (a.i ≤ x ∧ x < a.i + sa ∧ b.i ≤ x ∧ x < b.i + sb))
      ∧ (∃ p rest, st.trace = p :: rest ∧ p.i = 0)
      ∧ ∀ p ∈ st.trace, ∀ size, p.accepted = some size → NAND_SECTOR_SIZE ≤ size := by
  obtain ⟨info, N, hinfo, -, ho, hsize, -, h32⟩ := GetTicketData_platform platform3DS
  have hreg : 0x0B100000 ≤ info.offset ∧ info.size ≤ 2 ^ 32 - 2 ^ 20 := by
    have h := partitions_ctrnand platform3DS
    rw [hinfo] at h
    rw [Option.some.inj h]
    cases platform3DS
    · norm_num [ctrnandN3DS]
    · norm_num [ctrnandO3DS]
  obtain ⟨rc, st, hloop, -, hpw, hacc, tail, htail, hfirst⟩ :=
    DecryptNandSystemTitles.loop_spec E C nand fl info ho
    hreg.1 (by omega) hreg.2 ⟨N, hsize⟩ N (info.size / NAND_SECTOR_SIZE + 1) 0
    { hw := hw, buffer := buffer, files := files, nTitles := 0, trace := [] }
    (by unfold NAND_SECTOR_SIZE; omega) (by omega) ⟨0, rfl⟩ (Nat.zero_le _)
    List.Pairwise.nil (fun p hp => absurd hp (List.not_mem_nil p))
    (fun p hp => absurd hp (List.not_mem_nil p))
  have hpos : 0 < info.size := by
    have h := partitions_ctrnand platform3DS
    rw [hinfo] at h
    rw [Option.some.inj h]
    cases platform3DS
    · norm_num [ctrnandN3DS]
    · norm_num [ctrnandO3DS]
  refine ⟨rc, st, ?_, ?_, ?_, ?_, ?_, fun p hp size hs => (hacc p hp size hs).1⟩
  · unfold DecryptNandSystemTitles
    rw [hinfo]
    exact hloop
  · have hge : ∀ a ∈ st.trace, a.i + 0x200 ≤ a.next := fun a ha =>
      TitleProbe.next_ge a (fun size hs => (hacc a ha size hs).1)
    exact (List.Pairwise.and_mem.mp hpw).imp (fun ⟨ha, _, h⟩ => by
      have := hge _ ha
      omega)
  · exact hpw.imp (fun {a b} h size hs => by
      unfold TitleProbe.next at h
      rw [hs] at h
      exact h)
  · exact hpw.imp (fun {a b} h sa sb hsa _ x hx => by
      unfold TitleProbe.next at h
      rw [hsa] at h
      simp only at h
      omega)
  · obtain ⟨p, rest, hpr, hp0⟩ := hfirst hpos
    exact ⟨p, rest, by rw [htail, hpr]; rfl, hp0⟩

/-- C15, the code at a sector whose media-unit count is 0x00800001: 512 times the count is
0x100000200 bytes, more than the whole partition, yet the candidate is not rejected: the 32-bit
product is 0x200, the region `[0, 0x200)` is accepted and one sector is extracted. -/
theorem DecryptNandSystemTitles_size_wraps :
    le32 (readBytes ncchNand ctrnandO3DS.offset 0x200) 0x104 = 0x00800001
    ∧ ctrnandO3DS.size - 0 < 0x200 * 0x00800001
    ∧ (DecryptNandSystemTitles.body idEngine zeroConsole ncchNand okFiles ctrnandO3DS 0
        titlesStart).map (fun r => (r.1, r.2.trace.map (fun p => (p.i, p.accepted)), r.2.nTitles))
      = some (some 0, [(0, some 0x200)], 1) := by
  decide

/-! ## The partition table per platform -/

/-- The rows of `partitions` a platform has: the five common ones and its CTRNAND variant. -/
theorem platformPartitions_eq (platform3DS : Bool) :
    platformPartitions platform3DS
      = partitions.take 5 ++ [if platform3DS then ctrnandO3DS else ctrnandN3DS] := by
  cases platform3DS <;> decide

/-- C21: for each platform, the partitions it has (the rows of `partitions` that
`DecryptNandPartitions` dumps: the five common ones and the platform's CTRNAND variant) are
well-formed: every offset and size is a multiple of the 0x200-byte sector size and every size is
positive; the byte ranges come in increasing order and each ends at or before the start of the
next, so they are pairwise disjoint; each range ends at or before the NAND size `DumpNand` takes
for the platform (0x3AF00000 legacy, 0x4D800000 new); and no range straddles the counter-regime
threshold 0x0B100000 of `GetNandCtr`: the TWL-mode partitions end at or below it, the CTR-mode
partitions start at or above it. -/
theorem partitions_wellformed (platform3DS : Bool) :
    (platformPartitions platform3DS).map (fun p => p.name)
      = ["TWLN", "TWLP", "AGBSAVE", "FIRM0", "FIRM1", "CTRNAND"]
    ∧ (∀ p ∈ platformPartitions platform3DS,
        NAND_SECTOR_SIZE ∣ p.offset ∧ NAND_SECTOR_SIZE ∣ p.size ∧ 0 < p.size)
    ∧ (platformPartitions platform3DS).Pairwise (fun a b => a.offset < b.offset)
    ∧ (platformPartitions platform3DS).Pairwise (fun a b => a.offset + a.size ≤ b.offset)
    ∧ (∀ p ∈ platformPartitions platform3DS,
        p.offset + p.size ≤ DumpNand.nand_size platform3DS)
    ∧ (∀ p ∈ platformPartitions platform3DS,
        p.offset + p.size ≤ 0x0B100000 ∨ 0x0B100000 ≤ p.offset)
    ∧ (∀ p ∈ platformPartitions platform3DS,
        (p.mode = AES_CNT_TWLNAND_MODE → p.offset + p.size ≤ 0x0B100000)
        ∧ (p.mode = AES_CNT_CTRNAND_MODE → 0x0B100000 ≤ p.offset)
        ∧ (p.mode = AES_CNT_TWLNAND_MODE ∨ p.mode = AES_CNT_CTRNAND_MODE)) := by
  cases platform3DS
  · decide
  · decide

/-- The loop of `DecryptNandPartitions` over rows that are sector aligned, lie on one side of the
counter-regime threshold and fit the `u32` bounds: it returns, and the calls of
`DecryptNandToFile` it makes are for the available rows, in order. -/
theorem DecryptNandPartitions.loop_rows (E : AesEngine) (C : Console) (nand : Nat → Nat)
    (fl : FileLayer) (o3ds : Bool) :
    ∀ (l : List Nat) (hw : AesHw) (buffer : List Nat) (result : Nat)
      (calls : List (PartitionInfo × Nat)),
      (∀ p ∈ l, DecryptNandPartitions.available o3ds p = true →
        ∃ part, partitions[p]? = some part ∧ 0x200 ∣ part.offset ∧ 0x200 ∣ part.size
          ∧ (0x0B100000 ≤ part.offset ∨ part.offset + part.size ≤ 0x0B100000)
          ∧ part.offset + part.size ≤ 2 ^ 32 ∧ part.size ≤ 2 ^ 32 - 2 ^ 20) →
      ∃ r hw1 buffer1 new,
        DecryptNandPartitions.loop E C nand fl o3ds l hw buffer result calls
          = some (r, hw1, buffer1, calls ++ new)
        ∧ new.map Prod.fst
            = (l.filter (DecryptNandPartitions.available o3ds)).filterMap
                (fun p => partitions[p]?) := by
  intro l
  induction l with
  | nil =>
    intro hw buffer result calls _
    exact ⟨result, hw, buffer, [], by simp [DecryptNandPartitions.loop], rfl⟩
  | cons p rest ih =>
    intro hw buffer result calls hall
    have hrest : ∀ q ∈ rest, DecryptNandPartitions.available o3ds q = true →
        ∃ part, partitions[q]? = some part ∧ 0x200 ∣ part.offset ∧ 0x200 ∣ part.size
          ∧ (0x0B100000 ≤ part.offset ∨ part.offset + part.size ≤ 0x0B100000)
          ∧ part.offset + part.size ≤ 2 ^ 32 ∧ part.size ≤ 2 ^ 32 - 2 ^ 20 :=
      fun q hq => hall q (List.mem_cons_of_mem _ hq)
    by_cases hav : DecryptNandPartitions.available o3ds p = true
    · obtain ⟨part, hpart, ho, hs, hreg, h32, hsz⟩ := hall p (List.mem_cons_self _ _) hav
      obtain ⟨rc, hw1, buffer1, ws, hfile, -, -⟩ := DecryptNandToFile_total E C nand fl hw
        buffer ("/" ++ part.name ++ ".bin") part.offset part.size part ho hs hreg h32 hsz
      obtain ⟨r, hw2, buffer2, new, hloop, hmap⟩ := ih hw1 buffer1 ((result + rc) % 2 ^ 32)
        (calls ++ [(part, rc)]) hrest
      refine ⟨r, hw2, buffer2, (part, rc) :: new, ?_, ?_⟩
      · rw [DecryptNandPartitions.loop, if_pos hav, hpart]
        dsimp only
        rw [hfile]
        dsimp only
        rw [hloop, List.append_assoc, List.singleton_append]
      · rw [List.filter_cons, if_pos hav, List.filterMap_cons, hpart, List.map_cons, hmap]
    · obtain ⟨r, hw2, buffer2, new, hloop, hmap⟩ := ih hw buffer result calls hrest
      refine ⟨r, hw2, buffer2, new, ?_, ?_⟩
      · rw [DecryptNandPartitions.loop, if_neg hav, hloop]
      · rw [List.filter_cons, if_neg hav, hmap]

/-- `DecryptNandPartitions` returns on either platform, whatever the device holds and the file
layer does, and the partitions it hands to `DecryptNandToFile` are, in order, those of the
platform. -/
theorem DecryptNandPartitions_calls (E : AesEngine) (C : Console) (nand : Nat → Nat)
    (fl : FileLayer) (platform3DS : Bool) (hw : AesHw) (buffer : List Nat) :
    ∃ r hw1 buffer1 calls,
      DecryptNandPartitions E C nand fl platform3DS hw buffer = some (r, hw1, buffer1, calls)
      ∧ calls.map Prod.fst = platformPartitions platform3DS := by
  have hall : ∀ p ∈ List.range 7, DecryptNandPartitions.available platform3DS p = true →
      ∃ part, partitions[p]? = some part ∧ 0x200 ∣ part.offset ∧ 0x200 ∣ part.size
        ∧ (0x0B100000 ≤ part.offset ∨ part.offset + part.size ≤ 0x0B100000)
        ∧ part.offset + part.size ≤ 2 ^ 32 ∧ part.size ≤ 2 ^ 32 - 2 ^ 20 := by
    intro p hp _
    have hp7 : p < 7 := List.mem_range.mp hp
    have hlen : p < partitions.length := by
      have : partitions.length = 7 := rfl
      omega
    refine ⟨partitions[p], List.getElem?_eq_getElem hlen, ?_⟩
    have hrows : ∀ part ∈ partitions, 0x200 ∣ part.offset ∧ 0x200 ∣ part.size
        ∧ (0x0B100000 ≤ part.offset ∨ part.offset + part.size ≤ 0x0B100000)
        ∧ part.offset + part.size ≤ 2 ^ 32 ∧ part.size ≤ 2 ^ 32 - 2 ^ 20 := by decide
    exact hrows _ (List.getElem_mem hlen)
  obtain ⟨r, hw1, buffer1, new, hloop, hmap⟩ := DecryptNandPartitions.loop_rows E C nand fl
    platform3DS (List.range 7) hw buffer 0 [] hall
  rw [List.nil_append] at hloop
  exact ⟨r, hw1, buffer1, new, hloop, hmap⟩

end Decrypt9
